import Mathlib

/-!
Verification development for the Gauss-Jordan reduction engine of the
Calculadora_AlgebraLineal repository.

Shallow embedding conventions.

Python numeric cells are either `float` or `fractions.Fraction`.  We model a
cell as a pair of a tag (`isFloat`) and an exact rational value.  Python's
numeric-tower promotion (`float` op anything yields `float`, `Fraction` op
`Fraction` yields `Fraction`) acts on the tag, while the arithmetic acts on
the value.  IEEE rounding of `float` operations is abstracted away: values
are kept exact.  All arithmetic comparisons in the source (`abs(x) > eps`,
`x == 0`, ...) are numeric-value comparisons in Python (a `Fraction` compares
equal to a `float` of the same value), so they only consult the `.val`
projection here.

`Matriz` is the list of its rows (`Matriz._datos`).  The row/column counts
stored by the class are recovered as `filas`/`columnas`.  Bounds-check errors
(`IndexError`, shape validation) guard branches that are never taken by the
reduction engine; the theorems below carry the in-range/rectangularity facts
as hypotheses instead of modelling those exceptions.  The one exception that
the engine itself can raise, `ZeroDivisionError` in
`OperadorFilas.normalizar_pivote`, is modelled by an `Option` result (`none`
is the propagated exception), as is the `RuntimeError` of
`SolucionadorGaussJordan._fila_pivote`.
-/

/-- A Python numeric cell: `isFloat` is `true` for `float` values and `false`
for `fractions.Fraction` values; `val` is the (exact) rational value. -/
structure PyNum where
  isFloat : Bool
  val : ℚ
  deriving DecidableEq

/-- The default cell used for out-of-range reads (never reached in-range). -/
def pyZero : PyNum := ⟨false, 0⟩

/-- Python addition: value addition, float tag propagates. -/
def pyAdd (a b : PyNum) : PyNum := ⟨a.isFloat || b.isFloat, a.val + b.val⟩

/-- Python multiplication: value multiplication, float tag propagates. -/
def pyMul (a b : PyNum) : PyNum := ⟨a.isFloat || b.isFloat, a.val * b.val⟩

/-- Python true division: value division, float tag propagates. -/
def pyDiv (a b : PyNum) : PyNum := ⟨a.isFloat || b.isFloat, a.val / b.val⟩

/-- Python unary negation keeps the numeric type. -/
def pyNeg (a : PyNum) : PyNum := ⟨a.isFloat, -a.val⟩

/-- The Python `float(x)` coercion applied by `SistemaLineal.__init__` and
`SistemaMatricial.__init__`: the result is a `float` (rounding abstracted). -/
def pyFloat (a : PyNum) : PyNum := ⟨true, a.val⟩

/-- A Python `float` literal such as `0.0`, `1.0`. -/
def pyLitFloat (q : ℚ) : PyNum := ⟨true, q⟩

/-- The `Fraction(elem)` conversion of `Operadores.matrices.to_fraction_matrix`:
the result is an exact `Fraction` with the same value. -/
def pyFraction (a : PyNum) : PyNum := ⟨false, a.val⟩

/-- `Models.matriz.Matriz`: a dense matrix, represented by its list of rows
(the `_datos` field). -/
abbrev Matriz : Type := List (List PyNum)

/-- `Matriz.filas`: the stored row count (length of `_datos`). -/
def filas (m : Matriz) : ℕ := m.length

/-- `Matriz.columnas`: the stored column count; for the rectangular matrices
the constructor admits this is the length of the first row. -/
def columnas (m : Matriz) : ℕ := (m.headD []).length

/-- `Matriz.obtener(i, j)`: read one cell (in-range in every reachable call). -/
def obtener (m : Matriz) (i j : ℕ) : PyNum := (m.getD i []).getD j pyZero

/-- `Matriz.obtener_fila(i)`: read one row (returned as a copy in Python). -/
def obtener_fila (m : Matriz) (i : ℕ) : List PyNum := m.getD i []

/-- `Matriz.asignar_fila(i, nueva_fila)`: replace one row. -/
def asignar_fila (m : Matriz) (i : ℕ) (nueva_fila : List PyNum) : Matriz :=
  m.set i nueva_fila

/-- `Matriz.clonar()`: a deep copy; as a value it is the matrix itself.  The
aliasing content of cloning is modelled separately by the object store
(`Almacen`) below. -/
def clonar (m : Matriz) : Matriz := m

/-- `Matriz.como_lista()`: the data as nested lists (a deep copy in Python). -/
def como_lista (m : Matriz) : List (List PyNum) := m

/-- Rectangularity invariant established by the `Matriz` constructor:
at least one row, and every row has the same length `c`. -/
def MatrizWF (m : Matriz) (c : ℕ) : Prop :=
  m ≠ [] ∧ ∀ fila ∈ m, fila.length = c

/-- `OperadorFilas.intercambiar(i, j)`: swap two rows (no-op when equal). -/
def intercambiar (m : Matriz) (i j : ℕ) : Matriz :=
  if i = j then m
  else asignar_fila (asignar_fila m i (obtener_fila m j)) j (obtener_fila m i)

/-- `OperadorFilas.escalar(i, factor)`: scale a row; a zero factor replaces
the row by `[0.0] * columnas` (float zeros). -/
def escalar (m : Matriz) (i : ℕ) (factor : PyNum) : Matriz :=
  if factor.val = 0 then
    asignar_fila m i (List.replicate (columnas m) (pyLitFloat 0))
  else
    asignar_fila m i ((obtener_fila m i).map (fun x => pyMul factor x))

/-- `OperadorFilas.combinar(destino, fuente, factor)`:
`destino <- destino + factor * fuente`.  The `destino == fuente` and
length-mismatch errors are never triggered by the reducer (it always combines
two distinct rows of one rectangular matrix). -/
def combinar (m : Matriz) (destino fuente : ℕ) (factor : PyNum) : Matriz :=
  asignar_fila m destino
    (List.zipWith (fun a b => pyAdd a (pyMul factor b))
      (obtener_fila m destino) (obtener_fila m fuente))

/-- `OperadorFilas.normalizar_pivote(fila, col_pivote, eps)`: raise
`ZeroDivisionError` (modelled `none`) when the pivot magnitude is at most
`eps`, otherwise scale the row by the float `1.0 / pivote`. -/
def normalizar_pivote (m : Matriz) (fila col_pivote : ℕ) (eps : ℚ) : Option Matriz :=
  let pivote := obtener m fila col_pivote
  if |pivote.val| ≤ eps then none
  else some (escalar m fila (pyDiv (pyLitFloat 1) pivote))

/-- A pivot-selection strategy, as in `Operadores.estrategia_pivoteo`:
matrix, column, start row, epsilon, giving an optional pivot row. -/
abbrev EstrategiaPivoteo : Type := Matriz → ℕ → ℕ → ℚ → Option ℕ

/-- `PivoteoParcial.seleccionar_pivote(m, col, desde_fila, eps)`: scan the rows
from `desde_fila`, keeping the first row whose absolute value strictly exceeds
the best so far (initially 0); answer `None` when out of columns or when no
positive maximum was found.  Note the scan compares against 0, not `eps`. -/
def seleccionar_pivote (m : Matriz) (col desde_fila : ℕ) (eps : ℚ) : Option ℕ :=
  if columnas m ≤ col then none
  else
    let r := (List.range' desde_fila (filas m - desde_fila)).foldl
      (fun acc i =>
        let v := |(obtener m i col).val|
        if v > acc.2 then (some i, v) else acc)
      ((none : Option ℕ), (0 : ℚ))
    match r with
    | (none, _) => none
    | (some mejor_fila, mejor_val) => if mejor_val = 0 then none else some mejor_fila

/-- Operation kinds recorded by `Operadores.registrador` (the `Operacion`
literal type). -/
inductive Operacion where
  | SELECCION_PIVOTE
  | INTERCAMBIO_FILAS
  | ESCALAR_FILA
  | ELIMINAR_DEBAJO
  | ELIMINAR_ENCIMA
  | NORMALIZAR_PIVOTE
  deriving DecidableEq

/-- One recorded step (`PasoReduccion`).  The display-only `descripcion`
formatted string is not modelled. -/
structure PasoReduccion where
  numero : ℕ
  operacion : Operacion
  pivote_fila : Option ℕ
  pivote_col : Option ℕ
  filas_afectadas : List ℕ
  factor : Option PyNum
  antes : Option (List (List PyNum))
  despues : Option (List (List PyNum))
  deriving DecidableEq

/-- `RegistradorOperaciones.nuevo_paso`, guarded by the presence of a
recorder (`registrar`): append one step with the next sequence number. -/
def nuevo_paso (registrar : Bool) (hist : List PasoReduccion) (cnt : ℕ)
    (operacion : Operacion) (pivote_fila pivote_col : Option ℕ)
    (filas_afectadas : List ℕ) (factor : Option PyNum)
    (antes despues : Option (List (List PyNum))) :
    List PasoReduccion × ℕ :=
  if registrar then
    (hist ++ [⟨cnt + 1, operacion, pivote_fila, pivote_col, filas_afectadas,
      factor, antes, despues⟩], cnt + 1)
  else (hist, cnt)

/-- The running state of `ReductorEscalonado.a_forma_escalonada_reducida`:
the live matrix `m`, the current pivot row `r`, the pivot columns so far, and
the recorder contents (history, step counter). -/
structure RedEstado where
  m : Matriz
  r : ℕ
  pivots : List ℕ
  hist : List PasoReduccion
  cnt : ℕ

/-- The elimination inner loops of the reducer: for each row index `i` in
`idxs`, when `|m[i][c]| > eps`, apply `combinar i r (-val)` and record the
step (`ELIMINAR_DEBAJO` below the pivot, `ELIMINAR_ENCIMA` above). -/
def eliminar_filas (eps : ℚ) (oper : Operacion) (registrar : Bool)
    (r c : ℕ) : List ℕ → Matriz → List PasoReduccion → ℕ →
    Matriz × List PasoReduccion × ℕ
  | [], m, hist, cnt => (m, hist, cnt)
  | i :: rest, m, hist, cnt =>
    let val := obtener m i c
    if |val.val| > eps then
      let antes := if registrar then some (como_lista m) else none
      let m2 := combinar m i r (pyNeg val)
      let paso := nuevo_paso registrar hist cnt oper (some r) (some c) [i]
        (some (pyNeg val)) antes (some (como_lista m2))
      eliminar_filas eps oper registrar r c rest m2 paso.1 paso.2
    else
      eliminar_filas eps oper registrar r c rest m hist cnt

/-- The swap block at the head of each pivot iteration of the reducer:
when the selected row is not the current pivot row, exchange them and record
the `INTERCAMBIO_FILAS` step. -/
def paso_intercambio (registrar : Bool) (c : ℕ) (st : RedEstado) (fila_piv : ℕ) :
    Matriz × List PasoReduccion × ℕ :=
  if fila_piv ≠ st.r then
    let antes := if registrar then some (como_lista st.m) else none
    let m1 := intercambiar st.m fila_piv st.r
    let paso := nuevo_paso registrar st.hist st.cnt
      Operacion.INTERCAMBIO_FILAS (some st.r) (some c) [fila_piv, st.r]
      none antes (some (como_lista m1))
    (m1, paso.1, paso.2)
  else (st.m, st.hist, st.cnt)

/-- The column loop of `ReductorEscalonado.a_forma_escalonada_reducida` over
the remaining variable columns `cols`.  `r >= m.filas` is the `break`;
a failed pivot search is the `continue`; a failing `normalizar_pivote`
(`ZeroDivisionError`) aborts the whole reduction (`none`). -/
def a_forma_aux (pivoteo : EstrategiaPivoteo) (eps : ℚ) (registrar : Bool) :
    List ℕ → RedEstado → Option RedEstado
  | [], st => some st
  | c :: rest, st =>
    if filas st.m ≤ st.r then some st
    else
      match pivoteo st.m c st.r eps with
      | none => a_forma_aux pivoteo eps registrar rest st
      | some fila_piv =>
        let paso1 := paso_intercambio registrar c st fila_piv
        match normalizar_pivote paso1.1 st.r c eps with
        | none => none
        | some m2 =>
          let antes := if registrar then some (como_lista paso1.1) else none
          let paso2 := nuevo_paso registrar paso1.2.1 paso1.2.2
            Operacion.NORMALIZAR_PIVOTE (some st.r) (some c) [] none antes
            (some (como_lista m2))
          let debajo := eliminar_filas eps Operacion.ELIMINAR_DEBAJO registrar
            st.r c (List.range' (st.r + 1) (filas m2 - (st.r + 1))) m2 paso2.1 paso2.2
          let encima := eliminar_filas eps Operacion.ELIMINAR_ENCIMA registrar
            st.r c (List.range st.r) debajo.1 debajo.2.1 debajo.2.2
          a_forma_aux pivoteo eps registrar rest
            ⟨encima.1, st.r + 1, st.pivots ++ [c], encima.2.1, encima.2.2⟩

/-- `ResultadoRREF`: reduced matrix, pivot columns, rank. -/
structure ResultadoRREF where
  matriz_rref : Matriz
  columnas_pivote : List ℕ
  rango : ℕ

/-- `ReductorEscalonado.a_forma_escalonada_reducida`: clone the augmented
matrix, run the column loop over the variable columns, and package the
result together with the recorded history. -/
def a_forma_escalonada_reducida (matriz_aumentada : Matriz) (num_variables : ℕ)
    (pivoteo : EstrategiaPivoteo) (eps : ℚ) (registrar : Bool) :
    Option (ResultadoRREF × List PasoReduccion) :=
  let m := clonar matriz_aumentada
  match a_forma_aux pivoteo eps registrar (List.range num_variables)
      ⟨m, 0, [], [], 0⟩ with
  | none => none
  | some st => some (⟨st.m, st.pivots, st.pivots.length⟩, st.hist)

/-- `Operadores.sistema_lineal.SistemaLineal`: coefficient matrix plus
right-hand side.  The constructor coerces every entry of `b` with `float`. -/
structure SistemaLineal where
  A : Matriz
  b : List PyNum

/-- The `SistemaLineal.__init__` body (dimension check modelled as a
hypothesis where needed): `self._b = list(float(x) for x in b)`. -/
def sistema_lineal_mk (A : Matriz) (b : List PyNum) : SistemaLineal :=
  ⟨A, b.map pyFloat⟩

/-- `SistemaLineal.num_variables()`. -/
def num_variables (s : SistemaLineal) : ℕ := columnas s.A

/-- `SistemaLineal.como_matriz_aumentada()`: rows of `A`, each with the
matching entry of `b` appended. -/
def como_matriz_aumentada (s : SistemaLineal) : Matriz :=
  (List.range (filas s.A)).map (fun i => obtener_fila s.A i ++ [s.b.getD i pyZero])

/-- The `EstadoSolucion` literal type. -/
inductive Estado where
  | UNICA
  | INFINITAS
  | INCONSISTENTE
  deriving DecidableEq

/-- `Parametrica`: particular solution, direction vectors, free variables. -/
structure Parametrica where
  particular : List PyNum
  direcciones : List (List PyNum)
  libres : List ℕ
  deriving DecidableEq

/-- `Solucion` (the recorded history is attached when requested). -/
structure Solucion where
  estado : Estado
  x : Option (List PyNum)
  columnas_pivote : Option (List ℕ)
  variables_libres : Option (List ℕ)
  parametrica : Option Parametrica
  historial : Option (List PasoReduccion)
  deriving DecidableEq

/-- `SolucionadorGaussJordan._fila_pivote`: first row whose entry in the
pivot column is within `eps` of 1; otherwise first row with magnitude above
`eps`; otherwise `RuntimeError` (modelled `none`). -/
def fila_pivote (R : Matriz) (col_pivote : ℕ) (eps : ℚ) : Option ℕ :=
  match (List.range (filas R)).find?
      (fun i => decide (|(obtener R i col_pivote).val - 1| ≤ eps)) with
  | some i => some i
  | none => (List.range (filas R)).find?
      (fun i => decide (eps < |(obtener R i col_pivote).val|))

/-- The assignment loops of `resolver` (shared by the unique solution `x` and
the particular solution): for each pivot column, locate its pivot row and
copy the right-hand-side entry into that position. -/
def asignar_valores (R : Matriz) (eps : ℚ) (col_last : ℕ) :
    List ℕ → List PyNum → Option (List PyNum)
  | [], x => some x
  | pcol :: rest, x =>
    match fila_pivote R pcol eps with
    | none => none
    | some fila => asignar_valores R eps col_last rest
        (x.set pcol (obtener R fila col_last))

/-- The direction-vector inner loop of `resolver`: for each pivot column,
read the coefficient of the free column `f` in the pivot row and, when its
magnitude exceeds `eps`, store its negation at the pivot position. -/
def asignar_direccion (R : Matriz) (eps : ℚ) (f : ℕ) :
    List ℕ → List PyNum → Option (List PyNum)
  | [], v => some v
  | pcol :: rest, v =>
    match fila_pivote R pcol eps with
    | none => none
    | some fila =>
      let coef := obtener R fila f
      if |coef.val| > eps then
        asignar_direccion R eps f rest (v.set pcol (pyNeg coef))
      else
        asignar_direccion R eps f rest v

/-- The outer direction-vector loop of `resolver` (one vector per free
variable, in order): each vector starts as `[0.0]*n` with `1.0` at its free
variable, then gets the pivot contributions via `asignar_direccion`. -/
def construir_direcciones (R : Matriz) (eps : ℚ) (piv : List ℕ) (nv : ℕ) :
    List ℕ → Option (List (List PyNum))
  | [] => some []
  | f :: rest =>
    match asignar_direccion R eps f piv
        ((List.replicate nv (pyLitFloat 0)).set f (pyLitFloat 1)) with
    | none => none
    | some v =>
      match construir_direcciones R eps piv nv rest with
      | none => none
      | some vs => some (v :: vs)

/-- `SolucionadorGaussJordan.resolver`: reduce the augmented matrix, check
inconsistency on every row, then classify as UNICA / INFINITAS and build the
solution payload.  `none` models a propagated exception. -/
def resolver (sistema : SistemaLineal) (eps : ℚ) (registrar_pasos : Bool) :
    Option Solucion :=
  let aug := como_matriz_aumentada sistema
  let n_vars := num_variables sistema
  match a_forma_escalonada_reducida aug n_vars seleccionar_pivote eps
      registrar_pasos with
  | none => none
  | some (res, hist) =>
    let R := res.matriz_rref
    let pivots := res.columnas_pivote
    let col_last := columnas R - 1
    let inconsistent := (List.range (filas R)).any (fun i =>
      ((List.range n_vars).all (fun j => !(decide (eps < |(obtener R i j).val|))))
        && decide (eps < |(obtener R i col_last).val|))
    let historial := if registrar_pasos then some hist else none
    if inconsistent then
      some ⟨Estado.INCONSISTENTE, none, some pivots,
        some ((List.range n_vars).filter (fun j => decide (j ∉ pivots))),
        none, historial⟩
    else
      let rank := pivots.length
      let free_vars := (List.range n_vars).filter (fun j => decide (j ∉ pivots))
      if rank = n_vars then
        match asignar_valores R eps col_last pivots
            (List.replicate n_vars (pyLitFloat 0)) with
        | none => none
        | some x =>
          some ⟨Estado.UNICA, some x, some pivots, some free_vars, none, historial⟩
      else
        match asignar_valores R eps col_last pivots
            (List.replicate n_vars (pyLitFloat 0)) with
        | none => none
        | some particular =>
          match construir_direcciones R eps pivots n_vars free_vars with
          | none => none
          | some direcciones =>
            some ⟨Estado.INFINITAS, none, some pivots, some free_vars,
              some ⟨particular, direcciones, free_vars⟩, historial⟩

/-- The solver default threshold `eps = 1e-12`. -/
def eps_default : ℚ := 1 / 1000000000000

/-- `Operadores.matrices.to_fraction_matrix`: convert every cell with
`Fraction(elem)` (shape validation modelled as hypotheses). -/
def to_fraction_matrix (rows : List (List PyNum)) : List (List PyNum) :=
  rows.map (fun fila => fila.map pyFraction)

/-- `Operadores.matrices.matriz_from_rows`. -/
def matriz_from_rows (rows : List (List PyNum)) : Matriz :=
  to_fraction_matrix rows

/-- `Operadores.solvers.solve_Ax_b`: build the system with exact-`Fraction`
coefficients and run the Gauss-Jordan solver with its default epsilon. -/
def solve_Ax_b (A_rows : List (List PyNum)) (b_vector : List PyNum)
    (registrar : Bool) : Option Solucion :=
  resolver (sistema_lineal_mk (matriz_from_rows A_rows) b_vector)
    eps_default registrar

/-- `Operadores.sistema_lineal.SistemaMatricial`: `A X = B`; the constructor
coerces every entry of `B` with `float`. -/
structure SistemaMatricial where
  A : Matriz
  B : List (List PyNum)

/-- The `SistemaMatricial.__init__` body (shape checks as hypotheses). -/
def sistema_matricial_mk (A : Matriz) (B : List (List PyNum)) : SistemaMatricial :=
  ⟨A, B.map (fun fila => fila.map pyFloat)⟩

/-- `SistemaMatricial.num_rhs()`. -/
def num_rhs (s : SistemaMatricial) : ℕ := (s.B.headD []).length

/-- `SistemaMatricial.columna_b(indice)`. -/
def columna_b (s : SistemaMatricial) (indice : ℕ) : List PyNum :=
  s.B.map (fun fila => fila.getD indice pyZero)

/-- `SistemaMatricial.sistemas_individuales()`: one `SistemaLineal` per
column of `B`. -/
def sistemas_individuales (s : SistemaMatricial) : List SistemaLineal :=
  (List.range (num_rhs s)).map (fun i => sistema_lineal_mk s.A (columna_b s i))

/-- `Operadores.solvers.solve_AX_B`: solve the per-column systems in order,
pairing each solution with its column index. -/
def solve_AX_B (A_rows : List (List PyNum)) (B_rows : List (List PyNum))
    (registrar : Bool) : Option (List (ℕ × Solucion)) :=
  let sm := sistema_matricial_mk (matriz_from_rows A_rows) B_rows
  (sistemas_individuales sm).enum.mapM
    (fun p => (resolver p.2 eps_default registrar).map (fun sol => (p.1, sol)))

/-- `MatrixCalculatorViewModel._aggregate_status`, applied to the per-column
status list it extracts from the column results. -/
def aggregate_status (statuses : List Estado) : Estado :=
  if statuses.any (fun s => decide (s = Estado.INCONSISTENTE)) then
    Estado.INCONSISTENTE
  else if statuses.any (fun s => decide (s = Estado.INFINITAS)) then
    Estado.INFINITAS
  else Estado.UNICA

/-- Severity of a solution state under the ordering stated by the spec:
INCONSISTENT is worse than INFINITE is worse than UNIQUE.  This definition
follows the spec wording, to be compared with `aggregate_status`. -/
def severidad : Estado → ℕ
  | Estado.UNICA => 0
  | Estado.INFINITAS => 1
  | Estado.INCONSISTENTE => 2

/-- The worst per-column outcome, following the spec wording for the
aggregate of a matrix equation: the maximum-severity status. -/
def peor_estado (statuses : List Estado) : Estado :=
  statuses.foldl (fun acc s => if severidad acc < severidad s then s else acc)
    Estado.UNICA

/-- `Operadores.solvers._find_pivot_row`: first row whose entry equals
`Fraction(1)` (a numeric comparison), else first nonzero row, else
`RuntimeError` (modelled `none`). -/
def find_pivot_row (matriz : Matriz) (pivot_col : ℕ) : Option ℕ :=
  match (List.range (filas matriz)).find?
      (fun i => decide ((obtener matriz i pivot_col).val = 1)) with
  | some i => some i
  | none => (List.range (filas matriz)).find?
      (fun i => decide ((obtener matriz i pivot_col).val ≠ 0))

/-- The per-free-variable loop of `Operadores.solvers.null_space_from_rref`:
for each pivot column, read the coefficient of the free column and, when it
is nonzero (exact comparison), store its negation at the pivot position. -/
def asignar_direccion_ns (rref : Matriz) (free : ℕ) :
    List ℕ → List PyNum → Option (List PyNum)
  | [], v => some v
  | pivot_col :: rest, v =>
    match find_pivot_row rref pivot_col with
    | none => none
    | some fila =>
      let coef := obtener rref fila free
      if coef.val ≠ 0 then
        asignar_direccion_ns rref free rest (v.set pivot_col (pyNeg coef))
      else
        asignar_direccion_ns rref free rest v

/-- The per-free-variable outer loop of `null_space_from_rref`: one vector
per free variable, each starting as `[Fraction(0)] * n` with `Fraction(1)` at
its free position. -/
def construir_nucleo (rref : Matriz) (pivot_cols : List ℕ) (nv : ℕ) :
    List ℕ → Option (List (List PyNum))
  | [] => some []
  | free :: rest =>
    match asignar_direccion_ns rref free pivot_cols
        ((List.replicate nv (pyFraction pyZero)).set free
          (pyFraction ⟨false, 1⟩)) with
    | none => none
    | some v =>
      match construir_nucleo rref pivot_cols nv rest with
      | none => none
      | some vs => some (v :: vs)

/-- `Operadores.solvers.null_space_from_rref`: one direction vector per free
variable, built directly on an already-reduced matrix with exact `Fraction`
cells. -/
def null_space_from_rref (rref : Matriz) (pivot_cols : List ℕ)
    (num_variables : ℕ) : Option (List (List PyNum)) :=
  let free_vars := (List.range num_variables).filter
    (fun j => decide (j ∉ pivot_cols))
  if free_vars = [] then some []
  else construir_nucleo rref pivot_cols num_variables free_vars

/-! ### Basic list access lemmas -/

theorem getD_set_self {α : Type} (l : List α) (i : ℕ) (h : i < l.length) (a d : α) :
    (l.set i a).getD i d = a := by
  simp [List.getD, List.getElem?_set_self, h]

theorem getD_set_ne {α : Type} (l : List α) (i j : ℕ) (hne : i ≠ j) (a d : α) :
    (l.set i a).getD j d = l.getD j d := by
  simp [List.getD, List.getElem?_set_ne hne]

theorem getD_map_pynum (f : PyNum → PyNum) (l : List PyNum) (j : ℕ)
    (hj : j < l.length) (d : PyNum) : (l.map f).getD j d = f (l.getD j d) := by
  rw [List.getD_eq_getElem _ _ (by simpa using hj), List.getD_eq_getElem _ _ hj]
  simp

theorem getD_zipWith (f : PyNum → PyNum → PyNum) (l1 l2 : List PyNum) (j : ℕ)
    (h1 : j < l1.length) (h2 : j < l2.length) (d : PyNum) :
    (List.zipWith f l1 l2).getD j d = f (l1.getD j d) (l2.getD j d) := by
  rw [List.getD_eq_getElem _ _ (by simp; omega), List.getD_eq_getElem _ _ h1,
    List.getD_eq_getElem _ _ h2]
  exact List.getElem_zipWith

theorem getD_replicate {α : Type} (n i : ℕ) (a d : α) (h : i < n) :
    (List.replicate n a).getD i d = a := by
  rw [List.getD_eq_getElem _ _ (by simpa using h)]
  simp

theorem getD_append_left {α : Type} (l1 l2 : List α) (j : ℕ) (h : j < l1.length)
    (d : α) : (l1 ++ l2).getD j d = l1.getD j d := by
  rw [List.getD_eq_getElem _ _ (by simp; omega), List.getD_eq_getElem _ _ h]
  exact List.getElem_append_left h

theorem getD_mem {α : Type} (l : List α) (i : ℕ) (hi : i < l.length) (d : α) :
    l.getD i d ∈ l := by
  rw [List.getD_eq_getElem _ _ hi]
  exact l.getElem_mem _

theorem getD_of_ge {α : Type} (l : List α) (i : ℕ) (d : α) (h : l.length ≤ i) :
    l.getD i d = d := by
  simp [List.getD, List.getElem?_eq_none h]

/-! ### Shape lemmas for the matrix operations -/

theorem columnas_of_wf {m : Matriz} {c : ℕ} (h : MatrizWF m c) : columnas m = c := by
  obtain ⟨hne, hrows⟩ := h
  have : m.headD [] ∈ m := by
    cases m with
    | nil => exact absurd rfl hne
    | cons a l => simp
  exact hrows _ this

theorem filas_pos_of_wf {m : Matriz} {c : ℕ} (h : MatrizWF m c) : 0 < filas m := by
  obtain ⟨hne, -⟩ := h
  cases m with
  | nil => exact absurd rfl hne
  | cons a l => simp [filas]

theorem longitud_obtener_fila {m : Matriz} {c : ℕ} (h : MatrizWF m c) {i : ℕ}
    (hi : i < filas m) : (obtener_fila m i).length = c :=
  h.2 _ (getD_mem m i hi [])

theorem wf_asignar_fila {m : Matriz} {c : ℕ} (h : MatrizWF m c) {fila : List PyNum}
    (hf : fila.length = c) (i : ℕ) : MatrizWF (asignar_fila m i fila) c := by
  refine ⟨?_, ?_⟩
  · intro habs
    have hlen : (m.set i fila).length = m.length := List.length_set m i fila
    have habs2 : m.set i fila = [] := habs
    rw [habs2] at hlen
    exact h.1 (List.eq_nil_of_length_eq_zero hlen.symm)
  · intro g hg
    rcases List.mem_or_eq_of_mem_set hg with hmem | rfl
    · exact h.2 _ hmem
    · exact hf

theorem filas_asignar_fila (m : Matriz) (i : ℕ) (fila : List PyNum) :
    filas (asignar_fila m i fila) = filas m := List.length_set m i fila

theorem obtener_fila_asignar_self {m : Matriz} {i : ℕ} (hi : i < filas m)
    (fila : List PyNum) : obtener_fila (asignar_fila m i fila) i = fila :=
  getD_set_self m i hi fila []

theorem obtener_fila_asignar_ne (m : Matriz) {i j : ℕ} (hne : i ≠ j)
    (fila : List PyNum) : obtener_fila (asignar_fila m i fila) j = obtener_fila m j :=
  getD_set_ne m i j hne fila []

theorem obtener_eq_fila (m : Matriz) (i j : ℕ) :
    obtener m i j = (obtener_fila m i).getD j pyZero := rfl

/-! ### Effects of the elementary row operations -/

theorem filas_intercambiar (m : Matriz) (i j : ℕ) :
    filas (intercambiar m i j) = filas m := by
  unfold intercambiar
  split
  · rfl
  · rw [filas_asignar_fila, filas_asignar_fila]

theorem wf_intercambiar {m : Matriz} {c : ℕ} (h : MatrizWF m c) {i j : ℕ}
    (hi : i < filas m) (hj : j < filas m) : MatrizWF (intercambiar m i j) c := by
  unfold intercambiar
  split
  · exact h
  · exact wf_asignar_fila (wf_asignar_fila h (longitud_obtener_fila h hj) i)
      (longitud_obtener_fila h hi) j

theorem obtener_fila_intercambiar_fst {m : Matriz} {i j : ℕ} (hi : i < filas m)
    (hj : j < filas m) : obtener_fila (intercambiar m i j) i = obtener_fila m j := by
  unfold intercambiar
  split
  · simp [*]
  · rename_i hne
    by_cases hij : j = i
    · exact absurd hij.symm hne
    · rw [obtener_fila_asignar_ne _ hij,
        obtener_fila_asignar_self hi]

theorem obtener_fila_intercambiar_snd {m : Matriz} {i j : ℕ} (hi : i < filas m)
    (hj : j < filas m) : obtener_fila (intercambiar m i j) j = obtener_fila m i := by
  unfold intercambiar
  split
  · simp [*]
  · rw [obtener_fila_asignar_self (by rw [filas_asignar_fila]; exact hj)]

theorem obtener_fila_intercambiar_otro (m : Matriz) {i j k : ℕ} (hki : k ≠ i)
    (hkj : k ≠ j) : obtener_fila (intercambiar m i j) k = obtener_fila m k := by
  unfold intercambiar
  split
  · rfl
  · rw [obtener_fila_asignar_ne _ (Ne.symm hkj), obtener_fila_asignar_ne _ (Ne.symm hki)]

theorem filas_escalar (m : Matriz) (i : ℕ) (factor : PyNum) :
    filas (escalar m i factor) = filas m := by
  unfold escalar
  split <;> rw [filas_asignar_fila]

theorem wf_escalar {m : Matriz} {c : ℕ} (h : MatrizWF m c) {i : ℕ}
    (hi : i < filas m) (factor : PyNum) : MatrizWF (escalar m i factor) c := by
  unfold escalar
  split
  · exact wf_asignar_fila h (by rw [List.length_replicate, columnas_of_wf h]) i
  · exact wf_asignar_fila h (by rw [List.length_map]; exact longitud_obtener_fila h hi) i

theorem obtener_fila_escalar_otro (m : Matriz) {i k : ℕ} (hk : k ≠ i)
    (factor : PyNum) : obtener_fila (escalar m i factor) k = obtener_fila m k := by
  unfold escalar
  split <;> exact obtener_fila_asignar_ne _ (Ne.symm hk) _

theorem obtener_fila_escalar_self {m : Matriz} {i : ℕ} (hi : i < filas m)
    {factor : PyNum} (hf : factor.val ≠ 0) :
    obtener_fila (escalar m i factor) i = (obtener_fila m i).map (fun x => pyMul factor x) := by
  unfold escalar
  rw [if_neg hf]
  exact obtener_fila_asignar_self hi _

theorem filas_combinar (m : Matriz) (d f : ℕ) (factor : PyNum) :
    filas (combinar m d f factor) = filas m := filas_asignar_fila _ _ _

theorem wf_combinar {m : Matriz} {c : ℕ} (h : MatrizWF m c) {d f : ℕ}
    (hd : d < filas m) (hf : f < filas m) (factor : PyNum) :
    MatrizWF (combinar m d f factor) c := by
  refine wf_asignar_fila h ?_ d
  rw [List.length_zipWith, longitud_obtener_fila h hd, longitud_obtener_fila h hf,
    Nat.min_self]

theorem obtener_fila_combinar_otro (m : Matriz) {d f k : ℕ} (hk : k ≠ d)
    (factor : PyNum) : obtener_fila (combinar m d f factor) k = obtener_fila m k :=
  obtener_fila_asignar_ne _ (Ne.symm hk) _

theorem obtener_fila_combinar_self {m : Matriz} {d : ℕ} (hd : d < filas m)
    (f : ℕ) (factor : PyNum) :
    obtener_fila (combinar m d f factor) d =
      List.zipWith (fun a b => pyAdd a (pyMul factor b))
        (obtener_fila m d) (obtener_fila m f) :=
  obtener_fila_asignar_self hd _

/-! ### Dot products against rational vectors -/

/-- Dot product of a row of cells against a rational vector (truncating at the
shorter length), used to express membership of a vector in the solution set
of a system of rows. -/
def dotv (fila : List PyNum) (y : List ℚ) : ℚ :=
  (List.zipWith (fun a q => a.val * q) fila y).sum

/-- All rows of the matrix annihilate `y`; row operations preserve this. -/
def SolSet (m : Matriz) (y : List ℚ) : Prop :=
  ∀ i < filas m, dotv (obtener_fila m i) y = 0

theorem dotv_map_mul (k : PyNum) (l : List PyNum) (y : List ℚ) :
    dotv (l.map (fun x => pyMul k x)) y = k.val * dotv l y := by
  induction l generalizing y with
  | nil => simp [dotv]
  | cons a l ih =>
    cases y with
    | nil => simp [dotv]
    | cons q y =>
      simp only [dotv, List.map_cons, List.zipWith_cons_cons, List.sum_cons] at *
      rw [ih]
      simp [pyMul]
      ring

theorem dotv_zip_comb (k : PyNum) (fd fs : List PyNum) (y : List ℚ)
    (hlen : fd.length = fs.length) :
    dotv (List.zipWith (fun a b => pyAdd a (pyMul k b)) fd fs) y =
      dotv fd y + k.val * dotv fs y := by
  induction fd generalizing fs y with
  | nil =>
    cases fs with
    | nil => simp [dotv]
    | cons b fs => simp at hlen
  | cons a fd ih =>
    cases fs with
    | nil => simp at hlen
    | cons b fs =>
      cases y with
      | nil => simp [dotv]
      | cons q y =>
        simp only [List.zipWith_cons_cons, dotv, List.sum_cons] at *
        rw [ih fs y (by simpa using hlen)]
        simp [pyAdd, pyMul]
        ring

theorem dotv_append_singleton (l1 : List PyNum) (l2 : List ℚ) (a : PyNum) (q : ℚ)
    (hlen : l1.length = l2.length) :
    dotv (l1 ++ [a]) (l2 ++ [q]) = dotv l1 l2 + a.val * q := by
  induction l1 generalizing l2 with
  | nil =>
    cases l2 with
    | nil => simp [dotv]
    | cons b l2 => simp at hlen
  | cons x l1 ih =>
    cases l2 with
    | nil => simp at hlen
    | cons b l2 =>
      simp only [List.cons_append, List.zipWith_cons_cons, dotv, List.sum_cons] at *
      rw [ih l2 (by simpa using hlen)]
      ring

theorem dotv_eq_sum (l : List PyNum) (y : List ℚ) :
    dotv l y = ∑ j ∈ Finset.range (min l.length y.length),
      (l.getD j pyZero).val * (y.getD j 0) := by
  induction l generalizing y with
  | nil => simp [dotv]
  | cons a l ih =>
    cases y with
    | nil => simp [dotv]
    | cons q y =>
      simp only [dotv, List.zipWith_cons_cons, List.sum_cons, List.length_cons]
      rw [Nat.succ_min_succ, Finset.sum_range_succ']
      simp only [List.getD_cons_succ, List.getD_cons_zero]
      rw [← ih y]
      simp [dotv]
      ring

/-! ### Solution-set preservation by the elementary operations -/

theorem solset_intercambiar {m : Matriz} {i j : ℕ} (hi : i < filas m)
    (hj : j < filas m) {y : List ℚ} (h : SolSet (intercambiar m i j) y) :
    SolSet m y := by
  intro k hk
  by_cases hki : k = i
  · subst hki
    have := h j (by rw [filas_intercambiar]; exact hj)
    rwa [obtener_fila_intercambiar_snd hi hj] at this
  · by_cases hkj : k = j
    · subst hkj
      have := h i (by rw [filas_intercambiar]; exact hi)
      rwa [obtener_fila_intercambiar_fst hi hj] at this
    · have := h k (by rw [filas_intercambiar]; exact hk)
      rwa [obtener_fila_intercambiar_otro m hki hkj] at this

theorem solset_escalar {m : Matriz} {i : ℕ} (hi : i < filas m) {factor : PyNum}
    (hf : factor.val ≠ 0) {y : List ℚ} (h : SolSet (escalar m i factor) y) :
    SolSet m y := by
  intro k hk
  by_cases hki : k = i
  · subst hki
    have := h k (by rw [filas_escalar]; exact hk)
    rw [obtener_fila_escalar_self hk hf, dotv_map_mul] at this
    exact (mul_eq_zero.mp this).resolve_left hf
  · have := h k (by rw [filas_escalar]; exact hk)
    rwa [obtener_fila_escalar_otro m hki factor] at this

theorem solset_combinar {m : Matriz} {c : ℕ} (hW : MatrizWF m c) {d f : ℕ}
    (hd : d < filas m) (hf : f < filas m) (hne : d ≠ f) (factor : PyNum)
    {y : List ℚ} (h : SolSet (combinar m d f factor) y) : SolSet m y := by
  have hlen : (obtener_fila m d).length = (obtener_fila m f).length := by
    rw [longitud_obtener_fila hW hd, longitud_obtener_fila hW hf]
  have hfd := h f (by rw [filas_combinar]; exact hf)
  rw [obtener_fila_combinar_otro m (Ne.symm hne) factor] at hfd
  intro k hk
  by_cases hkd : k = d
  · subst hkd
    have := h k (by rw [filas_combinar]; exact hk)
    rw [obtener_fila_combinar_self hk f factor, dotv_zip_comb _ _ _ _ hlen, hfd] at this
    linarith
  · have := h k (by rw [filas_combinar]; exact hk)
    rwa [obtener_fila_combinar_otro m hkd factor] at this

theorem normalizar_some {m : Matriz} {fila col : ℕ} {eps : ℚ} {m2 : Matriz}
    (h : normalizar_pivote m fila col eps = some m2) :
    eps < |(obtener m fila col).val| ∧
      m2 = escalar m fila (pyDiv (pyLitFloat 1) (obtener m fila col)) := by
  unfold normalizar_pivote at h
  simp only [] at h
  by_cases hguard : |(obtener m fila col).val| ≤ eps
  · rw [if_pos hguard] at h
    exact absurd h (by simp)
  · rw [if_neg hguard] at h
    exact ⟨by linarith [not_le.mp hguard], by injection h with h2; exact h2.symm⟩

theorem solset_normalizar {m : Matriz} {fila col : ℕ} {eps : ℚ} (heps : 0 ≤ eps)
    (hfila : fila < filas m) {m2 : Matriz}
    (h : normalizar_pivote m fila col eps = some m2) {y : List ℚ}
    (hs : SolSet m2 y) : SolSet m y := by
  obtain ⟨hgt, rfl⟩ := normalizar_some h
  have hne : (pyDiv (pyLitFloat 1) (obtener m fila col)).val ≠ 0 := by
    have hp : (obtener m fila col).val ≠ 0 := by
      intro h0
      rw [h0] at hgt
      simp at hgt
      linarith
    simp [pyDiv, pyLitFloat]
    exact hp
  exact solset_escalar hfila hne hs

/-! ### Row-level specification of the elimination loops -/

theorem eliminar_filas_spec {ncols : ℕ} (eps : ℚ) (oper : Operacion)
    (registrar : Bool) (r c : ℕ) :
    ∀ (idxs : List ℕ) (m : Matriz) (hist : List PasoReduccion) (cnt : ℕ),
    MatrizWF m ncols → r < filas m → r ∉ idxs → idxs.Nodup →
    (∀ i ∈ idxs, i < filas m) →
    filas (eliminar_filas eps oper registrar r c idxs m hist cnt).1 = filas m ∧
    MatrizWF (eliminar_filas eps oper registrar r c idxs m hist cnt).1 ncols ∧
    (∀ k, k ∉ idxs →
      obtener_fila (eliminar_filas eps oper registrar r c idxs m hist cnt).1 k =
        obtener_fila m k) ∧
    (∀ i ∈ idxs,
      obtener_fila (eliminar_filas eps oper registrar r c idxs m hist cnt).1 i =
        if eps < |(obtener m i c).val| then
          List.zipWith (fun a b => pyAdd a (pyMul (pyNeg (obtener m i c)) b))
            (obtener_fila m i) (obtener_fila m r)
        else obtener_fila m i) := by
  intro idxs
  induction idxs with
  | nil =>
    intro m hist cnt hW hr _ _ _
    refine ⟨rfl, hW, fun k _ => rfl, fun i hi => absurd hi (List.not_mem_nil i)⟩
  | cons i rest ih =>
    intro m hist cnt hW hr hnr hnd hin
    have hir : i ≠ r := fun hh => hnr (hh ▸ List.mem_cons_self i rest)
    have hi : i < filas m := hin i (List.mem_cons_self i rest)
    have hnr2 : r ∉ rest := fun hh => hnr (List.mem_cons_of_mem i hh)
    have hinr : i ∉ rest := (List.nodup_cons.mp hnd).1
    have hnd2 : rest.Nodup := (List.nodup_cons.mp hnd).2
    by_cases hcond : eps < |(obtener m i c).val|
    · have heq : eliminar_filas eps oper registrar r c (i :: rest) m hist cnt =
        eliminar_filas eps oper registrar r c rest
          (combinar m i r (pyNeg (obtener m i c)))
          (nuevo_paso registrar hist cnt oper (some r) (some c) [i]
            (some (pyNeg (obtener m i c)))
            (if registrar then some (como_lista m) else none)
            (some (como_lista (combinar m i r (pyNeg (obtener m i c)))))).1
          (nuevo_paso registrar hist cnt oper (some r) (some c) [i]
            (some (pyNeg (obtener m i c)))
            (if registrar then some (como_lista m) else none)
            (some (como_lista (combinar m i r (pyNeg (obtener m i c)))))).2 := by
        simp only [eliminar_filas, if_pos hcond]
      set m2 := combinar m i r (pyNeg (obtener m i c)) with hm2
      have hfilas2 : filas m2 = filas m := filas_combinar m i r _
      have hW2 : MatrizWF m2 ncols := wf_combinar hW hi hr _
      have hrec := ih m2
        (nuevo_paso registrar hist cnt oper (some r) (some c) [i]
          (some (pyNeg (obtener m i c)))
          (if registrar then some (como_lista m) else none)
          (some (como_lista m2))).1
        (nuevo_paso registrar hist cnt oper (some r) (some c) [i]
          (some (pyNeg (obtener m i c)))
          (if registrar then some (como_lista m) else none)
          (some (como_lista m2))).2
        hW2 (by rw [hfilas2]; exact hr) hnr2 hnd2
        (fun j hj => by rw [hfilas2]; exact hin j (List.mem_cons_of_mem i hj))
      rw [heq]
      obtain ⟨hA, hB, hC, hD⟩ := hrec
      have hfil2_r : obtener_fila m2 r = obtener_fila m r :=
        obtener_fila_combinar_otro m (Ne.symm hir) _
      refine ⟨by rw [hA, hfilas2], hB, ?_, ?_⟩
      · intro k hk
        have hk2 : k ∉ rest := fun hh => hk (List.mem_cons_of_mem i hh)
        have hki : k ≠ i := fun hh => hk (hh ▸ List.mem_cons_self i rest)
        rw [hC k hk2, obtener_fila_combinar_otro m hki _]
      · intro j hj
        rcases List.mem_cons.mp hj with rfl | hjr
        · rw [hC j hinr, if_pos hcond, obtener_fila_combinar_self hi r _]
        · have hji : j ≠ i := fun hh => hinr (hh ▸ hjr)
          have hval : obtener m2 j c = obtener m j c := by
            rw [obtener_eq_fila, obtener_fila_combinar_otro m hji _, ← obtener_eq_fila]
          rw [hD j hjr, hval, hfil2_r, obtener_fila_combinar_otro m hji _]
    · have heq : eliminar_filas eps oper registrar r c (i :: rest) m hist cnt =
        eliminar_filas eps oper registrar r c rest m hist cnt := by
        simp only [eliminar_filas, if_neg hcond]
      rw [heq]
      have hrec := ih m hist cnt hW hr hnr2 hnd2
        (fun j hj => hin j (List.mem_cons_of_mem i hj))
      obtain ⟨hA, hB, hC, hD⟩ := hrec
      refine ⟨hA, hB, ?_, ?_⟩
      · intro k hk
        exact hC k (fun hh => hk (List.mem_cons_of_mem i hh))
      · intro j hj
        rcases List.mem_cons.mp hj with rfl | hjr
        · rw [hC j hinr, if_neg hcond]
        · exact hD j hjr

/-! ### Characterization of partial pivوting selection -/

/-- Invariant of the scanning accumulator of
`PivoteoParcial.seleccionar_pivote` after processing rows `lo..hasta-1`. -/
def AccSel (m : Matriz) (col lo : ℕ) : Option ℕ × ℚ → ℕ → Prop
  | (none, z), hasta => z = 0 ∧ ∀ k, lo ≤ k → k < hasta → (obtener m k col).val = 0
  | (some i, z), hasta => lo ≤ i ∧ i < hasta ∧ z = |(obtener m i col).val| ∧ z ≠ 0 ∧
      (∀ k, lo ≤ k → k < hasta → |(obtener m k col).val| ≤ z) ∧
      (∀ k, lo ≤ k → k < i → |(obtener m k col).val| < z)

theorem accsel_paso (m : Matriz) (col lo : ℕ) (acc : Option ℕ × ℚ) (hasta : ℕ)
    (hlo : lo ≤ hasta) (h : AccSel m col lo acc hasta) :
    AccSel m col lo
      (if |(obtener m hasta col).val| > acc.2 then (some hasta, |(obtener m hasta col).val|)
       else acc) (hasta + 1) := by
  obtain ⟨oi, z⟩ := acc
  dsimp only
  by_cases hcond : |(obtener m hasta col).val| > z
  · rw [if_pos hcond]
    cases oi with
    | none =>
      obtain ⟨hz, hall⟩ := h
      subst hz
      refine ⟨hlo, Nat.lt_succ_self hasta, rfl, ne_of_gt hcond, ?_, ?_⟩
      · intro k hk1 hk2
        rcases Nat.lt_succ_iff_lt_or_eq.mp hk2 with hk3 | rfl
        · rw [abs_eq_zero.mpr (hall k hk1 hk3)]
          exact abs_nonneg _
        · exact le_refl _
      · intro k hk1 hk2
        rw [abs_eq_zero.mpr (hall k hk1 hk2)]
        exact hcond
    | some i =>
      obtain ⟨h1, h2, h3, h4, h5, h6⟩ := h
      have hz0 : (0:ℚ) ≤ z := by rw [h3]; exact abs_nonneg _
      refine ⟨le_trans h1 (le_of_lt h2), Nat.lt_succ_self hasta, rfl,
        ne_of_gt (lt_of_le_of_lt hz0 hcond), ?_, ?_⟩
      · intro k hk1 hk2
        rcases Nat.lt_succ_iff_lt_or_eq.mp hk2 with hk3 | rfl
        · exact le_of_lt (lt_of_le_of_lt (h5 k hk1 hk3) hcond)
        · exact le_refl _
      · intro k hk1 hk2
        exact lt_of_le_of_lt (h5 k hk1 hk2) hcond
  · rw [if_neg hcond]
    cases oi with
    | none =>
      obtain ⟨hz, hall⟩ := h
      subst hz
      refine ⟨rfl, ?_⟩
      intro k hk1 hk2
      rcases Nat.lt_succ_iff_lt_or_eq.mp hk2 with hk3 | rfl
      · exact hall k hk1 hk3
      · exact abs_eq_zero.mp (le_antisymm (not_lt.mp hcond) (abs_nonneg _))
    | some i =>
      obtain ⟨h1, h2, h3, h4, h5, h6⟩ := h
      refine ⟨h1, Nat.lt_succ_of_lt h2, h3, h4, ?_, h6⟩
      intro k hk1 hk2
      rcases Nat.lt_succ_iff_lt_or_eq.mp hk2 with hk3 | rfl
      · exact h5 k hk1 hk3
      · exact not_lt.mp hcond

theorem accsel_fold (m : Matriz) (col lo : ℕ) :
    ∀ (n : ℕ) (acc : Option ℕ × ℚ) (hasta : ℕ), lo ≤ hasta →
    AccSel m col lo acc hasta →
    AccSel m col lo
      ((List.range' hasta n).foldl
        (fun acc i =>
          if |(obtener m i col).val| > acc.2 then (some i, |(obtener m i col).val|)
          else acc) acc)
      (hasta + n) := by
  intro n
  induction n with
  | zero => intro acc hasta hlo h; simpa using h
  | succ n ih =>
    intro acc hasta hlo h
    rw [List.range'_succ, List.foldl_cons]
    have hstep := accsel_paso m col lo acc hasta hlo h
    have hrec := ih _ (hasta + 1) (by omega) hstep
    have harith : hasta + 1 + n = hasta + (n + 1) := by omega
    rw [harith] at hrec
    exact hrec

theorem seleccionar_fold_accsel (m : Matriz) (c desde : ℕ) :
    AccSel m c desde
      ((List.range' desde (filas m - desde)).foldl
        (fun acc i =>
          if |(obtener m i c).val| > acc.2 then (some i, |(obtener m i c).val|)
          else acc) ((none : Option ℕ), (0 : ℚ)))
      (desde + (filas m - desde)) := by
  refine accsel_fold m c desde (filas m - desde) (none, 0) desde (le_refl _) ?_
  exact ⟨rfl, fun k hk1 hk2 => absurd hk2 (by omega)⟩

theorem seleccionar_some_spec {m : Matriz} {c desde : ℕ} {eps : ℚ} {i : ℕ}
    (h : seleccionar_pivote m c desde eps = some i) :
    desde ≤ i ∧ i < filas m ∧ (obtener m i c).val ≠ 0 ∧
    (∀ k, desde ≤ k → k < filas m → |(obtener m k c).val| ≤ |(obtener m i c).val|) ∧
    (∀ k, desde ≤ k → k < i → |(obtener m k c).val| < |(obtener m i c).val|) := by
  unfold seleccionar_pivote at h
  by_cases hc : columnas m ≤ c
  · rw [if_pos hc] at h
    exact absurd h (by simp)
  · rw [if_neg hc] at h
    have hacc := seleccionar_fold_accsel m c desde
    rcases hdesde : filas m - desde with _ | k
    · have hle : filas m ≤ desde := by omega
      rw [hdesde] at h
      simp [List.range'] at h
    · rcases hF : (List.range' desde (filas m - desde)).foldl
        (fun acc i =>
          if |(obtener m i c).val| > acc.2 then (some i, |(obtener m i c).val|)
          else acc) ((none : Option ℕ), (0 : ℚ)) with ⟨o, z⟩
      rw [hF] at hacc
      simp only [hF] at h
      cases o with
      | none => exact absurd h (by simp)
      | some mf =>
        dsimp only at h
        by_cases hz : z = 0
        · rw [if_pos hz] at h
          exact absurd h (by simp)
        · rw [if_neg hz] at h
          injection h with hmf
          subst hmf
          obtain ⟨h1, h2, h3, h4, h5, h6⟩ := hacc
          have hfl : desde ≤ filas m := by omega
          have hhasta : desde + (filas m - desde) = filas m := by omega
          rw [hhasta] at h2 h5
          refine ⟨h1, h2, fun h0 => h4 (by rw [h3, h0, abs_zero]), ?_, ?_⟩
          · intro k hk1 hk2
            rw [← h3]
            exact h5 k hk1 hk2
          · intro k hk1 hk2
            rw [← h3]
            exact h6 k hk1 hk2

theorem seleccionar_none_spec {m : Matriz} {c desde : ℕ} {eps : ℚ}
    (hc : c < columnas m) (h : seleccionar_pivote m c desde eps = none) :
    ∀ k, desde ≤ k → k < filas m → (obtener m k c).val = 0 := by
  unfold seleccionar_pivote at h
  rw [if_neg (not_le.mpr hc)] at h
  have hacc := seleccionar_fold_accsel m c desde
  rcases hF : (List.range' desde (filas m - desde)).foldl
      (fun acc i =>
        if |(obtener m i c).val| > acc.2 then (some i, |(obtener m i c).val|)
        else acc) ((none : Option ℕ), (0 : ℚ)) with ⟨o, z⟩
  rw [hF] at hacc
  simp only [hF] at h
  cases o with
  | none =>
    obtain ⟨-, hall⟩ := hacc
    intro k hk1 hk2
    exact hall k hk1 (by omega)
  | some mf =>
    dsimp only at h
    by_cases hz : z = 0
    · obtain ⟨h1, h2, h3, h4, h5, h6⟩ := hacc
      exact absurd hz h4
    · rw [if_neg hz] at h
      exact absurd h (by simp)

theorem seleccionar_all_zero_none {m : Matriz} {c desde : ℕ} {eps : ℚ}
    (hall : ∀ k, desde ≤ k → k < filas m → (obtener m k c).val = 0) :
    seleccionar_pivote m c desde eps = none := by
  unfold seleccionar_pivote
  by_cases hc : columnas m ≤ c
  · rw [if_pos hc]
  · rw [if_neg hc]
    have hacc := seleccionar_fold_accsel m c desde
    rcases hF : (List.range' desde (filas m - desde)).foldl
        (fun acc i =>
          if |(obtener m i c).val| > acc.2 then (some i, |(obtener m i c).val|)
          else acc) ((none : Option ℕ), (0 : ℚ)) with ⟨o, z⟩
    rw [hF] at hacc
    simp only [hF]
    cases o with
    | none => rfl
    | some mf =>
      obtain ⟨h1, h2, h3, h4, h5, h6⟩ := hacc
      have hmf : mf < filas m := by omega
      exact absurd (by rw [h3, abs_eq_zero.mpr (hall mf h1 hmf)]) h4

theorem paso_intercambio_matriz (registrar : Bool) (c : ℕ) (st : RedEstado)
    (fila_piv : ℕ) :
    (paso_intercambio registrar c st fila_piv).1 =
      if fila_piv = st.r then st.m else intercambiar st.m fila_piv st.r := by
  unfold paso_intercambio
  by_cases h : fila_piv = st.r
  · rw [if_neg (by simp [h]), if_pos h]
  · rw [if_pos h, if_neg h]

theorem paso_intercambio_eq_self (registrar : Bool) (c : ℕ) (st : RedEstado)
    {fila_piv : ℕ} (h : fila_piv = st.r) :
    paso_intercambio registrar c st fila_piv = (st.m, st.hist, st.cnt) := by
  rw [paso_intercambio, if_neg (by simp [h])]

theorem eliminar_filas_sin_disparo (eps : ℚ) (oper : Operacion) (registrar : Bool)
    (r c : ℕ) : ∀ (idxs : List ℕ) (m : Matriz) (hist : List PasoReduccion) (cnt : ℕ),
    (∀ i ∈ idxs, ¬ eps < |(obtener m i c).val|) →
    eliminar_filas eps oper registrar r c idxs m hist cnt = (m, hist, cnt) := by
  intro idxs
  induction idxs with
  | nil => intro m hist cnt _; rfl
  | cons i rest ih =>
    intro m hist cnt h
    have hi := h i (List.mem_cons_self i rest)
    simp only [eliminar_filas, if_neg hi]
    exact ih m hist cnt (fun j hj => h j (List.mem_cons_of_mem i hj))

theorem eliminaciones_spec {ncols : ℕ} (eps : ℚ) (registrar : Bool) (r c : ℕ)
    (m2 : Matriz) (hW : MatrizWF m2 ncols) (hr : r < filas m2)
    (hist : List PasoReduccion) (cnt : ℕ) :
    filas (eliminar_filas eps Operacion.ELIMINAR_ENCIMA registrar r c
      (List.range r)
      (eliminar_filas eps Operacion.ELIMINAR_DEBAJO registrar r c
        (List.range' (r + 1) (filas m2 - (r + 1))) m2 hist cnt).1
      (eliminar_filas eps Operacion.ELIMINAR_DEBAJO registrar r c
        (List.range' (r + 1) (filas m2 - (r + 1))) m2 hist cnt).2.1
      (eliminar_filas eps Operacion.ELIMINAR_DEBAJO registrar r c
        (List.range' (r + 1) (filas m2 - (r + 1))) m2 hist cnt).2.2).1 = filas m2 ∧
    MatrizWF (eliminar_filas eps Operacion.ELIMINAR_ENCIMA registrar r c
      (List.range r)
      (eliminar_filas eps Operacion.ELIMINAR_DEBAJO registrar r c
        (List.range' (r + 1) (filas m2 - (r + 1))) m2 hist cnt).1
      (eliminar_filas eps Operacion.ELIMINAR_DEBAJO registrar r c
        (List.range' (r + 1) (filas m2 - (r + 1))) m2 hist cnt).2.1
      (eliminar_filas eps Operacion.ELIMINAR_DEBAJO registrar r c
        (List.range' (r + 1) (filas m2 - (r + 1))) m2 hist cnt).2.2).1 ncols ∧
    obtener_fila (eliminar_filas eps Operacion.ELIMINAR_ENCIMA registrar r c
      (List.range r)
      (eliminar_filas eps Operacion.ELIMINAR_DEBAJO registrar r c
        (List.range' (r + 1) (filas m2 - (r + 1))) m2 hist cnt).1
      (eliminar_filas eps Operacion.ELIMINAR_DEBAJO registrar r c
        (List.range' (r + 1) (filas m2 - (r + 1))) m2 hist cnt).2.1
      (eliminar_filas eps Operacion.ELIMINAR_DEBAJO registrar r c
        (List.range' (r + 1) (filas m2 - (r + 1))) m2 hist cnt).2.2).1 r =
      obtener_fila m2 r ∧
    ∀ i, i ≠ r → i < filas m2 →
      obtener_fila (eliminar_filas eps Operacion.ELIMINAR_ENCIMA registrar r c
        (List.range r)
        (eliminar_filas eps Operacion.ELIMINAR_DEBAJO registrar r c
          (List.range' (r + 1) (filas m2 - (r + 1))) m2 hist cnt).1
        (eliminar_filas eps Operacion.ELIMINAR_DEBAJO registrar r c
          (List.range' (r + 1) (filas m2 - (r + 1))) m2 hist cnt).2.1
        (eliminar_filas eps Operacion.ELIMINAR_DEBAJO registrar r c
          (List.range' (r + 1) (filas m2 - (r + 1))) m2 hist cnt).2.2).1 i =
        (if eps < |(obtener m2 i c).val| then
          List.zipWith (fun a b => pyAdd a (pyMul (pyNeg (obtener m2 i c)) b))
            (obtener_fila m2 i) (obtener_fila m2 r)
        else obtener_fila m2 i) := by
  have hdeb := @eliminar_filas_spec ncols eps Operacion.ELIMINAR_DEBAJO
    registrar r c (List.range' (r + 1) (filas m2 - (r + 1))) m2 hist cnt hW hr
    (by intro hmem; rw [List.mem_range'_1] at hmem; omega)
    (List.nodup_range' _ _ 1 (by norm_num))
    (by intro i hi; rw [List.mem_range'_1] at hi; omega)
  obtain ⟨hdA, hdB, hdC, hdD⟩ := hdeb
  have henc := @eliminar_filas_spec ncols eps Operacion.ELIMINAR_ENCIMA
    registrar r c (List.range r)
    (eliminar_filas eps Operacion.ELIMINAR_DEBAJO registrar r c
      (List.range' (r + 1) (filas m2 - (r + 1))) m2 hist cnt).1
    (eliminar_filas eps Operacion.ELIMINAR_DEBAJO registrar r c
      (List.range' (r + 1) (filas m2 - (r + 1))) m2 hist cnt).2.1
    (eliminar_filas eps Operacion.ELIMINAR_DEBAJO registrar r c
      (List.range' (r + 1) (filas m2 - (r + 1))) m2 hist cnt).2.2
    hdB (by rw [hdA]; exact hr)
    (by rw [List.mem_range]; omega)
    (List.nodup_range r)
    (by intro i hi; rw [List.mem_range] at hi; rw [hdA]; omega)
  obtain ⟨heA, heB, heC, heD⟩ := henc
  refine ⟨by rw [heA, hdA], heB, ?_, ?_⟩
  · rw [heC r (by rw [List.mem_range]; omega), hdC r
      (by rw [List.mem_range'_1]; omega)]
  intro i hir hi
  rcases Nat.lt_or_ge i r with hlt | hge
  · have himem : i ∈ List.range r := by rw [List.mem_range]; exact hlt
    have hibelow : i ∉ List.range' (r + 1) (filas m2 - (r + 1)) := by
      rw [List.mem_range'_1]; omega
    have hfila_i : obtener_fila (eliminar_filas eps Operacion.ELIMINAR_DEBAJO
        registrar r c (List.range' (r + 1) (filas m2 - (r + 1))) m2 hist cnt).1 i =
        obtener_fila m2 i := hdC i hibelow
    have hval_i : obtener (eliminar_filas eps Operacion.ELIMINAR_DEBAJO
        registrar r c (List.range' (r + 1) (filas m2 - (r + 1))) m2 hist cnt).1 i c =
        obtener m2 i c := by
      rw [obtener_eq_fila, hfila_i, ← obtener_eq_fila]
    rw [heD i himem, hval_i, hfila_i, hdC r (by rw [List.mem_range'_1]; omega)]
  · have hge2 : r < i := lt_of_le_of_ne hge (Ne.symm hir)
    have himem : i ∈ List.range' (r + 1) (filas m2 - (r + 1)) := by
      rw [List.mem_range'_1]; omega
    have hiabove : i ∉ List.range r := by rw [List.mem_range]; omega
    rw [heC i hiabove, hdD i himem]

theorem intercambio_spec {ncols : ℕ} (registrar : Bool) (c : ℕ) (st : RedEstado)
    (fila_piv : ℕ) (hW : MatrizWF st.m ncols) (hr : st.r < filas st.m)
    (hhi : fila_piv < filas st.m) :
    MatrizWF (paso_intercambio registrar c st fila_piv).1 ncols ∧
    filas (paso_intercambio registrar c st fila_piv).1 = filas st.m := by
  rw [paso_intercambio_matriz]
  by_cases h : fila_piv = st.r
  · rw [if_pos h]
    exact ⟨hW, rfl⟩
  · rw [if_neg h]
    exact ⟨wf_intercambiar hW hhi hr, filas_intercambiar _ _ _⟩

theorem normalizado_spec {ncols : ℕ} {eps : ℚ} (heps : 0 ≤ eps) {mw : Matriz}
    {r c : ℕ} {m2 : Matriz} (hW : MatrizWF mw ncols) (hr : r < filas mw)
    (hc : c < ncols) (hnorm : normalizar_pivote mw r c eps = some m2) :
    MatrizWF m2 ncols ∧ filas m2 = filas mw ∧
    (∀ i, i ≠ r → obtener_fila m2 i = obtener_fila mw i) ∧
    (∀ j, j < ncols → obtener m2 r j =
      pyMul (pyDiv (pyLitFloat 1) (obtener mw r c)) (obtener mw r j)) ∧
    (obtener m2 r c).val = 1 ∧ eps < |(obtener mw r c).val| := by
  obtain ⟨hgt, rfl⟩ := normalizar_some hnorm
  have hpne : (obtener mw r c).val ≠ 0 := by
    intro h0
    rw [h0, abs_zero] at hgt
    linarith
  have hfne : (pyDiv (pyLitFloat 1) (obtener mw r c)).val ≠ 0 := by
    simp [pyDiv, pyLitFloat]
    exact hpne
  have hlen := longitud_obtener_fila hW hr
  refine ⟨wf_escalar hW hr _, filas_escalar mw r _, ?_, ?_, ?_, hgt⟩
  · intro i hi
    exact obtener_fila_escalar_otro mw hi _
  · intro j hj
    rw [obtener_eq_fila, obtener_fila_escalar_self hr hfne,
      getD_map_pynum _ _ j (by rw [hlen]; exact hj), ← obtener_eq_fila]
  · rw [obtener_eq_fila, obtener_fila_escalar_self hr hfne,
      getD_map_pynum _ _ c (by rw [hlen]; exact hc), ← obtener_eq_fila]
    simp [pyMul, pyDiv, pyLitFloat]
    field_simp

theorem a_forma_aux_forma {ncols : ℕ} (eps : ℚ) (heps : 0 ≤ eps)
    (registrar : Bool) : ∀ (cols : List ℕ) (st st' : RedEstado),
    MatrizWF st.m ncols → st.r ≤ filas st.m → (∀ c ∈ cols, c < ncols) →
    a_forma_aux seleccionar_pivote eps registrar cols st = some st' →
    MatrizWF st'.m ncols ∧ filas st'.m = filas st.m ∧ st.r ≤ st'.r ∧
    st'.r ≤ filas st'.m ∧
    st'.pivots.length + st.r = st.pivots.length + st'.r ∧
    st'.r ≤ st.r + cols.length := by
  intro cols
  induction cols with
  | nil =>
    intro st st' hW hr _ h
    rw [a_forma_aux] at h
    injection h with h
    subst h
    exact ⟨hW, rfl, le_refl _, hr, rfl, by omega⟩
  | cons c rest ih =>
    intro st st' hW hr hcols h
    rw [a_forma_aux] at h
    by_cases hbreak : filas st.m ≤ st.r
    · rw [if_pos hbreak] at h
      injection h with h
      subst h
      exact ⟨hW, rfl, le_refl _, hr, rfl, by omega⟩
    · rw [if_neg hbreak] at h
      rcases hsel : seleccionar_pivote st.m c st.r eps with _ | fila_piv
      · rw [hsel] at h
        have := ih st st' hW hr (fun d hd => hcols d (List.mem_cons_of_mem c hd)) h
        obtain ⟨h1, h2, h3, h4, h5, h6⟩ := this
        exact ⟨h1, h2, h3, h4, h5, by simp; omega⟩
      · rw [hsel] at h
        dsimp only at h
        obtain ⟨hfp1, hfp2, hfp3, -, -⟩ := seleccionar_some_spec hsel
        have hrlt : st.r < filas st.m := by omega
        obtain ⟨hWsw, hfsw⟩ := @intercambio_spec ncols registrar c st
          fila_piv hW hrlt hfp2
        rcases hnorm : normalizar_pivote (paso_intercambio registrar c st fila_piv).1
            st.r c eps with _ | m2
        · rw [hnorm] at h
          exact absurd h (by simp)
        · rw [hnorm] at h
          dsimp only at h
          obtain ⟨hWm2, hfm2, -, -, -, -⟩ := normalizado_spec heps hWsw
            (by rw [hfsw]; exact hrlt) (hcols c (List.mem_cons_self c rest)) hnorm
          set p2 := nuevo_paso registrar (paso_intercambio registrar c st fila_piv).2.1
            (paso_intercambio registrar c st fila_piv).2.2 Operacion.NORMALIZAR_PIVOTE
            (some st.r) (some c) [] none
            (if registrar then some (como_lista (paso_intercambio registrar c st
              fila_piv).1) else none)
            (some (como_lista m2)) with hp2
          set deb := eliminar_filas eps Operacion.ELIMINAR_DEBAJO registrar st.r c
            (List.range' (st.r + 1) (filas m2 - (st.r + 1))) m2 p2.1 p2.2 with hdeb
          set enc := eliminar_filas eps Operacion.ELIMINAR_ENCIMA registrar st.r c
            (List.range st.r) deb.1 deb.2.1 deb.2.2 with henc
          have helim := @eliminaciones_spec ncols eps registrar st.r c m2
            hWm2 (by rw [hfm2, hfsw]; exact hrlt) p2.1 p2.2
          rw [← hdeb, ← henc] at helim
          obtain ⟨heF, heW, -, -⟩ := helim
          have hrec := ih ⟨enc.1, st.r + 1, st.pivots ++ [c], enc.2.1, enc.2.2⟩ st'
            heW (by dsimp only; rw [heF, hfm2, hfsw]; omega)
            (fun d hd => hcols d (List.mem_cons_of_mem c hd)) h
          obtain ⟨h1, h2, h3, h4, h5, h6⟩ := hrec
          dsimp only at h2 h3 h5 h6
          refine ⟨h1, by rw [h2, heF, hfm2, hfsw], by omega, h4, ?_, ?_⟩
          · simp only [List.length_append, List.length_cons, List.length_nil] at h5 ⊢
            omega
          · simp only [List.length_cons]
            omega

theorem a_forma_aux_solset {ncols : ℕ} (eps : ℚ) (heps : 0 ≤ eps)
    (registrar : Bool) : ∀ (cols : List ℕ) (st st' : RedEstado),
    MatrizWF st.m ncols → st.r ≤ filas st.m → (∀ c ∈ cols, c < ncols) →
    a_forma_aux seleccionar_pivote eps registrar cols st = some st' →
    ∀ y : List ℚ, SolSet st'.m y → SolSet st.m y := by
  intro cols
  induction cols with
  | nil =>
    intro st st' _ _ _ h y hy
    rw [a_forma_aux] at h
    injection h with h
    subst h
    exact hy
  | cons c rest ih =>
    intro st st' hW hr hcols h y hy
    rw [a_forma_aux] at h
    by_cases hbreak : filas st.m ≤ st.r
    · rw [if_pos hbreak] at h
      injection h with h
      subst h
      exact hy
    · rw [if_neg hbreak] at h
      rcases hsel : seleccionar_pivote st.m c st.r eps with _ | fila_piv
      · rw [hsel] at h
        exact ih st st' hW hr (fun d hd => hcols d (List.mem_cons_of_mem c hd)) h y hy
      · rw [hsel] at h
        dsimp only at h
        obtain ⟨hfp1, hfp2, hfp3, -, -⟩ := seleccionar_some_spec hsel
        have hrlt : st.r < filas st.m := by omega
        obtain ⟨hWsw, hfsw⟩ := @intercambio_spec ncols registrar c st
          fila_piv hW hrlt hfp2
        rcases hnorm : normalizar_pivote (paso_intercambio registrar c st fila_piv).1
            st.r c eps with _ | m2
        · rw [hnorm] at h
          exact absurd h (by simp)
        · rw [hnorm] at h
          dsimp only at h
          obtain ⟨hWm2, hfm2, -, -, -, -⟩ := normalizado_spec heps hWsw
            (by rw [hfsw]; exact hrlt) (hcols c (List.mem_cons_self c rest)) hnorm
          set p2 := nuevo_paso registrar (paso_intercambio registrar c st fila_piv).2.1
            (paso_intercambio registrar c st fila_piv).2.2 Operacion.NORMALIZAR_PIVOTE
            (some st.r) (some c) [] none
            (if registrar then some (como_lista (paso_intercambio registrar c st
              fila_piv).1) else none)
            (some (como_lista m2)) with hp2
          set deb := eliminar_filas eps Operacion.ELIMINAR_DEBAJO registrar st.r c
            (List.range' (st.r + 1) (filas m2 - (st.r + 1))) m2 p2.1 p2.2 with hdeb
          set enc := eliminar_filas eps Operacion.ELIMINAR_ENCIMA registrar st.r c
            (List.range st.r) deb.1 deb.2.1 deb.2.2 with henc
          have hrm2 : st.r < filas m2 := by rw [hfm2, hfsw]; exact hrlt
          have helim := @eliminaciones_spec ncols eps registrar st.r c m2
            hWm2 hrm2 p2.1 p2.2
          rw [← hdeb, ← henc] at helim
          obtain ⟨heF, heW, heR, heI⟩ := helim
          have hrecsol : SolSet enc.1 y := by
            have := ih ⟨enc.1, st.r + 1, st.pivots ++ [c], enc.2.1, enc.2.2⟩ st'
              heW (by dsimp only; rw [heF]; omega)
              (fun d hd => hcols d (List.mem_cons_of_mem c hd)) h y hy
            exact this
          have hsol_m2 : SolSet m2 y := by
            have hzero_r : dotv (obtener_fila m2 st.r) y = 0 := by
              rw [← heR]
              exact hrecsol st.r (by rw [heF]; exact hrm2)
            intro i hi
            by_cases hir : i = st.r
            · subst hir
              exact hzero_r
            · have hfin := hrecsol i (by rw [heF]; exact hi)
              rw [heI i hir hi] at hfin
              by_cases htrig : eps < |(obtener m2 i c).val|
              · rw [if_pos htrig] at hfin
                rw [dotv_zip_comb _ _ _ _ (by
                  rw [longitud_obtener_fila hWm2 hi, longitud_obtener_fila hWm2 hrm2]),
                  hzero_r] at hfin
                linarith
              · rwa [if_neg htrig] at hfin
          have hsol_sw : SolSet (paso_intercambio registrar c st fila_piv).1 y :=
            solset_normalizar heps (by rw [hfsw]; exact hrlt) hnorm hsol_m2
          rw [paso_intercambio_matriz] at hsol_sw
          by_cases hfpr : fila_piv = st.r
          · rwa [if_pos hfpr] at hsol_sw
          · rw [if_neg hfpr] at hsol_sw
            exact solset_intercambiar hfp2 hrlt hsol_sw

/-! ### Structure of the reduced matrix under exact arithmetic (eps = 0) -/

/-- Each pivot column recorded so far is a standard basis column: entry 1 in
its pivot row (row `k` for the `k`-th pivot) and 0 in every other row. -/
def PivotesEstructura (m : Matriz) (piv : List ℕ) : Prop :=
  ∀ k, (hk : k < piv.length) → (obtener m k (piv.get ⟨k, hk⟩)).val = 1 ∧
    ∀ i < filas m, i ≠ k → (obtener m i (piv.get ⟨k, hk⟩)).val = 0

/-- All rows at or below the current pivot row are zero in the columns
already processed. -/
def ColasCero (m : Matriz) (r c : ℕ) : Prop :=
  ∀ i, r ≤ i → i < filas m → ∀ j < c, (obtener m i j).val = 0

theorem obtener_intercambiar_pt {m : Matriz} {i j : ℕ} (hi : i < filas m)
    (hj : j < filas m) (k l : ℕ) :
    obtener (intercambiar m i j) k l =
      if k = i then obtener m j l else if k = j then obtener m i l
      else obtener m k l := by
  by_cases hij : i = j
  · subst hij
    unfold intercambiar
    rw [if_pos rfl]
    by_cases hki : k = i
    · rw [if_pos hki, hki]
    · rw [if_neg hki, if_neg hki]
  · by_cases hki : k = i
    · subst hki
      rw [if_pos rfl, obtener_eq_fila, obtener_fila_intercambiar_fst hi hj,
        ← obtener_eq_fila]
    · rw [if_neg hki]
      by_cases hkj : k = j
      · subst hkj
        rw [if_pos rfl, obtener_eq_fila, obtener_fila_intercambiar_snd hi hj,
          ← obtener_eq_fila]
      · rw [if_neg hkj, obtener_eq_fila, obtener_fila_intercambiar_otro m hki hkj,
          ← obtener_eq_fila]

theorem a_forma_aux_estructura {ncols : ℕ} (registrar : Bool) :
    ∀ (n c : ℕ) (st st' : RedEstado),
    MatrizWF st.m ncols → st.r ≤ filas st.m → c + n < ncols →
    st.pivots.length = st.r →
    List.Pairwise (· < ·) st.pivots →
    (∀ p ∈ st.pivots, p < c) →
    PivotesEstructura st.m st.pivots →
    ColasCero st.m st.r c →
    a_forma_aux seleccionar_pivote 0 registrar (List.range' c n) st = some st' →
    st'.pivots.length = st'.r ∧ List.Pairwise (· < ·) st'.pivots ∧
    (∀ p ∈ st'.pivots, p < c + n) ∧ PivotesEstructura st'.m st'.pivots ∧
    ColasCero st'.m st'.r (c + n) ∧ MatrizWF st'.m ncols ∧
    filas st'.m = filas st.m ∧ st'.r ≤ filas st'.m := by
  intro n
  induction n with
  | zero =>
    intro c st st' hW hr hcn hlen hsort hplt hPE hCC h
    rw [List.range'_zero, a_forma_aux] at h
    injection h with h
    subst h
    exact ⟨hlen, hsort, by simpa using hplt, hPE, by simpa using hCC, hW, rfl, hr⟩
  | succ n ih =>
    intro c st st' hW hr hcn hlen hsort hplt hPE hCC h
    rw [List.range'_succ, a_forma_aux] at h
    by_cases hbreak : filas st.m ≤ st.r
    · rw [if_pos hbreak] at h
      injection h with h
      subst h
      refine ⟨hlen, hsort, fun p hp => by have := hplt p hp; omega, hPE, ?_, hW, rfl, hr⟩
      intro i hi1 hi2 j hj
      omega
    · rw [if_neg hbreak] at h
      have hrlt : st.r < filas st.m := by omega
      have hccol : c < ncols := by omega
      have hcolm : c < columnas st.m := by rw [columnas_of_wf hW]; exact hccol
      rcases hsel : seleccionar_pivote st.m c st.r 0 with _ | fila_piv
      · rw [hsel] at h
        have hzeros := seleccionar_none_spec hcolm hsel
        have hCC2 : ColasCero st.m st.r (c + 1) := by
          intro i hi1 hi2 j hj
          rcases Nat.lt_succ_iff_lt_or_eq.mp hj with hj2 | rfl
          · exact hCC i hi1 hi2 j hj2
          · exact hzeros i hi1 hi2
        have := ih (c + 1) st st' hW hr (by omega) hlen hsort
          (fun p hp => by have := hplt p hp; omega) hPE hCC2 h
        obtain ⟨g1, g2, g3, g4, g5, g6, g7, g8⟩ := this
        exact ⟨g1, g2, by intro p hp; have := g3 p hp; omega, g4,
          by intro i hi1 hi2 j hj; exact g5 i hi1 hi2 j (by omega), g6, g7, g8⟩
      · rw [hsel] at h
        dsimp only at h
        obtain ⟨hfp1, hfp2, hfp3, -, -⟩ := seleccionar_some_spec hsel
        obtain ⟨hWsw, hfsw⟩ := @intercambio_spec ncols registrar c st
          fila_piv hW hrlt hfp2
        rcases hnorm : normalizar_pivote (paso_intercambio registrar c st fila_piv).1
            st.r c 0 with _ | m2
        · rw [hnorm] at h
          exact absurd h (by simp)
        · rw [hnorm] at h
          dsimp only at h
          obtain ⟨hWm2, hfm2, hm2row, hm2r, hm2rc, hm2gt⟩ :=
            normalizado_spec (le_refl 0) hWsw (by rw [hfsw]; exact hrlt) hccol hnorm
          set p2 := nuevo_paso registrar (paso_intercambio registrar c st fila_piv).2.1
            (paso_intercambio registrar c st fila_piv).2.2 Operacion.NORMALIZAR_PIVOTE
            (some st.r) (some c) [] none
            (if registrar then some (como_lista (paso_intercambio registrar c st
              fila_piv).1) else none)
            (some (como_lista m2)) with hp2
          set deb := eliminar_filas 0 Operacion.ELIMINAR_DEBAJO registrar st.r c
            (List.range' (st.r + 1) (filas m2 - (st.r + 1))) m2 p2.1 p2.2 with hdeb
          set enc := eliminar_filas 0 Operacion.ELIMINAR_ENCIMA registrar st.r c
            (List.range st.r) deb.1 deb.2.1 deb.2.2 with henc
          have hrm2 : st.r < filas m2 := by rw [hfm2, hfsw]; exact hrlt
          have helim := @eliminaciones_spec ncols 0 registrar st.r c m2
            hWm2 hrm2 p2.1 p2.2
          rw [← hdeb, ← henc] at helim
          obtain ⟨heF, heW, heR, heI⟩ := helim
          -- pointwise description of the swapped matrix
          have hswap_pt : ∀ k l : ℕ, obtener
              (paso_intercambio registrar c st fila_piv).1 k l =
              if k = fila_piv then obtener st.m st.r l
              else if k = st.r then obtener st.m fila_piv l
              else obtener st.m k l := by
            intro k l
            rw [paso_intercambio_matriz]
            by_cases hfpr : fila_piv = st.r
            · rw [if_pos hfpr]
              subst hfpr
              by_cases hkf : k = st.r
              · rw [if_pos hkf, hkf]
              · rw [if_neg hkf, if_neg hkf]
            · rw [if_neg hfpr, obtener_intercambiar_pt hfp2 hrlt k l]
          have hfsw2 : filas (paso_intercambio registrar c st fila_piv).1 = filas st.m :=
            hfsw
          -- columns already processed are zero on rows at or below the pivot row
          have hmsw_cc : ∀ i, st.r ≤ i → i < filas st.m → ∀ j < c,
              (obtener (paso_intercambio registrar c st fila_piv).1 i j).val = 0 := by
            intro i hi1 hi2 j hj
            rw [hswap_pt]
            by_cases h1 : i = fila_piv
            · rw [if_pos h1]
              exact hCC st.r (le_refl _) hrlt j hj
            · rw [if_neg h1]
              by_cases h2 : i = st.r
              · rw [if_pos h2]
                exact hCC fila_piv hfp1 hfp2 j hj
              · rw [if_neg h2]
                exact hCC i hi1 hi2 j hj
          -- recorded pivot columns keep their basis-column shape after the swap
          have hmsw_pe : ∀ k, (hk : k < st.pivots.length) →
              (obtener (paso_intercambio registrar c st fila_piv).1 k
                (st.pivots.get ⟨k, hk⟩)).val = 1 ∧
              ∀ i < filas st.m, i ≠ k →
                (obtener (paso_intercambio registrar c st fila_piv).1 i
                  (st.pivots.get ⟨k, hk⟩)).val = 0 := by
            intro k hk
            have hkr : k < st.r := by omega
            obtain ⟨hq1, hq2⟩ := hPE k hk
            constructor
            · rw [hswap_pt, if_neg (by omega), if_neg (by omega)]
              exact hq1
            · intro i hi hik
              rw [hswap_pt]
              by_cases h1 : i = fila_piv
              · rw [if_pos h1]
                exact hq2 st.r hrlt (by omega)
              · rw [if_neg h1]
                by_cases h2 : i = st.r
                · rw [if_pos h2]
                  exact hq2 fila_piv hfp2 (by omega)
                · rw [if_neg h2]
                  exact hq2 i hi hik
          -- the same facts transported to the normalized matrix
          have hm2_pt_ne : ∀ i, i ≠ st.r → ∀ j,
              obtener m2 i j = obtener (paso_intercambio registrar c st fila_piv).1 i j := by
            intro i hi j
            rw [obtener_eq_fila, hm2row i hi, ← obtener_eq_fila]
          have hm2_r_val : ∀ j, j < ncols → (obtener m2 st.r j).val =
              (pyDiv (pyLitFloat 1) (obtener (paso_intercambio registrar c st
                fila_piv).1 st.r c)).val *
              (obtener (paso_intercambio registrar c st fila_piv).1 st.r j).val := by
            intro j hj
            rw [hm2r j hj]
            rfl
          have hm2_r_cc : ∀ j, j < c → (obtener m2 st.r j).val = 0 := by
            intro j hj
            rw [hm2_r_val j (by omega), hmsw_cc st.r (le_refl _) hrlt j hj, mul_zero]
          have hm2_cc : ∀ i, st.r ≤ i → i < filas st.m → ∀ j, j < c →
              (obtener m2 i j).val = 0 := by
            intro i hi1 hi2 j hj
            by_cases hir : i = st.r
            · subst hir
              exact hm2_r_cc j hj
            · rw [hm2_pt_ne i hir]
              exact hmsw_cc i hi1 hi2 j hj
          have hm2_pe : ∀ k, (hk : k < st.pivots.length) →
              (obtener m2 k (st.pivots.get ⟨k, hk⟩)).val = 1 ∧
              ∀ i < filas st.m, i ≠ k →
                (obtener m2 i (st.pivots.get ⟨k, hk⟩)).val = 0 := by
            intro k hk
            have hkr : k < st.r := by omega
            obtain ⟨hq1, hq2⟩ := hmsw_pe k hk
            have hqlt : st.pivots.get ⟨k, hk⟩ < c := hplt _ (st.pivots.get_mem _ _)
            constructor
            · rw [hm2_pt_ne k (by omega)]
              exact hq1
            · intro i hi hik
              by_cases hir : i = st.r
              · subst hir
                exact hm2_r_cc _ hqlt
              · rw [hm2_pt_ne i hir]
                exact hq2 i hi hik
          -- pointwise description of the matrix after both elimination passes
          have hlen_m2 : ∀ i, i < filas m2 → (obtener_fila m2 i).length = ncols :=
            fun i hi => longitud_obtener_fila hWm2 hi
          have henc_pt : ∀ i, i ≠ st.r → i < filas m2 → ∀ j, j < ncols →
              (obtener enc.1 i j).val =
              (obtener m2 i j).val - (obtener m2 i c).val * (obtener m2 st.r j).val := by
            intro i hir hi j hj
            rw [obtener_eq_fila, heI i hir hi]
            by_cases htrig : (0:ℚ) < |(obtener m2 i c).val|
            · rw [if_pos htrig, getD_zipWith _ _ _ j
                (by rw [hlen_m2 i hi]; exact hj) (by rw [hlen_m2 st.r hrm2]; exact hj),
                ← obtener_eq_fila, ← obtener_eq_fila]
              simp [pyAdd, pyMul, pyNeg]
              ring
            · rw [if_neg htrig, ← obtener_eq_fila]
              have h0 : (obtener m2 i c).val = 0 :=
                abs_eq_zero.mp (le_antisymm (not_lt.mp htrig) (abs_nonneg _))
              rw [h0, zero_mul, sub_zero]
          have henc_rpt : ∀ j, obtener enc.1 st.r j = obtener m2 st.r j := by
            intro j
            rw [obtener_eq_fila, heR, ← obtener_eq_fila]
          have hffin : filas enc.1 = filas st.m := by rw [heF, hfm2, hfsw2]
          -- the new pivot column c becomes a standard basis column
          have hnuevo_col : (obtener enc.1 st.r c).val = 1 ∧
              ∀ i < filas st.m, i ≠ st.r → (obtener enc.1 i c).val = 0 := by
            constructor
            · rw [henc_rpt c]
              exact hm2rc
            · intro i hi hir
              rw [henc_pt i hir (by rw [hfm2, hfsw2]; exact hi) c hccol, hm2rc,
                mul_one, sub_self]
          -- invariant components for the next iteration
          have hsort2 : List.Pairwise (· < ·) (st.pivots ++ [c]) := by
            rw [List.pairwise_append]
            exact ⟨hsort, List.pairwise_singleton _ _,
              fun a ha b hb => by rw [List.mem_singleton] at hb; subst hb; exact hplt a ha⟩
          have hplt2 : ∀ p ∈ st.pivots ++ [c], p < c + 1 := by
            intro p hp
            rcases List.mem_append.mp hp with hp1 | hp2
            · have := hplt p hp1; omega
            · rw [List.mem_singleton] at hp2; omega
          have hPE2 : PivotesEstructura enc.1 (st.pivots ++ [c]) := by
            intro k hk
            rw [List.length_append, List.length_singleton] at hk
            by_cases hklt : k < st.pivots.length
            · have hget : (st.pivots ++ [c]).get ⟨k, by rw [List.length_append, List.length_singleton]; omega⟩ =
                  st.pivots.get ⟨k, hklt⟩ := by
                rw [List.get_eq_getElem, List.get_eq_getElem]
                exact List.getElem_append_left hklt
              rw [hget]
              obtain ⟨hq1, hq2⟩ := hm2_pe k hklt
              have hqlt : st.pivots.get ⟨k, hklt⟩ < c := hplt _ (st.pivots.get_mem _ _)
              have hkr : k < st.r := by omega
              have hqnc : st.pivots.get ⟨k, hklt⟩ < ncols := lt_trans hqlt hccol
              constructor
              · rw [henc_pt k (by omega) (by rw [hfm2, hfsw2]; omega)
                  (st.pivots.get ⟨k, hklt⟩) hqnc,
                  hm2_r_cc _ hqlt, mul_zero, sub_zero]
                exact hq1
              · intro i hi hik
                rw [hffin] at hi
                by_cases hir : i = st.r
                · subst hir
                  rw [henc_rpt]
                  exact hm2_r_cc _ hqlt
                · rw [henc_pt i hir (by rw [hfm2, hfsw2]; exact hi)
                    (st.pivots.get ⟨k, hklt⟩) hqnc,
                    hm2_r_cc _ hqlt, mul_zero, sub_zero]
                  exact hq2 i hi hik
            · have hkeq : k = st.pivots.length := by omega
              have hget : (st.pivots ++ [c]).get ⟨k, by rw [List.length_append, List.length_singleton]; omega⟩ =
                  c := by
                rw [List.get_eq_getElem]
                subst hkeq
                rw [List.getElem_append_right (le_refl _)]
                simp
              rw [hget]
              subst hkeq
              rw [hlen]
              constructor
              · exact hnuevo_col.1
              · intro i hi hik
                rw [hffin] at hi
                exact hnuevo_col.2 i hi hik
          have hCC2 : ColasCero enc.1 (st.r + 1) (c + 1) := by
            intro i hi1 hi2 j hj
            rw [hffin] at hi2
            have hir : i ≠ st.r := by omega
            rcases Nat.lt_succ_iff_lt_or_eq.mp hj with hj2 | rfl
            · rw [henc_pt i hir (by rw [hfm2, hfsw2]; exact hi2) j (by omega),
                hm2_cc i (by omega) hi2 j hj2, hm2_r_cc j hj2, mul_zero, sub_zero]
            · exact hnuevo_col.2 i hi2 hir
          have hrec := ih (c + 1) ⟨enc.1, st.r + 1, st.pivots ++ [c], enc.2.1, enc.2.2⟩
            st' heW (by dsimp only; rw [hffin]; omega) (by omega)
            (by dsimp only; rw [List.length_append, List.length_singleton]; omega)
            hsort2 hplt2 hPE2 hCC2 h
          obtain ⟨g1, g2, g3, g4, g5, g6, g7, g8⟩ := hrec
          dsimp only at g7
          refine ⟨g1, g2, ?_, g4, ?_, g6, by rw [g7, hffin], g8⟩
          · intro p hp
            have := g3 p hp
            omega
          · intro i hi1 hi2 j hj
            exact g5 i hi1 hi2 j (by omega)

/-! ### Locating pivot rows in the reduced matrix -/

theorem find_range'_eq_some {p : ℕ → Bool} {j : ℕ} :
    ∀ (b a : ℕ), a ≤ j → j < a + b → p j = true →
    (∀ i, a ≤ i → i < j → p i = false) →
    (List.range' a b).find? p = some j := by
  intro b
  induction b with
  | zero => intro a h1 h2 _ _; omega
  | succ b ih =>
    intro a h1 h2 hpj hmin
    rw [List.range'_succ, List.find?_cons]
    by_cases haj : a = j
    · subst haj
      rw [hpj]
    · rw [hmin a (le_refl _) (by omega)]
      exact ih (a + 1) (by omega) (by omega) hpj
        (fun i hi1 hi2 => hmin i (by omega) hi2)

theorem find_range_eq_some {p : ℕ → Bool} {n j : ℕ} (hj : j < n)
    (hpj : p j = true) (hmin : ∀ i < j, p i = false) :
    (List.range n).find? p = some j := by
  rw [List.range_eq_range']
  exact find_range'_eq_some n 0 (Nat.zero_le j) (by omega) hpj
    (fun i _ hi2 => hmin i hi2)

/-- In a column that is the standard basis column for row `k`, the pivot-row
search of the solver finds exactly row `k` (for any threshold 0 ≤ eps < 1). -/
theorem fila_pivote_basis {R : Matriz} {q k : ℕ} {eps : ℚ} (heps : 0 ≤ eps)
    (heps1 : eps < 1) (hk : k < filas R) (h1 : (obtener R k q).val = 1)
    (h0 : ∀ i < k, (obtener R i q).val = 0) :
    fila_pivote R q eps = some k := by
  unfold fila_pivote
  have hfind : (List.range (filas R)).find?
      (fun i => decide (|(obtener R i q).val - 1| ≤ eps)) = some k := by
    refine find_range_eq_some hk ?_ ?_
    · rw [decide_eq_true_iff, h1]
      simpa using heps
    · intro i hi
      rw [decide_eq_false_iff_not]
      rw [h0 i hi]
      intro habs
      rw [zero_sub, abs_neg, abs_one] at habs
      linarith
  rw [hfind]

/-- Effect of the right-hand-side assignment loop of `resolver`: positions
outside the pivot list keep their initial cell, and each pivot position `p`
receives the RHS entry of the row located for `p`. -/
theorem asignar_valores_spec (R : Matriz) (eps : ℚ) (col_last : ℕ) (f : ℕ → ℕ) :
    ∀ (piv : List ℕ) (x : List PyNum),
    (∀ p ∈ piv, fila_pivote R p eps = some (f p)) →
    ∃ x', asignar_valores R eps col_last piv x = some x' ∧
      x'.length = x.length ∧
      (∀ q, q ∉ piv → x'.getD q pyZero = x.getD q pyZero) ∧
      (∀ p ∈ piv, p < x.length → x'.getD p pyZero = obtener R (f p) col_last) := by
  intro piv
  induction piv with
  | nil =>
    intro x _
    exact ⟨x, rfl, rfl, fun q _ => rfl, fun p hp => absurd hp (List.not_mem_nil p)⟩
  | cons p0 rest ih =>
    intro x hf
    have hp0 := hf p0 (List.mem_cons_self p0 rest)
    have hstep : asignar_valores R eps col_last (p0 :: rest) x =
        asignar_valores R eps col_last rest (x.set p0 (obtener R (f p0) col_last)) := by
      rw [asignar_valores, hp0]
    obtain ⟨x', hx', hlen, hout, hin⟩ := ih (x.set p0 (obtener R (f p0) col_last))
      (fun p hp => hf p (List.mem_cons_of_mem p0 hp))
    refine ⟨x', by rw [hstep]; exact hx', by rw [hlen, List.length_set], ?_, ?_⟩
    · intro q hq
      have hq0 : q ∉ rest := fun hh => hq (List.mem_cons_of_mem p0 hh)
      have hqp : q ≠ p0 := fun hh => hq (hh ▸ List.mem_cons_self p0 rest)
      rw [hout q hq0, getD_set_ne x p0 q (Ne.symm hqp) _ _]
    · intro p hp hplen
      rcases List.mem_cons.mp hp with rfl | hpr
      · by_cases hp0r : p ∈ rest
        · rw [hin p hp0r (by rw [List.length_set]; exact hplen)]
        · rw [hout p hp0r, getD_set_self x p hplen _ _]
      · rw [hin p hpr (by rw [List.length_set]; exact hplen)]

/-- Effect of the direction-vector loop of `resolver` under exact arithmetic:
given that the vector starts with value 0 at every pivot position, the
resulting values at pivot positions are the negated coefficients of the free
column in the located pivot rows; other positions are untouched. -/
theorem asignar_direccion_spec (R : Matriz) (f0 : ℕ) (f : ℕ → ℕ) :
    ∀ (piv : List ℕ) (v : List PyNum),
    (∀ p ∈ piv, fila_pivote R p 0 = some (f p)) →
    piv.Nodup →
    (∀ p ∈ piv, (v.getD p pyZero).val = 0) →
    ∃ v', asignar_direccion R 0 f0 piv v = some v' ∧
      v'.length = v.length ∧
      (∀ q, q ∉ piv → v'.getD q pyZero = v.getD q pyZero) ∧
      (∀ p ∈ piv, p < v.length →
        (v'.getD p pyZero).val = -(obtener R (f p) f0).val) := by
  intro piv
  induction piv with
  | nil =>
    intro v _ _ _
    exact ⟨v, rfl, rfl, fun q _ => rfl, fun p hp => absurd hp (List.not_mem_nil p)⟩
  | cons p0 rest ih =>
    intro v hf hnd hv0
    have hp0 := hf p0 (List.mem_cons_self p0 rest)
    have hp0nr : p0 ∉ rest := (List.nodup_cons.mp hnd).1
    have hndr : rest.Nodup := (List.nodup_cons.mp hnd).2
    by_cases htrig : |(obtener R (f p0) f0).val| > 0
    · have hstep : asignar_direccion R 0 f0 (p0 :: rest) v =
          asignar_direccion R 0 f0 rest
            (v.set p0 (pyNeg (obtener R (f p0) f0))) := by
        rw [asignar_direccion, hp0]
        dsimp only
        rw [if_pos htrig]
      obtain ⟨v', hv', hlen, hout, hin⟩ := ih (v.set p0 (pyNeg (obtener R (f p0) f0)))
        (fun p hp => hf p (List.mem_cons_of_mem p0 hp)) hndr
        (by
          intro p hp
          have hpne : p ≠ p0 := fun hh => hp0nr (hh ▸ hp)
          rw [getD_set_ne v p0 p (Ne.symm hpne) _ _]
          exact hv0 p (List.mem_cons_of_mem p0 hp))
      refine ⟨v', by rw [hstep]; exact hv', by rw [hlen, List.length_set], ?_, ?_⟩
      · intro q hq
        have hq0 : q ∉ rest := fun hh => hq (List.mem_cons_of_mem p0 hh)
        have hqp : q ≠ p0 := fun hh => hq (hh ▸ List.mem_cons_self p0 rest)
        rw [hout q hq0, getD_set_ne v p0 q (Ne.symm hqp) _ _]
      · intro p hp hplen
        rcases List.mem_cons.mp hp with rfl | hpr
        · rw [hout p hp0nr, getD_set_self v p hplen _ _]
          rfl
        · rw [hin p hpr (by rw [List.length_set]; exact hplen)]
    · have hcoef0 : (obtener R (f p0) f0).val = 0 :=
        abs_eq_zero.mp (le_antisymm (not_lt.mp htrig) (abs_nonneg _))
      have hstep : asignar_direccion R 0 f0 (p0 :: rest) v =
          asignar_direccion R 0 f0 rest v := by
        rw [asignar_direccion, hp0]
        dsimp only
        rw [if_neg htrig]
      obtain ⟨v', hv', hlen, hout, hin⟩ := ih v
        (fun p hp => hf p (List.mem_cons_of_mem p0 hp)) hndr
        (fun p hp => hv0 p (List.mem_cons_of_mem p0 hp))
      refine ⟨v', by rw [hstep]; exact hv', hlen, ?_, ?_⟩
      · intro q hq
        exact hout q (fun hh => hq (List.mem_cons_of_mem p0 hh))
      · intro p hp hplen
        rcases List.mem_cons.mp hp with rfl | hpr
        · rw [hout p hp0nr, hcoef0, neg_zero]
          exact hv0 p (List.mem_cons_self p rest)
        · rw [hin p hpr hplen]

/-- A strictly increasing list of `n` naturals all below `n` is the identity
enumeration: its `k`-th entry is `k`. -/
theorem sorted_get_eq_self {piv : List ℕ} (hsort : List.Pairwise (· < ·) piv)
    {n : ℕ} (hlen : piv.length = n) (hlt : ∀ p ∈ piv, p < n) :
    ∀ k, (hk : k < piv.length) → piv.get ⟨k, hk⟩ = k := by
  have hgd : ∀ i, (hi : i < piv.length) → piv.get ⟨i, hi⟩ = piv.getD i 0 := by
    intro i hi
    rw [List.get_eq_getElem]
    exact (List.getD_eq_getElem piv 0 hi).symm
  have hmono : ∀ i j, i < j → (hj : j < piv.length) → piv.getD i 0 < piv.getD j 0 := by
    intro i j hij hj
    have hi : i < piv.length := by omega
    have := List.pairwise_iff_get.mp hsort ⟨i, hi⟩ ⟨j, hj⟩ hij
    rwa [hgd i hi, hgd j hj] at this
  have hstep : ∀ (d k : ℕ), k + d < piv.length →
      piv.getD k 0 + d ≤ piv.getD (k + d) 0 := by
    intro d
    induction d with
    | zero =>
      intro k hkd
      show piv.getD k 0 + 0 ≤ piv.getD k 0
      omega
    | succ d ihd =>
      intro k hkd
      have h1 := ihd k (by omega)
      have h2 := hmono (k + d) (k + d + 1) (by omega) (by omega)
      show piv.getD k 0 + (d + 1) ≤ piv.getD (k + d + 1) 0
      omega
  intro k hk
  rw [hgd k hk]
  have hlb : k ≤ piv.getD k 0 := by
    have h0 : (0:ℕ) + k < piv.length := by omega
    have := hstep k 0 h0
    have h1 : piv.getD (0 + k) 0 = piv.getD k 0 := by
      rw [Nat.zero_add]
    omega
  have hub : piv.getD k 0 ≤ k := by
    have hklast : k + (piv.length - 1 - k) < piv.length := by omega
    have h1 := hstep (piv.length - 1 - k) k hklast
    have h2 : piv.getD (k + (piv.length - 1 - k)) 0 < n :=
      hlt _ (getD_mem piv _ hklast 0)
    omega
  omega

/-- Complete case analysis of a successful `resolver` call in terms of the
final state of the reduction loop. -/
theorem resolver_cases {s : SistemaLineal} {eps : ℚ} {reg : Bool} {sol : Solucion}
    (h : resolver s eps reg = some sol) :
    ∃ st, a_forma_aux seleccionar_pivote eps reg (List.range (num_variables s))
        ⟨clonar (como_matriz_aumentada s), 0, [], [], 0⟩ = some st ∧
      sol.columnas_pivote = some st.pivots ∧
      sol.variables_libres = some ((List.range (num_variables s)).filter
        (fun j => decide (j ∉ st.pivots))) ∧
      (((List.range (filas st.m)).any (fun i =>
          ((List.range (num_variables s)).all
            (fun j => !(decide (eps < |(obtener st.m i j).val|))))
            && decide (eps < |(obtener st.m i (columnas st.m - 1)).val|)) = true ∧
        sol.estado = Estado.INCONSISTENTE ∧ sol.x = none ∧ sol.parametrica = none) ∨
      ((List.range (filas st.m)).any (fun i =>
          ((List.range (num_variables s)).all
            (fun j => !(decide (eps < |(obtener st.m i j).val|))))
            && decide (eps < |(obtener st.m i (columnas st.m - 1)).val|)) = false ∧
        st.pivots.length = num_variables s ∧ sol.estado = Estado.UNICA ∧
        sol.parametrica = none ∧
        ∃ x, asignar_valores st.m eps (columnas st.m - 1) st.pivots
            (List.replicate (num_variables s) (pyLitFloat 0)) = some x ∧
          sol.x = some x) ∨
      ((List.range (filas st.m)).any (fun i =>
          ((List.range (num_variables s)).all
            (fun j => !(decide (eps < |(obtener st.m i j).val|))))
            && decide (eps < |(obtener st.m i (columnas st.m - 1)).val|)) = false ∧
        st.pivots.length ≠ num_variables s ∧ sol.estado = Estado.INFINITAS ∧
        sol.x = none ∧
        ∃ part dirs, asignar_valores st.m eps (columnas st.m - 1) st.pivots
            (List.replicate (num_variables s) (pyLitFloat 0)) = some part ∧
          construir_direcciones st.m eps st.pivots (num_variables s)
            ((List.range (num_variables s)).filter
              (fun j => decide (j ∉ st.pivots))) = some dirs ∧
          sol.parametrica = some ⟨part, dirs,
            (List.range (num_variables s)).filter (fun j => decide (j ∉ st.pivots))⟩)) := by
  unfold resolver a_forma_escalonada_reducida at h
  dsimp only at h
  rcases haux : a_forma_aux seleccionar_pivote eps reg
      (List.range (num_variables s))
      ⟨clonar (como_matriz_aumentada s), 0, [], [], 0⟩ with _ | st
  · rw [haux] at h
    exact absurd h (by simp)
  · rw [haux] at h
    dsimp only at h
    refine ⟨st, rfl, ?_⟩
    by_cases hinc : (List.range (filas st.m)).any (fun i =>
        ((List.range (num_variables s)).all
          (fun j => !(decide (eps < |(obtener st.m i j).val|))))
          && decide (eps < |(obtener st.m i (columnas st.m - 1)).val|)) = true
    · rw [if_pos hinc] at h
      injection h with h
      subst h
      exact ⟨rfl, rfl, Or.inl ⟨hinc, rfl, rfl, rfl⟩⟩
    · rw [if_neg hinc] at h
      rw [Bool.not_eq_true] at hinc
      by_cases hrank : st.pivots.length = num_variables s
      · rw [if_pos hrank] at h
        rcases hx : asignar_valores st.m eps (columnas st.m - 1) st.pivots
            (List.replicate (num_variables s) (pyLitFloat 0)) with _ | x
        · rw [hx] at h
          exact absurd h (by simp)
        · rw [hx] at h
          injection h with h
          subst h
          exact ⟨rfl, rfl, Or.inr (Or.inl ⟨hinc, hrank, rfl, rfl, x, rfl, rfl⟩)⟩
      · rw [if_neg hrank] at h
        rcases hpart : asignar_valores st.m eps (columnas st.m - 1) st.pivots
            (List.replicate (num_variables s) (pyLitFloat 0)) with _ | part
        · rw [hpart] at h
          exact absurd h (by simp)
        · rw [hpart] at h
          rcases hdirs : construir_direcciones st.m eps st.pivots (num_variables s)
              ((List.range (num_variables s)).filter
                (fun j => decide (j ∉ st.pivots))) with _ | dirs
          · rw [hdirs] at h
            exact absurd h (by simp)
          · rw [hdirs] at h
            injection h with h
            subst h
            exact ⟨rfl, rfl, Or.inr (Or.inr
              ⟨hinc, hrank, rfl, rfl, part, dirs, rfl, rfl, rfl⟩)⟩

/-- C2: after reduction of the augmented matrix to RREF, `resolver` returns
INCONSISTENTE exactly when some row of the reduced matrix has all its
variable-column entries of magnitude at most `eps` while its right-hand-side
entry has magnitude above `eps`; the check covers every row. -/
theorem C2_inconsistencia_caracterizada (s : SistemaLineal) (eps : ℚ)
    (reg : Bool) (sol : Solucion) (res : ResultadoRREF) (hist : List PasoReduccion)
    (hred : a_forma_escalonada_reducida (como_matriz_aumentada s)
      (num_variables s) seleccionar_pivote eps reg = some (res, hist))
    (h : resolver s eps reg = some sol) :
    sol.estado = Estado.INCONSISTENTE ↔
      ∃ i, i < filas res.matriz_rref ∧
        (∀ j, j < num_variables s → |(obtener res.matriz_rref i j).val| ≤ eps) ∧
        eps < |(obtener res.matriz_rref i (columnas res.matriz_rref - 1)).val| := by
  obtain ⟨st, haux, -, -, hcases⟩ := resolver_cases h
  have hstm : res.matriz_rref = st.m := by
    unfold a_forma_escalonada_reducida at hred
    dsimp only at hred
    rw [haux] at hred
    simp only [Option.some.injEq, Prod.mk.injEq] at hred
    obtain ⟨hres, -⟩ := hred
    rw [← hres]
  rw [hstm]
  have hbool : ((List.range (filas st.m)).any (fun i =>
      ((List.range (num_variables s)).all
        (fun j => !(decide (eps < |(obtener st.m i j).val|))))
        && decide (eps < |(obtener st.m i
          (columnas st.m - 1)).val|)) = true) ↔
      ∃ i, i < filas st.m ∧
        (∀ j, j < num_variables s → |(obtener st.m i j).val| ≤ eps) ∧
        eps < |(obtener st.m i (columnas st.m - 1)).val| := by
    rw [List.any_eq_true]
    constructor
    · rintro ⟨i, hi, hcond⟩
      rw [List.mem_range] at hi
      rw [Bool.and_eq_true, List.all_eq_true] at hcond
      obtain ⟨hall, hrhs⟩ := hcond
      refine ⟨i, hi, ?_, by simpa using hrhs⟩
      intro j hj
      have := hall j (by rw [List.mem_range]; exact hj)
      rw [Bool.not_eq_true', decide_eq_false_iff_not, not_lt] at this
      exact this
    · rintro ⟨i, hi, hall, hrhs⟩
      refine ⟨i, by rw [List.mem_range]; exact hi, ?_⟩
      rw [Bool.and_eq_true, List.all_eq_true]
      refine ⟨?_, by simpa using hrhs⟩
      intro j hj
      rw [List.mem_range] at hj
      rw [Bool.not_eq_true', decide_eq_false_iff_not, not_lt]
      exact hall j hj
  rcases hcases with ⟨hinc, hest, -, -⟩ | ⟨hinc, -, hest, -, -⟩ | ⟨hinc, -, hest, -, -⟩
  · rw [hest]
    simp only [true_iff]
    exact hbool.mp hinc
  · rw [hest]
    constructor
    · intro habs
      exact absurd habs (by simp)
    · intro hex
      rw [hbool.mpr hex] at hinc
      exact absurd hinc (by simp)
  · rw [hest]
    constructor
    · intro habs
      exact absurd habs (by simp)
    · intro hex
      rw [hbool.mpr hex] at hinc
      exact absurd hinc (by simp)

/-- C9: a successful reduction returns a pivot-column list of length at most
`min(filas, num_variables)` (the loop performs at most that many pivot
iterations; termination itself is by structural recursion on the column
list). -/
theorem C9_pivotes_acotados (aug : Matriz) (nv ncols : ℕ) (eps : ℚ)
    (reg : Bool) (res : ResultadoRREF) (hist : List PasoReduccion)
    (hW : MatrizWF aug ncols) (hnv : nv ≤ ncols) (heps : 0 ≤ eps)
    (hred : a_forma_escalonada_reducida aug nv seleccionar_pivote eps reg =
      some (res, hist)) :
    res.columnas_pivote.length ≤ min (filas aug) nv := by
  unfold a_forma_escalonada_reducida at hred
  dsimp only at hred
  rcases haux : a_forma_aux seleccionar_pivote eps reg (List.range nv)
      ⟨clonar aug, 0, [], [], 0⟩ with _ | st
  · rw [haux] at hred
    exact absurd hred (by simp)
  · rw [haux] at hred
    simp only [Option.some.injEq, Prod.mk.injEq] at hred
    obtain ⟨hres, -⟩ := hred
    have hforma := a_forma_aux_forma eps heps reg (List.range nv)
      ⟨clonar aug, 0, [], [], 0⟩ st hW (Nat.zero_le _)
      (fun c hc => by rw [List.mem_range] at hc; omega) haux
    obtain ⟨-, hfil, -, hrfil, hcount, hbound⟩ := hforma
    rw [← hres]
    dsimp only
    dsimp only at hfil hrfil hcount hbound
    rw [List.length_range] at hbound
    simp only [List.length_nil] at hcount
    have hclon : filas (clonar aug) = filas aug := rfl
    omega

/-- C3 (amended): partial pivoting returns the lowest-index row at or below
`desde_fila` whose entry has the maximal absolute value in the column, and
returns none exactly when every candidate entry is zero; the `eps` argument
is ignored (the scan compares against 0, not `eps`). -/
theorem C3_seleccion_argmax (m : Matriz) (c desde : ℕ) (eps : ℚ)
    (hc : c < columnas m) :
    (∀ i, seleccionar_pivote m c desde eps = some i →
      desde ≤ i ∧ i < filas m ∧ (obtener m i c).val ≠ 0 ∧
      (∀ k, desde ≤ k → k < filas m →
        |(obtener m k c).val| ≤ |(obtener m i c).val|) ∧
      (∀ k, desde ≤ k → k < i →
        |(obtener m k c).val| < |(obtener m i c).val|)) ∧
    (seleccionar_pivote m c desde eps = none ↔
      ∀ k, desde ≤ k → k < filas m → (obtener m k c).val = 0) ∧
    seleccionar_pivote m c desde eps = seleccionar_pivote m c desde 0 := by
  refine ⟨fun i hi => seleccionar_some_spec hi,
    ⟨fun h => seleccionar_none_spec hc h, fun h => seleccionar_all_zero_none h⟩, rfl⟩

/-- C3 counterexample: with the default `eps = 1e-12`, a single-row matrix
whose only candidate entry is `1e-13` (magnitude at most `eps`) still gets
selected as pivot row instead of producing none. -/
theorem C3_contraejemplo :
    seleccionar_pivote [[⟨false, 1/10000000000000⟩]] 0 0 eps_default = some 0 ∧
    |(obtener [[⟨false, 1/10000000000000⟩]] 0 0).val| ≤ eps_default := by
  constructor
  · with_unfolding_all rfl
  · with_unfolding_all decide

/-- C5: `normalizar_pivote` raises the numerically-zero-pivot error exactly
when the pivot magnitude is at most `eps` (leaving no updated matrix), and
otherwise scales the pivot row by `1.0 / pivote`, making the pivot entry
exactly 1 and leaving every other row unchanged. -/
theorem C5_normalizar_pivote (m : Matriz) (ncols fila col : ℕ) (eps : ℚ)
    (heps : 0 ≤ eps) (hW : MatrizWF m ncols) (hfila : fila < filas m)
    (hcol : col < ncols) :
    (normalizar_pivote m fila col eps = none ↔
      |(obtener m fila col).val| ≤ eps) ∧
    (∀ m2, normalizar_pivote m fila col eps = some m2 →
      obtener_fila m2 fila = (obtener_fila m fila).map
        (fun x => pyMul (pyDiv (pyLitFloat 1) (obtener m fila col)) x) ∧
      (obtener m2 fila col).val = 1 ∧
      (∀ i, i ≠ fila → obtener_fila m2 i = obtener_fila m i)) := by
  constructor
  · constructor
    · intro h
      by_contra habs
      rw [normalizar_pivote] at h
      rw [if_neg habs] at h
      exact absurd h (by simp)
    · intro h
      rw [normalizar_pivote]
      rw [if_pos h]
  · intro m2 h
    obtain ⟨hW2, hf2, hotros, hpt, hpc, hgt⟩ := normalizado_spec heps hW hfila hcol h
    obtain ⟨hgt2, rfl⟩ := normalizar_some h
    have hpne : (obtener m fila col).val ≠ 0 := by
      intro h0
      rw [h0, abs_zero] at hgt2
      linarith
    have hfne : (pyDiv (pyLitFloat 1) (obtener m fila col)).val ≠ 0 := by
      simp [pyDiv, pyLitFloat]
      exact hpne
    exact ⟨obtener_fila_escalar_self hfila hfne, hpc, hotros⟩

/-! ### Aggregate status of a matrix equation -/

theorem peor_foldl_inconsistente : ∀ xs : List Estado,
    xs.foldl (fun acc s => if severidad acc < severidad s then s else acc)
      Estado.INCONSISTENTE = Estado.INCONSISTENTE := by
  intro xs
  induction xs with
  | nil => rfl
  | cons x xs ih =>
    rw [List.foldl_cons]
    have hx : (if severidad Estado.INCONSISTENTE < severidad x then x
        else Estado.INCONSISTENTE) = Estado.INCONSISTENTE := by
      cases x <;> rfl
    rw [hx, ih]

theorem peor_foldl_infinitas : ∀ xs : List Estado,
    xs.foldl (fun acc s => if severidad acc < severidad s then s else acc)
      Estado.INFINITAS =
      (if xs.any (fun s => decide (s = Estado.INCONSISTENTE)) then
        Estado.INCONSISTENTE else Estado.INFINITAS) := by
  intro xs
  induction xs with
  | nil => rfl
  | cons x xs ih =>
    rw [List.foldl_cons, List.any_cons]
    cases x with
    | UNICA =>
      have : (if severidad Estado.INFINITAS < severidad Estado.UNICA then
          Estado.UNICA else Estado.INFINITAS) = Estado.INFINITAS := rfl
      rw [this, ih]
      simp
    | INFINITAS =>
      have : (if severidad Estado.INFINITAS < severidad Estado.INFINITAS then
          Estado.INFINITAS else Estado.INFINITAS) = Estado.INFINITAS := rfl
      rw [this, ih]
      simp
    | INCONSISTENTE =>
      have : (if severidad Estado.INFINITAS < severidad Estado.INCONSISTENTE then
          Estado.INCONSISTENTE else Estado.INFINITAS) = Estado.INCONSISTENTE := rfl
      rw [this, peor_foldl_inconsistente]
      simp

theorem aggregate_eq_peor : ∀ xs : List Estado,
    aggregate_status xs = peor_estado xs := by
  intro xs
  induction xs with
  | nil => rfl
  | cons x xs ih =>
    unfold aggregate_status peor_estado at *
    rw [List.foldl_cons, List.any_cons, List.any_cons]
    cases x with
    | UNICA =>
      have : (if severidad Estado.UNICA < severidad Estado.UNICA then
          Estado.UNICA else Estado.UNICA) = Estado.UNICA := rfl
      rw [this]
      simpa using ih
    | INFINITAS =>
      have : (if severidad Estado.UNICA < severidad Estado.INFINITAS then
          Estado.INFINITAS else Estado.UNICA) = Estado.INFINITAS := rfl
      rw [this, peor_foldl_infinitas]
      simp only [decide_eq_true_eq]
      by_cases hinc : xs.any (fun s => decide (s = Estado.INCONSISTENTE)) = true
      · rw [hinc]
        simp
      · rw [Bool.not_eq_true] at hinc
        rw [hinc]
        simp
    | INCONSISTENTE =>
      have : (if severidad Estado.UNICA < severidad Estado.INCONSISTENTE then
          Estado.INCONSISTENTE else Estado.UNICA) = Estado.INCONSISTENTE := rfl
      rw [this, peor_foldl_inconsistente]
      simp

/-- C7: for a matrix equation solved column-by-column through
`solve_AX_B`, the aggregate of `_aggregate_status` equals the worst
per-column outcome under INCONSISTENT over INFINITE over UNIQUE. -/
theorem C7_agregado_es_peor (A_rows B_rows : List (List PyNum)) (reg : Bool)
    (sols : List (ℕ × Solucion))
    (h : solve_AX_B A_rows B_rows reg = some sols) :
    aggregate_status (sols.map (fun p => p.2.estado)) =
      peor_estado (sols.map (fun p => p.2.estado)) :=
  aggregate_eq_peor _

/-! ### Object store model for the aliasing discipline (claim C8) -/

/-- A store of `Matriz` objects: each index is one Python object identity. -/
abbrev Almacen : Type := List Matriz

/-- `Matriz.clonar` at the object level: allocate a fresh object holding a
deep copy of the data of the object at `ref`. -/
def heap_clonar (h : Almacen) (ref : ℕ) : Almacen × ℕ :=
  (h ++ [clonar (h.getD ref [])], h.length)

/-- `ReductorEscalonado.a_forma_escalonada_reducida` at the object level:
clone the caller's augmented matrix, run the in-place reduction on the clone
only (its successive states threaded as the clone object's value), and write
the final state back into the clone's cell. -/
def heap_reducir (h : Almacen) (ref : ℕ) (num_variables : ℕ) (eps : ℚ)
    (registrar : Bool) : Option (Almacen × ResultadoRREF × List PasoReduccion) :=
  let alloc := heap_clonar h ref
  match a_forma_aux seleccionar_pivote eps registrar (List.range num_variables)
      ⟨(alloc.1).getD alloc.2 [], 0, [], [], 0⟩ with
  | none => none
  | some st =>
    some ((alloc.1).set alloc.2 st.m, ⟨st.m, st.pivots, st.pivots.length⟩, st.hist)

/-- `SolucionadorGaussJordan.resolver` at the object level: the augmented
matrix is built from reads of the coefficient object `aRef` into a fresh
object, and the reduction is run on that object. -/
def heap_resolver (h : Almacen) (aRef : ℕ) (b : List PyNum) (eps : ℚ)
    (registrar : Bool) : Option (Almacen × ResultadoRREF × List PasoReduccion) :=
  let s := sistema_lineal_mk (h.getD aRef []) b
  let aug := como_matriz_aumentada s
  let h1 := h ++ [aug]
  heap_reducir h1 (h.length) (num_variables s) eps registrar

/-- C8: the reducer operates only on a private clone, so the caller's object
is unchanged after a reduction, and `resolver` leaves the coefficient-matrix
object of the linear system unchanged. -/
theorem C8_reduccion_no_muta (h : Almacen) (ref : ℕ) (nv : ℕ) (eps : ℚ)
    (reg : Bool) (hr : ref < h.length) :
    (∀ h2 res hist, heap_reducir h ref nv eps reg = some (h2, res, hist) →
      h2.getD ref [] = h.getD ref []) ∧
    (∀ aRef b h2 res hist, aRef < h.length →
      heap_resolver h aRef b eps reg = some (h2, res, hist) →
      h2.getD aRef [] = h.getD aRef []) := by
  constructor
  · intro h2 res hist hh
    unfold heap_reducir heap_clonar at hh
    dsimp only at hh
    rcases haux : a_forma_aux seleccionar_pivote eps reg (List.range nv)
        ⟨(h ++ [clonar (h.getD ref [])]).getD h.length [], 0, [], [], 0⟩ with _ | st
    · rw [haux] at hh
      exact absurd hh (by simp)
    · rw [haux] at hh
      simp only [Option.some.injEq, Prod.mk.injEq] at hh
      obtain ⟨hh2, -⟩ := hh
      rw [← hh2]
      have hne : ref ≠ h.length := by omega
      rw [getD_set_ne _ _ _ (Ne.symm hne) _ _, getD_append_left h _ ref hr _]
  · intro aRef b h2 res hist haR hh
    unfold heap_resolver heap_reducir heap_clonar at hh
    dsimp only at hh
    rcases haux : a_forma_aux seleccionar_pivote eps reg
        (List.range (num_variables (sistema_lineal_mk (h.getD aRef []) b)))
        ⟨((h ++ [como_matriz_aumentada (sistema_lineal_mk (h.getD aRef []) b)]) ++
          [clonar ((h ++ [como_matriz_aumentada (sistema_lineal_mk
            (h.getD aRef []) b)]).getD h.length [])]).getD
          (h ++ [como_matriz_aumentada (sistema_lineal_mk
            (h.getD aRef []) b)]).length [], 0, [], [], 0⟩ with _ | st
    · rw [haux] at hh
      exact absurd hh (by simp)
    · rw [haux] at hh
      simp only [Option.some.injEq, Prod.mk.injEq] at hh
      obtain ⟨hh2, -⟩ := hh
      rw [← hh2]
      have hlen1 : aRef < (h ++ [como_matriz_aumentada (sistema_lineal_mk
          (h.getD aRef []) b)]).length := by
        rw [List.length_append]
        simp
        omega
      have hne : aRef ≠ (h ++ [como_matriz_aumentada (sistema_lineal_mk
          (h.getD aRef []) b)]).length := by
        rw [List.length_append]
        simp
        omega
      rw [getD_set_ne _ _ _ (Ne.symm hne) _ _,
        getD_append_left _ _ aRef hlen1 _, getD_append_left h _ aRef haR _]

/-! ### The augmented matrix of a linear system -/

theorem getD_map_range {α : Type} (f : ℕ → α) (n i : ℕ) (hi : i < n) (d : α) :
    ((List.range n).map f).getD i d = f i := by
  rw [List.getD_eq_getElem _ _ (by simpa using hi)]
  simp

theorem getD_map_val (x : List PyNum) (j : ℕ) (hj : j < x.length) :
    (x.map PyNum.val).getD j 0 = (x.getD j pyZero).val := by
  rw [List.getD_eq_getElem _ _ (by simpa using hj), List.getD_eq_getElem _ _ hj]
  simp

theorem getD_append_len {α : Type} (l : List α) (a d : α) :
    (l ++ [a]).getD l.length d = a := by
  rw [List.getD_eq_getElem _ _ (by simp)]
  rw [List.getElem_append_right (le_refl _)]
  simp

theorem filas_aumentada (A : Matriz) (b : List PyNum) :
    filas (como_matriz_aumentada (sistema_lineal_mk A b)) = filas A := by
  unfold como_matriz_aumentada sistema_lineal_mk
  simp [filas]

theorem fila_aumentada {A : Matriz} (b : List PyNum) {i : ℕ} (hi : i < filas A)
    (hb : b.length = filas A) :
    obtener_fila (como_matriz_aumentada (sistema_lineal_mk A b)) i =
      obtener_fila A i ++ [pyFloat (b.getD i pyZero)] := by
  unfold como_matriz_aumentada obtener_fila sistema_lineal_mk
  dsimp only
  rw [getD_map_range _ _ i hi []]
  have : (b.map pyFloat).getD i pyZero = pyFloat (b.getD i pyZero) := by
    rw [List.getD_eq_getElem _ _ (by rw [List.length_map, hb]; exact hi),
      List.getD_eq_getElem _ _ (by rw [hb]; exact hi)]
    simp
  rw [this]

theorem wf_aumentada {A : Matriz} {nv : ℕ} (hW : MatrizWF A nv)
    {b : List PyNum} (hb : b.length = filas A) :
    MatrizWF (como_matriz_aumentada (sistema_lineal_mk A b)) (nv + 1) := by
  constructor
  · intro habs
    have h1 : filas (como_matriz_aumentada (sistema_lineal_mk A b)) = filas A :=
      filas_aumentada A b
    rw [habs] at h1
    have h2 := filas_pos_of_wf hW
    rw [← h1] at h2
    simp [filas] at h2
  · intro g hg
    unfold como_matriz_aumentada sistema_lineal_mk at hg
    dsimp only at hg
    rw [List.mem_map] at hg
    obtain ⟨i, hi, rfl⟩ := hg
    rw [List.mem_range] at hi
    rw [List.length_append, longitud_obtener_fila hW hi]
    simp

theorem num_variables_mk (A : Matriz) (b : List PyNum) :
    num_variables (sistema_lineal_mk A b) = columnas A := rfl

/-- Under eps = 0, when the inconsistency scan is negative, every row whose
variable columns all vanish has a vanishing right-hand side. -/
theorem rhs_cero_de_no_inconsistente {R : Matriz} {nv : ℕ}
    (hinc : (List.range (filas R)).any (fun i =>
      ((List.range nv).all (fun j => !(decide ((0:ℚ) < |(obtener R i j).val|))))
        && decide ((0:ℚ) < |(obtener R i (columnas R - 1)).val|)) = false)
    {i : ℕ} (hi : i < filas R)
    (hzeros : ∀ j, j < nv → (obtener R i j).val = 0) :
    (obtener R i (columnas R - 1)).val = 0 := by
  rw [List.any_eq_false] at hinc
  have := hinc i (by rw [List.mem_range]; exact hi)
  rw [Bool.not_eq_true, Bool.and_eq_false_iff] at this
  rcases this with hall | hrhs
  · exfalso
    rw [List.all_eq_false] at hall
    obtain ⟨j, hj, hjf⟩ := hall
    rw [List.mem_range] at hj
    simp only [Bool.not_eq_true, Bool.not_eq_false', decide_eq_true_iff] at hjf
    rw [hzeros j hj] at hjf
    simp at hjf
  · rw [decide_eq_false_iff_not, not_lt] at hrhs
    exact abs_eq_zero.mp (le_antisymm hrhs (abs_nonneg _))

/-- C1 (amended): under exact arithmetic (eps = 0), whenever `resolver`
classifies a system as UNICA with assignment vector `x`, that vector
satisfies `A·x = b` exactly.  (With the default eps = 1e-12 the claimed
identity fails; see the counterexample theorem.) -/
theorem C1_unica_exacta (A : Matriz) (b : List PyNum) (nv : ℕ) (reg : Bool)
    (sol : Solucion) (x : List PyNum) (hW : MatrizWF A nv)
    (hb : b.length = filas A)
    (h : resolver (sistema_lineal_mk A b) 0 reg = some sol)
    (hestado : sol.estado = Estado.UNICA) (hx : sol.x = some x) :
    ∀ i, i < filas A →
      dotv (obtener_fila A i) (x.map PyNum.val) = (b.getD i pyZero).val := by
  have hnv : num_variables (sistema_lineal_mk A b) = nv := columnas_of_wf hW
  obtain ⟨st, haux, -, -, hcases⟩ := resolver_cases h
  rw [hnv] at haux hcases
  rcases hcases with ⟨-, hest1, -, -⟩ | ⟨hinc, hrank, -, -, x', hasig, hx'⟩ |
    ⟨-, -, hest3, -, -⟩
  · rw [hestado] at hest1
    exact absurd hest1 (by simp)
  swap
  · rw [hestado] at hest3
    exact absurd hest3 (by simp)
  rw [hx] at hx'
  injection hx' with hx'
  subst hx'
  -- shape and structure of the final state
  have hWaug : MatrizWF (como_matriz_aumentada (sistema_lineal_mk A b)) (nv + 1) :=
    wf_aumentada hW hb
  have hfilaug : filas (como_matriz_aumentada (sistema_lineal_mk A b)) = filas A :=
    filas_aumentada A b
  rw [List.range_eq_range'] at haux
  have hestr := a_forma_aux_estructura reg nv 0
    ⟨clonar (como_matriz_aumentada (sistema_lineal_mk A b)), 0, [], [], 0⟩ st
    hWaug (Nat.zero_le _) (by omega) rfl (List.Pairwise.nil)
    (fun p hp => absurd hp (List.not_mem_nil p))
    (fun k hk => absurd hk (by simp))
    (fun i h1 h2 j hj => absurd hj (by omega)) haux
  obtain ⟨g1, g2, g3, g4, g5, g6, g7, g8⟩ := hestr
  simp only [Nat.zero_add] at g3 g5
  have hreq : st.r = nv := by rw [← g1, hrank]
  have hget := sorted_get_eq_self g2 (by rw [hrank]) g3
  have hmem_all : ∀ q, q < nv → q ∈ st.pivots := by
    intro q hq
    have hq2 : q < st.pivots.length := by rw [hrank]; exact hq
    have := hget q hq2
    rw [← this]
    exact List.get_mem st.pivots q hq2
  have hcols : columnas st.m = nv + 1 := columnas_of_wf g6
  have hcol_last : columnas st.m - 1 = nv := by omega
  have hfilst : filas st.m = filas A := by
    rw [g7]
    exact hfilaug
  -- each pivot column is the basis column of its own index
  have hbasis : ∀ q, q < nv → (obtener st.m q q).val = 1 ∧
      ∀ i < filas st.m, i ≠ q → (obtener st.m i q).val = 0 := by
    intro q hq
    have hq2 : q < st.pivots.length := by rw [hrank]; exact hq
    have := g4 q hq2
    rw [hget q hq2] at this
    exact this
  have hfila_piv : ∀ p ∈ st.pivots, fila_pivote st.m p 0 = some p := by
    intro p hp
    obtain ⟨⟨k, hk⟩, hpk⟩ := List.mem_iff_get.mp hp
    rw [hget k hk] at hpk
    subst hpk
    have hplt : k < nv := by rw [← hrank]; exact hk
    obtain ⟨h1, h0⟩ := hbasis k hplt
    refine fila_pivote_basis (le_refl 0) (by norm_num) ?_ h1 ?_
    · rw [hfilst]
      have : nv ≤ filas st.m := by rw [← hreq]; exact g8
      rw [hfilst] at this
      omega
    · intro i hi
      exact h0 i (by
        have : nv ≤ filas st.m := by rw [← hreq]; exact g8
        omega) (by omega)
  obtain ⟨x', hasig2, hxlen, hout, hin⟩ := asignar_valores_spec st.m 0
    (columnas st.m - 1) id st.pivots (List.replicate nv (pyLitFloat 0)) hfila_piv
  rw [hasig] at hasig2
  injection hasig2 with hasig2
  subst hasig2
  have hxlen2 : x.length = nv := by rw [hxlen, List.length_replicate]
  have hx_get : ∀ q, q < nv → (x.getD q pyZero).val = (obtener st.m q nv).val := by
    intro q hq
    rw [hin q (hmem_all q hq) (by rw [List.length_replicate]; exact hq), hcol_last]
    rfl
  -- the assignment vector extended by -1 annihilates the reduced matrix
  have hsolR : SolSet st.m ((x.map PyNum.val) ++ [-1]) := by
    intro i hi
    have hrowlen : (obtener_fila st.m i).length = nv + 1 := by
      rw [longitud_obtener_fila g6 hi]
    have hylen : ((x.map PyNum.val) ++ [-1]).length = nv + 1 := by
      rw [List.length_append, List.length_map, hxlen2]
      rfl
    rw [dotv_eq_sum, hrowlen, hylen, Nat.min_self]
    have hlastterm : ((x.map PyNum.val) ++ [-1]).getD nv 0 = -1 := by
      have : nv = (x.map PyNum.val).length := by rw [List.length_map, hxlen2]
      rw [this]
      exact getD_append_len _ _ _
    have hterm : ∀ j, j < nv → ((x.map PyNum.val) ++ [-1]).getD j 0 =
        (x.getD j pyZero).val := by
      intro j hj
      rw [getD_append_left _ _ j (by rw [List.length_map, hxlen2]; exact hj) _,
        getD_map_val x j (by rw [hxlen2]; exact hj)]
    rw [Finset.sum_range_succ]
    by_cases hi_nv : i < nv
    · have hsum : ∑ j ∈ Finset.range nv,
          ((obtener_fila st.m i).getD j pyZero).val *
            (((x.map PyNum.val) ++ [-1]).getD j 0) = (x.getD i pyZero).val := by
        rw [Finset.sum_eq_single i]
        · rw [← obtener_eq_fila, (hbasis i hi_nv).1, hterm i hi_nv, one_mul]
        · intro j hj hji
          rw [Finset.mem_range] at hj
          rw [← obtener_eq_fila, (hbasis j hj).2 i hi (Ne.symm hji), zero_mul]
        · intro habs
          exact absurd (by rw [Finset.mem_range]; exact hi_nv) habs
      rw [hsum, ← obtener_eq_fila, hlastterm, hx_get i hi_nv]
      ring
    · have hzeros : ∀ j, j < nv → (obtener st.m i j).val = 0 := by
        intro j hj
        exact g5 i (by omega) hi j hj
      have hsum : ∑ j ∈ Finset.range nv,
          ((obtener_fila st.m i).getD j pyZero).val *
            (((x.map PyNum.val) ++ [-1]).getD j 0) = 0 := by
        refine Finset.sum_eq_zero ?_
        intro j hj
        rw [Finset.mem_range] at hj
        rw [← obtener_eq_fila, hzeros j hj, zero_mul]
      have hrhs : (obtener st.m i nv).val = 0 := by
        have := rhs_cero_de_no_inconsistente hinc hi hzeros
        rwa [hcol_last] at this
      rw [hsum, ← obtener_eq_fila, hlastterm, hrhs]
      ring
  -- transport back to the original augmented matrix
  have hsol_aug := a_forma_aux_solset 0 (le_refl 0) reg (List.range' 0 nv)
    ⟨clonar (como_matriz_aumentada (sistema_lineal_mk A b)), 0, [], [], 0⟩ st
    hWaug (Nat.zero_le _) (fun c hc => by
      rw [List.mem_range'_1] at hc
      omega) haux ((x.map PyNum.val) ++ [-1]) hsolR
  intro i hi
  have := hsol_aug i (by
    show i < filas (como_matriz_aumentada (sistema_lineal_mk A b))
    rw [hfilaug]
    exact hi)
  rw [show obtener_fila (⟨clonar (como_matriz_aumentada (sistema_lineal_mk A b)),
      0, [], [], 0⟩ : RedEstado).m i =
      obtener_fila (como_matriz_aumentada (sistema_lineal_mk A b)) i from rfl,
    fila_aumentada b hi hb,
    dotv_append_singleton _ _ _ _ (by
      rw [longitud_obtener_fila hW hi, List.length_map, hxlen2])] at this
  have hfv : (pyFloat (b.getD i pyZero)).val = (b.getD i pyZero).val := rfl
  rw [hfv] at this
  linarith

theorem construir_direcciones_mem (R : Matriz) (eps : ℚ) (piv : List ℕ) (nv : ℕ) :
    ∀ (fs : List ℕ) (vs : List (List PyNum)),
    construir_direcciones R eps piv nv fs = some vs →
    ∀ v ∈ vs, ∃ f ∈ fs, asignar_direccion R eps f piv
      ((List.replicate nv (pyLitFloat 0)).set f (pyLitFloat 1)) = some v := by
  intro fs
  induction fs with
  | nil =>
    intro vs h v hv
    rw [construir_direcciones] at h
    injection h with h
    subst h
    exact absurd hv (List.not_mem_nil v)
  | cons f rest ih =>
    intro vs h v hv
    rw [construir_direcciones] at h
    rcases h1 : asignar_direccion R eps f piv
        ((List.replicate nv (pyLitFloat 0)).set f (pyLitFloat 1)) with _ | v0
    · rw [h1] at h
      exact absurd h (by simp)
    · rw [h1] at h
      rcases h2 : construir_direcciones R eps piv nv rest with _ | vs0
      · rw [h2] at h
        exact absurd h (by simp)
      · rw [h2] at h
        injection h with h
        subst h
        rcases List.mem_cons.mp hv with rfl | hvr
        · exact ⟨f, List.mem_cons_self f rest, h1⟩
        · obtain ⟨g, hg1, hg2⟩ := ih vs0 h2 v hvr
          exact ⟨g, List.mem_cons_of_mem f hg1, hg2⟩

/-- The key cancellation: a direction vector built from a reduced matrix
(1 at its free column `f0`, minus the pivot-row coefficient of `f0` at each
pivot column, 0 elsewhere) is annihilated by every pivot row. -/
theorem suma_direccion_cero (R : Matriz) (piv : List ℕ) (nv f0 : ℕ)
    (v : List PyNum) (hnd : piv.Nodup) (hplt : ∀ p ∈ piv, p < nv)
    (hPE : ∀ k, (hk : k < piv.length) →
      (obtener R k (piv.get ⟨k, hk⟩)).val = 1 ∧
      ∀ i2, i2 < filas R → i2 ≠ k → (obtener R i2 (piv.get ⟨k, hk⟩)).val = 0)
    (hf0 : f0 < nv) (hf0p : f0 ∉ piv)
    (hvf : (v.getD f0 pyZero).val = 1)
    (hvp : ∀ p ∈ piv, (v.getD p pyZero).val = -(obtener R (piv.indexOf p) f0).val)
    (hvz : ∀ q, q < nv → q ∉ piv → q ≠ f0 → (v.getD q pyZero).val = 0)
    (i : ℕ) (hi : i < piv.length) (hifil : i < filas R) :
    ∑ j ∈ Finset.range nv, (obtener R i j).val * (v.getD j pyZero).val = 0 := by
  have hq_mem : piv.get ⟨i, hi⟩ ∈ piv := List.get_mem piv i hi
  have hq_lt : piv.get ⟨i, hi⟩ < nv := hplt _ hq_mem
  have hq_ne : piv.get ⟨i, hi⟩ ≠ f0 := fun hh => hf0p (hh ▸ hq_mem)
  have hsub : ({piv.get ⟨i, hi⟩, f0} : Finset ℕ) ⊆ Finset.range nv := by
    intro a ha
    rw [Finset.mem_insert, Finset.mem_singleton] at ha
    rcases ha with rfl | rfl
    · rw [Finset.mem_range]; exact hq_lt
    · rw [Finset.mem_range]; exact hf0
  have hzero : ∀ j ∈ Finset.range nv, j ∉ ({piv.get ⟨i, hi⟩, f0} : Finset ℕ) →
      (obtener R i j).val * (v.getD j pyZero).val = 0 := by
    intro j hj hjs
    rw [Finset.mem_range] at hj
    rw [Finset.mem_insert, Finset.mem_singleton] at hjs
    push_neg at hjs
    obtain ⟨hjq, hjf⟩ := hjs
    by_cases hjp : j ∈ piv
    · have hidx : piv.indexOf j < piv.length := List.indexOf_lt_length.mpr hjp
      have hgetidx : piv.get ⟨piv.indexOf j, hidx⟩ = j := List.indexOf_get hidx
      have hne_i : i ≠ piv.indexOf j := by
        intro hh
        subst hh
        exact hjq hgetidx.symm
      have := (hPE (piv.indexOf j) hidx).2 i hifil hne_i
      rw [hgetidx] at this
      rw [this, zero_mul]
    · rw [hvz j hj hjp hjf, mul_zero]
  rw [← Finset.sum_subset hsub hzero, Finset.sum_pair hq_ne]
  have hidx_self : piv.indexOf (piv.get ⟨i, hi⟩) = i := by
    have hidx : piv.indexOf (piv.get ⟨i, hi⟩) < piv.length :=
      List.indexOf_lt_length.mpr hq_mem
    have hgetidx : piv.get ⟨piv.indexOf (piv.get ⟨i, hi⟩), hidx⟩ = piv.get ⟨i, hi⟩ :=
      List.indexOf_get hidx
    have h2 := (List.Nodup.get_inj_iff hnd).mp hgetidx
    exact congrArg Fin.val h2
  rw [(hPE i hi).1, one_mul, hvp _ hq_mem, hidx_self, hvf, mul_one]
  ring

/-- Direction vectors of an INFINITAS classification lie in the null space of
the original coefficient matrix, under exact arithmetic (eps = 0). -/
theorem resolver_direccion_nucleo (A : Matriz) (b : List PyNum) (nv : ℕ)
    (reg : Bool) (sol : Solucion) (param : Parametrica) (v : List PyNum)
    (hW : MatrizWF A nv) (hb : b.length = filas A)
    (h : resolver (sistema_lineal_mk A b) 0 reg = some sol)
    (hpar : sol.parametrica = some param) (hv : v ∈ param.direcciones) :
    ∀ i, i < filas A → dotv (obtener_fila A i) (v.map PyNum.val) = 0 := by
  have hnv : num_variables (sistema_lineal_mk A b) = nv := columnas_of_wf hW
  obtain ⟨st, haux, -, -, hcases⟩ := resolver_cases h
  rw [hnv] at haux hcases
  rcases hcases with ⟨-, -, -, hpar1⟩ | ⟨-, -, -, hpar2, -⟩ |
    ⟨-, -, -, -, part, dirs, hpart, hdirs, hpar3⟩
  · rw [hpar] at hpar1
    exact absurd hpar1 (by simp)
  · rw [hpar] at hpar2
    exact absurd hpar2 (by simp)
  rw [hpar] at hpar3
  injection hpar3 with hpar3
  subst hpar3
  dsimp only at hv
  -- structure of the reduced matrix
  have hWaug : MatrizWF (como_matriz_aumentada (sistema_lineal_mk A b)) (nv + 1) :=
    wf_aumentada hW hb
  have hfilaug : filas (como_matriz_aumentada (sistema_lineal_mk A b)) = filas A :=
    filas_aumentada A b
  rw [List.range_eq_range'] at haux
  have hestr := a_forma_aux_estructura reg nv 0
    ⟨clonar (como_matriz_aumentada (sistema_lineal_mk A b)), 0, [], [], 0⟩ st
    hWaug (Nat.zero_le _) (by omega) rfl (List.Pairwise.nil)
    (fun p hp => absurd hp (List.not_mem_nil p))
    (fun k hk => absurd hk (by simp))
    (fun i h1 h2 j hj => absurd hj (by omega)) haux
  obtain ⟨g1, g2, g3, g4, g5, g6, g7, g8⟩ := hestr
  simp only [Nat.zero_add] at g3 g5
  have hnd : st.pivots.Nodup := g2.imp (fun hlt => Nat.ne_of_lt hlt)
  have hfilst : filas st.m = filas A := by rw [g7]; exact hfilaug
  -- the free variable of this direction vector
  obtain ⟨f, hffv, hasig⟩ := construir_direcciones_mem st.m 0 st.pivots nv
    ((List.range nv).filter (fun j => decide (j ∉ st.pivots))) dirs hdirs v hv
  rw [List.mem_filter, List.mem_range] at hffv
  obtain ⟨hfnv, hfdec⟩ := hffv
  have hfpiv : f ∉ st.pivots := of_decide_eq_true hfdec
  -- pivot-row location for every pivot column
  have hfila_piv : ∀ p ∈ st.pivots, fila_pivote st.m p 0 = some (st.pivots.indexOf p) := by
    intro p hp
    have hidx : st.pivots.indexOf p < st.pivots.length := List.indexOf_lt_length.mpr hp
    have hgetidx : st.pivots.get ⟨st.pivots.indexOf p, hidx⟩ = p :=
      List.indexOf_get hidx
    have hidxfil : st.pivots.indexOf p < filas st.m := by
      have : st.pivots.length = st.r := g1
      omega
    obtain ⟨h1, h0⟩ := g4 (st.pivots.indexOf p) hidx
    rw [hgetidx] at h1 h0
    exact fila_pivote_basis (le_refl 0) (by norm_num) hidxfil h1
      (fun i2 hi2 => h0 i2 (by omega) (by omega))
  -- characterization of the direction vector
  obtain ⟨v', hv', hvlen, hvout, hvin⟩ := asignar_direccion_spec st.m f
    (fun p => st.pivots.indexOf p) st.pivots
    ((List.replicate nv (pyLitFloat 0)).set f (pyLitFloat 1)) hfila_piv hnd
    (by
      intro p hp
      have hpf : p ≠ f := fun hh => hfpiv (hh ▸ hp)
      rw [getD_set_ne _ f p (Ne.symm hpf) _ _,
        getD_replicate nv p (pyLitFloat 0) pyZero (g3 p hp)]
      rfl)
  rw [hasig] at hv'
  injection hv' with hv'
  subst hv'
  have hvlen2 : v.length = nv := by
    rw [hvlen, List.length_set, List.length_replicate]
  have hv_f : (v.getD f pyZero).val = 1 := by
    rw [hvout f hfpiv, getD_set_self _ f (by rw [List.length_replicate]; exact hfnv) _ _]
    rfl
  have hv_p : ∀ p ∈ st.pivots,
      (v.getD p pyZero).val = -(obtener st.m (st.pivots.indexOf p) f).val := by
    intro p hp
    exact hvin p hp (by rw [List.length_set, List.length_replicate]; exact g3 p hp)
  have hv_z : ∀ q, q < nv → q ∉ st.pivots → q ≠ f → (v.getD q pyZero).val = 0 := by
    intro q hq hqp hqf
    rw [hvout q hqp, getD_set_ne _ f q (Ne.symm hqf) _ _,
      getD_replicate nv q (pyLitFloat 0) pyZero hq]
    rfl
  -- the direction vector extended by 0 annihilates the reduced matrix
  have hcols : columnas st.m = nv + 1 := columnas_of_wf g6
  have hsolR : SolSet st.m ((v.map PyNum.val) ++ [0]) := by
    intro i hi
    have hrowlen : (obtener_fila st.m i).length = nv + 1 :=
      longitud_obtener_fila g6 hi
    have hylen : ((v.map PyNum.val) ++ [0]).length = nv + 1 := by
      rw [List.length_append, List.length_map, hvlen2]
      rfl
    rw [dotv_eq_sum, hrowlen, hylen, Nat.min_self, Finset.sum_range_succ]
    have hlastterm : ((v.map PyNum.val) ++ [0]).getD nv 0 = 0 := by
      have : nv = (v.map PyNum.val).length := by rw [List.length_map, hvlen2]
      rw [this]
      exact getD_append_len _ _ _
    have hsum_eq : ∑ j ∈ Finset.range nv,
        ((obtener_fila st.m i).getD j pyZero).val *
          (((v.map PyNum.val) ++ [0]).getD j 0) =
        ∑ j ∈ Finset.range nv, (obtener st.m i j).val * (v.getD j pyZero).val := by
      refine Finset.sum_congr rfl ?_
      intro j hj
      rw [Finset.mem_range] at hj
      rw [← obtener_eq_fila,
        getD_append_left _ _ j (by rw [List.length_map, hvlen2]; exact hj) _,
        getD_map_val v j (by rw [hvlen2]; exact hj)]
    rw [hsum_eq, hlastterm, ← obtener_eq_fila, mul_zero, add_zero]
    by_cases hirank : i < st.pivots.length
    · exact suma_direccion_cero st.m st.pivots nv f v hnd g3 g4 hfnv hfpiv
        hv_f hv_p hv_z i hirank hi
    · refine Finset.sum_eq_zero ?_
      intro j hj
      rw [Finset.mem_range] at hj
      rw [g5 i (by omega) hi j hj, zero_mul]
  -- transport back to the original matrix
  have hsol_aug := a_forma_aux_solset 0 (le_refl 0) reg (List.range' 0 nv)
    ⟨clonar (como_matriz_aumentada (sistema_lineal_mk A b)), 0, [], [], 0⟩ st
    hWaug (Nat.zero_le _) (fun c hc => by
      rw [List.mem_range'_1] at hc
      omega) haux ((v.map PyNum.val) ++ [0]) hsolR
  intro i hi
  have := hsol_aug i (by
    show i < filas (como_matriz_aumentada (sistema_lineal_mk A b))
    rw [hfilaug]
    exact hi)
  rw [show obtener_fila (⟨clonar (como_matriz_aumentada (sistema_lineal_mk A b)),
      0, [], [], 0⟩ : RedEstado).m i =
      obtener_fila (como_matriz_aumentada (sistema_lineal_mk A b)) i from rfl,
    fila_aumentada b hi hb,
    dotv_append_singleton _ _ _ _ (by
      rw [longitud_obtener_fila hW hi, List.length_map, hvlen2])] at this
  rw [mul_zero, add_zero] at this
  exact this

/-- The glossary definition of RREF with pivot columns `L` over `nv` variable
columns: pivot entries are 1 and alone in their columns, pivots move strictly
left-to-right as the row index increases (so entries left of a pivot vanish),
and the rows below the last pivot are zero on all variable columns. -/
def EsRREF (m : Matriz) (nv : ℕ) (L : List ℕ) : Prop :=
  List.Pairwise (· < ·) L ∧ (∀ p ∈ L, p < nv) ∧ L.length ≤ filas m ∧
  (∀ k, (hk : k < L.length) → (obtener m k (L.get ⟨k, hk⟩)).val = 1 ∧
    ∀ i2, i2 < filas m → i2 ≠ k → (obtener m i2 (L.get ⟨k, hk⟩)).val = 0) ∧
  (∀ k, (hk : k < L.length) → ∀ j, j < L.get ⟨k, hk⟩ → (obtener m k j).val = 0) ∧
  (∀ i, L.length ≤ i → i < filas m → ∀ j, j < nv → (obtener m i j).val = 0)

theorem find_pivot_row_basis {m : Matriz} {q k : ℕ} (hk : k < filas m)
    (h1 : (obtener m k q).val = 1) (h0 : ∀ i, i < k → (obtener m i q).val = 0) :
    find_pivot_row m q = some k := by
  unfold find_pivot_row
  have hfind : (List.range (filas m)).find?
      (fun i => decide ((obtener m i q).val = 1)) = some k := by
    refine find_range_eq_some hk ?_ ?_
    · rw [decide_eq_true_iff]
      exact h1
    · intro i hi
      rw [decide_eq_false_iff_not, h0 i hi]
      norm_num
  rw [hfind]

theorem asignar_direccion_ns_spec (R : Matriz) (f0 : ℕ) (f : ℕ → ℕ) :
    ∀ (piv : List ℕ) (v : List PyNum),
    (∀ p ∈ piv, find_pivot_row R p = some (f p)) →
    piv.Nodup →
    (∀ p ∈ piv, (v.getD p pyZero).val = 0) →
    ∃ v', asignar_direccion_ns R f0 piv v = some v' ∧
      v'.length = v.length ∧
      (∀ q, q ∉ piv → v'.getD q pyZero = v.getD q pyZero) ∧
      (∀ p ∈ piv, p < v.length →
        (v'.getD p pyZero).val = -(obtener R (f p) f0).val) := by
  intro piv
  induction piv with
  | nil =>
    intro v _ _ _
    exact ⟨v, rfl, rfl, fun q _ => rfl, fun p hp => absurd hp (List.not_mem_nil p)⟩
  | cons p0 rest ih =>
    intro v hf hnd hv0
    have hp0 := hf p0 (List.mem_cons_self p0 rest)
    have hp0nr : p0 ∉ rest := (List.nodup_cons.mp hnd).1
    have hndr : rest.Nodup := (List.nodup_cons.mp hnd).2
    by_cases htrig : (obtener R (f p0) f0).val ≠ 0
    · have hstep : asignar_direccion_ns R f0 (p0 :: rest) v =
          asignar_direccion_ns R f0 rest
            (v.set p0 (pyNeg (obtener R (f p0) f0))) := by
        rw [asignar_direccion_ns, hp0]
        dsimp only
        rw [if_pos htrig]
      obtain ⟨v', hv', hlen, hout, hin⟩ := ih (v.set p0 (pyNeg (obtener R (f p0) f0)))
        (fun p hp => hf p (List.mem_cons_of_mem p0 hp)) hndr
        (by
          intro p hp
          have hpne : p ≠ p0 := fun hh => hp0nr (hh ▸ hp)
          rw [getD_set_ne v p0 p (Ne.symm hpne) _ _]
          exact hv0 p (List.mem_cons_of_mem p0 hp))
      refine ⟨v', by rw [hstep]; exact hv', by rw [hlen, List.length_set], ?_, ?_⟩
      · intro q hq
        have hq0 : q ∉ rest := fun hh => hq (List.mem_cons_of_mem p0 hh)
        have hqp : q ≠ p0 := fun hh => hq (hh ▸ List.mem_cons_self p0 rest)
        rw [hout q hq0, getD_set_ne v p0 q (Ne.symm hqp) _ _]
      · intro p hp hplen
        rcases List.mem_cons.mp hp with rfl | hpr
        · rw [hout p hp0nr, getD_set_self v p hplen _ _]
          rfl
        · rw [hin p hpr (by rw [List.length_set]; exact hplen)]
    · rw [not_not] at htrig
      have hstep : asignar_direccion_ns R f0 (p0 :: rest) v =
          asignar_direccion_ns R f0 rest v := by
        rw [asignar_direccion_ns, hp0]
        dsimp only
        rw [if_neg (by rw [htrig]; exact not_not.mpr rfl)]
      obtain ⟨v', hv', hlen, hout, hin⟩ := ih v
        (fun p hp => hf p (List.mem_cons_of_mem p0 hp)) hndr
        (fun p hp => hv0 p (List.mem_cons_of_mem p0 hp))
      refine ⟨v', by rw [hstep]; exact hv', hlen, ?_, ?_⟩
      · intro q hq
        exact hout q (fun hh => hq (List.mem_cons_of_mem p0 hh))
      · intro p hp hplen
        rcases List.mem_cons.mp hp with rfl | hpr
        · rw [hout p hp0nr, htrig, neg_zero]
          exact hv0 p (List.mem_cons_self p rest)
        · rw [hin p hpr hplen]

theorem construir_nucleo_mem (R : Matriz) (piv : List ℕ) (nv : ℕ) :
    ∀ (fs : List ℕ) (vs : List (List PyNum)),
    construir_nucleo R piv nv fs = some vs →
    ∀ v ∈ vs, ∃ f ∈ fs, asignar_direccion_ns R f piv
      ((List.replicate nv (pyFraction pyZero)).set f (pyFraction ⟨false, 1⟩)) =
        some v := by
  intro fs
  induction fs with
  | nil =>
    intro vs h v hv
    rw [construir_nucleo] at h
    injection h with h
    subst h
    exact absurd hv (List.not_mem_nil v)
  | cons f rest ih =>
    intro vs h v hv
    rw [construir_nucleo] at h
    rcases h1 : asignar_direccion_ns R f piv
        ((List.replicate nv (pyFraction pyZero)).set f (pyFraction ⟨false, 1⟩))
        with _ | v0
    · rw [h1] at h
      exact absurd h (by simp)
    · rw [h1] at h
      rcases h2 : construir_nucleo R piv nv rest with _ | vs0
      · rw [h2] at h
        exact absurd h (by simp)
      · rw [h2] at h
        injection h with h
        subst h
        rcases List.mem_cons.mp hv with rfl | hvr
        · exact ⟨f, List.mem_cons_self f rest, h1⟩
        · obtain ⟨g, hg1, hg2⟩ := ih vs0 h2 v hvr
          exact ⟨g, List.mem_cons_of_mem f hg1, hg2⟩

/-- Every vector produced by `null_space_from_rref` on a matrix in RREF lies
in the null space of (the variable columns of) that matrix. -/
theorem null_space_direccion_nucleo (rref : Matriz) (ncols nv : ℕ) (L : List ℕ)
    (vs : List (List PyNum)) (v : List PyNum) (hW : MatrizWF rref ncols)
    (hnc : nv ≤ ncols) (hR : EsRREF rref nv L)
    (h : null_space_from_rref rref L nv = some vs) (hv : v ∈ vs) :
    ∀ i, i < filas rref → dotv (obtener_fila rref i) (v.map PyNum.val) = 0 := by
  obtain ⟨hsort, hplt, hlfil, hPE, hizq, habajo⟩ := hR
  have hnd : L.Nodup := hsort.imp (fun hlt => Nat.ne_of_lt hlt)
  unfold null_space_from_rref at h
  dsimp only at h
  by_cases hfv : (List.range nv).filter (fun j => decide (j ∉ L)) = []
  · rw [if_pos hfv] at h
    injection h with h
    subst h
    exact absurd hv (List.not_mem_nil v)
  · rw [if_neg hfv] at h
    obtain ⟨f, hffv, hasig⟩ := construir_nucleo_mem rref L nv _ vs h v hv
    rw [List.mem_filter, List.mem_range] at hffv
    obtain ⟨hfnv, hfdec⟩ := hffv
    have hfpiv : f ∉ L := of_decide_eq_true hfdec
    have hfila_piv : ∀ p ∈ L, find_pivot_row rref p = some (L.indexOf p) := by
      intro p hp
      have hidx : L.indexOf p < L.length := List.indexOf_lt_length.mpr hp
      have hgetidx : L.get ⟨L.indexOf p, hidx⟩ = p := List.indexOf_get hidx
      obtain ⟨h1, h0⟩ := hPE (L.indexOf p) hidx
      rw [hgetidx] at h1 h0
      exact find_pivot_row_basis (by omega) h1
        (fun i2 hi2 => h0 i2 (by omega) (by omega))
    obtain ⟨v', hv', hvlen, hvout, hvin⟩ := asignar_direccion_ns_spec rref f
      (fun p => L.indexOf p) L
      ((List.replicate nv (pyFraction pyZero)).set f (pyFraction ⟨false, 1⟩))
      hfila_piv hnd
      (by
        intro p hp
        have hpf : p ≠ f := fun hh => hfpiv (hh ▸ hp)
        rw [getD_set_ne _ f p (Ne.symm hpf) _ _,
          getD_replicate nv p (pyFraction pyZero) pyZero (hplt p hp)]
        rfl)
    rw [hasig] at hv'
    injection hv' with hv'
    subst hv'
    have hvlen2 : v.length = nv := by
      rw [hvlen, List.length_set, List.length_replicate]
    have hv_f : (v.getD f pyZero).val = 1 := by
      rw [hvout f hfpiv,
        getD_set_self _ f (by rw [List.length_replicate]; exact hfnv) _ _]
      rfl
    have hv_p : ∀ p ∈ L,
        (v.getD p pyZero).val = -(obtener rref (L.indexOf p) f).val := by
      intro p hp
      exact hvin p hp (by rw [List.length_set, List.length_replicate]; exact hplt p hp)
    have hv_z : ∀ q, q < nv → q ∉ L → q ≠ f → (v.getD q pyZero).val = 0 := by
      intro q hq hqp hqf
      rw [hvout q hqp, getD_set_ne _ f q (Ne.symm hqf) _ _,
        getD_replicate nv q (pyFraction pyZero) pyZero hq]
      rfl
    intro i hi
    have hrowlen : (obtener_fila rref i).length = ncols :=
      longitud_obtener_fila hW hi
    rw [dotv_eq_sum, hrowlen, List.length_map, hvlen2, Nat.min_eq_right hnc]
    have hsum_eq : ∑ j ∈ Finset.range nv,
        ((obtener_fila rref i).getD j pyZero).val * ((v.map PyNum.val).getD j 0) =
        ∑ j ∈ Finset.range nv, (obtener rref i j).val * (v.getD j pyZero).val := by
      refine Finset.sum_congr rfl ?_
      intro j hj
      rw [Finset.mem_range] at hj
      rw [← obtener_eq_fila, getD_map_val v j (by rw [hvlen2]; exact hj)]
    rw [hsum_eq]
    by_cases hirank : i < L.length
    · exact suma_direccion_cero rref L nv f v hnd hplt hPE hfnv hfpiv
        hv_f hv_p hv_z i hirank hi
    · refine Finset.sum_eq_zero ?_
      intro j hj
      rw [Finset.mem_range] at hj
      rw [habajo i (by omega) hi j hj, zero_mul]

/-- C4 (amended): under exact arithmetic (eps = 0), every direction vector of
an INFINITAS classification satisfies `A·v = 0`, and every vector returned by
`null_space_from_rref` on an already-reduced homogeneous system lies in the
null space of the reduced matrix.  (With the default eps = 1e-12 the claimed
identity fails; see the counterexample theorem.) -/
theorem C4_direcciones_en_nucleo :
    (∀ (A : Matriz) (b : List PyNum) (nv : ℕ) (reg : Bool) (sol : Solucion)
      (param : Parametrica) (v : List PyNum), MatrizWF A nv →
      b.length = filas A →
      resolver (sistema_lineal_mk A b) 0 reg = some sol →
      sol.parametrica = some param → v ∈ param.direcciones →
      ∀ i, i < filas A → dotv (obtener_fila A i) (v.map PyNum.val) = 0) ∧
    (∀ (rref : Matriz) (ncols nv : ℕ) (L : List ℕ) (vs : List (List PyNum))
      (v : List PyNum), MatrizWF rref ncols → nv ≤ ncols → EsRREF rref nv L →
      null_space_from_rref rref L nv = some vs → v ∈ vs →
      ∀ i, i < filas rref → dotv (obtener_fila rref i) (v.map PyNum.val) = 0) :=
  ⟨fun A b nv reg sol param v hW hb h hp hv =>
      resolver_direccion_nucleo A b nv reg sol param v hW hb h hp hv,
    fun rref ncols nv L vs v hW hnc hR h hv =>
      null_space_direccion_nucleo rref ncols nv L vs v hW hnc hR h hv⟩

/-- C1 counterexample: with the default eps = 1e-12 and exact rational input
cells, `resolver` classifies this system as UNICA with `x = [1, 1]`, yet
`A·x` differs from `b` in the first equation (by the residual 1e-13 that the
elimination threshold left behind). -/
theorem C1_contraejemplo :
    ∃ sol x, resolver (sistema_lineal_mk
        [[⟨false, 1⟩, ⟨false, 1/10000000000000⟩], [⟨false, 0⟩, ⟨false, 1⟩]]
        [⟨false, 1⟩, ⟨false, 1⟩]) eps_default false = some sol ∧
      sol.estado = Estado.UNICA ∧ sol.x = some x ∧
      ∃ i, i < filas [[(⟨false, 1⟩ : PyNum), ⟨false, 1/10000000000000⟩],
          [⟨false, 0⟩, ⟨false, 1⟩]] ∧
        dotv (obtener_fila [[(⟨false, 1⟩ : PyNum), ⟨false, 1/10000000000000⟩],
            [⟨false, 0⟩, ⟨false, 1⟩]] i)
          (x.map PyNum.val) ≠
          (([(⟨false, 1⟩ : PyNum), ⟨false, 1⟩]).getD i pyZero).val := by
  refine ⟨⟨Estado.UNICA, some [⟨true, 1⟩, ⟨true, 1⟩], some [0, 1], some [],
    none, none⟩, [⟨true, 1⟩, ⟨true, 1⟩], ?_, rfl, rfl, 0, ?_, ?_⟩
  · with_unfolding_all rfl
  · show 0 < 2
    norm_num
  · show dotv [⟨false, 1⟩, ⟨false, 1/10000000000000⟩]
      ([(⟨true, (1:ℚ)⟩ : PyNum), ⟨true, 1⟩].map PyNum.val) ≠ 1
    with_unfolding_all decide

/-- C4 counterexample: with the default eps = 1e-12 and exact rational input
cells, `resolver` classifies this homogeneous system as INFINITAS with the
direction vector `[0, -1, 1]`, yet `A·v` is `-1e-13` in the first equation,
not 0 (the elimination threshold left the coefficient 1e-13 unprocessed). -/
theorem C4_contraejemplo :
    ∃ sol param v, resolver (sistema_lineal_mk
        [[⟨false, 1⟩, ⟨false, 1/10000000000000⟩, ⟨false, 0⟩],
          [⟨false, 0⟩, ⟨false, 1⟩, ⟨false, 1⟩]]
        [⟨false, 0⟩, ⟨false, 0⟩]) eps_default false = some sol ∧
      sol.parametrica = some param ∧ v ∈ param.direcciones ∧
      ∃ i, i < filas [[(⟨false, 1⟩ : PyNum), ⟨false, 1/10000000000000⟩,
          ⟨false, 0⟩], [⟨false, 0⟩, ⟨false, 1⟩, ⟨false, 1⟩]] ∧
        dotv (obtener_fila [[(⟨false, 1⟩ : PyNum), ⟨false, 1/10000000000000⟩,
            ⟨false, 0⟩], [⟨false, 0⟩, ⟨false, 1⟩, ⟨false, 1⟩]] i)
          (v.map PyNum.val) ≠ 0 := by
  refine ⟨⟨Estado.INFINITAS, none, some [0, 1], some [2],
    some ⟨[⟨true, 0⟩, ⟨true, 0⟩, ⟨true, 0⟩],
      [[⟨true, 0⟩, ⟨true, -1⟩, ⟨true, 1⟩]], [2]⟩, none⟩,
    ⟨[⟨true, 0⟩, ⟨true, 0⟩, ⟨true, 0⟩],
      [[⟨true, 0⟩, ⟨true, -1⟩, ⟨true, 1⟩]], [2]⟩,
    [⟨true, 0⟩, ⟨true, -1⟩, ⟨true, 1⟩], ?_, rfl, ?_, 0, ?_, ?_⟩
  · with_unfolding_all rfl
  · show _ ∈ [[(⟨true, (0:ℚ)⟩ : PyNum), ⟨true, -1⟩, ⟨true, 1⟩]]
    exact List.mem_singleton.mpr rfl
  · show 0 < 2
    norm_num
  · show dotv [⟨false, 1⟩, ⟨false, 1/10000000000000⟩, ⟨false, 0⟩]
      ([(⟨true, (0:ℚ)⟩ : PyNum), ⟨true, -1⟩, ⟨true, 1⟩].map PyNum.val) ≠ 0
    with_unfolding_all decide

/-- Running the reducer over a matrix already in RREF changes no cell value,
recovers exactly the RREF pivot columns, and records neither swaps nor
eliminations (only the pivot re-normalizations by the factor 1). -/
theorem a_forma_aux_rref_noop {ncols : ℕ} (eps : ℚ) (heps0 : 0 ≤ eps)
    (heps1 : eps < 1) (registrar : Bool) (nv : ℕ) (L : List ℕ) (m0 : Matriz)
    (hnv : nv ≤ ncols) (hR : EsRREF m0 nv L) :
    ∀ (n c k : ℕ) (st : RedEstado),
    c + n = nv → st.r = k → k ≤ L.length → st.pivots = L.take k →
    (∀ j, (hj : j < L.length) → k ≤ j → c ≤ L.get ⟨j, hj⟩) →
    filas st.m = filas m0 → MatrizWF st.m ncols →
    (∀ i j2, i < filas m0 → j2 < ncols →
      (obtener st.m i j2).val = (obtener m0 i j2).val) →
    (∀ p ∈ st.hist, p.operacion ≠ Operacion.INTERCAMBIO_FILAS ∧
      p.operacion ≠ Operacion.ELIMINAR_DEBAJO ∧
      p.operacion ≠ Operacion.ELIMINAR_ENCIMA) →
    ∃ st', a_forma_aux seleccionar_pivote eps registrar (List.range' c n) st =
        some st' ∧
      st'.pivots = L ∧ filas st'.m = filas m0 ∧
      (∀ i j2, i < filas m0 → j2 < ncols →
        (obtener st'.m i j2).val = (obtener m0 i j2).val) ∧
      (∀ p ∈ st'.hist, p.operacion ≠ Operacion.INTERCAMBIO_FILAS ∧
        p.operacion ≠ Operacion.ELIMINAR_DEBAJO ∧
        p.operacion ≠ Operacion.ELIMINAR_ENCIMA) := by
  obtain ⟨hsort, hplt, hlfil, hPE, hizq, habajo⟩ := hR
  intro n
  induction n with
  | zero =>
    intro c k st hcn hrk hkL hpiv hcol hfil hW hval hhist
    have hkeq : k = L.length := by
      by_contra hne
      have hklt : k < L.length := by omega
      have := hcol k hklt (le_refl k)
      have := hplt _ (List.get_mem L k hklt)
      omega
    rw [List.range'_zero, a_forma_aux]
    refine ⟨st, rfl, ?_, hfil, hval, hhist⟩
    rw [hpiv, hkeq, List.take_length]
  | succ n ih =>
    intro c k st hcn hrk hkL hpiv hcol hfil hW hval hhist
    have hcnv : c < nv := by omega
    have hcncols : c < columnas st.m := by rw [columnas_of_wf hW]; omega
    rw [List.range'_succ, a_forma_aux]
    by_cases hbreak : filas st.m ≤ st.r
    · rw [if_pos hbreak]
      have hkeq : k = L.length := by
        have h1 : filas st.m = filas m0 := hfil
        omega
      refine ⟨st, rfl, ?_, hfil, hval, hhist⟩
      rw [hpiv, hkeq, List.take_length]
    · rw [if_neg hbreak]
      have hkfil : k < filas m0 := by
        have : st.r < filas st.m := by omega
        omega
      by_cases hpivcol : k < L.length ∧ ∃ hk : k < L.length, L.get ⟨k, hk⟩ = c
      · -- the next pivot column: select row k, normalize by 1, eliminate nothing
        obtain ⟨hklt, hk2, hgetk⟩ := hpivcol
        have hval_k : (obtener st.m k c).val = 1 := by
          rw [hval k c hkfil (by omega)]
          have := (hPE k hklt).1
          rwa [hgetk] at this
        have hval_otros : ∀ i2, i2 < filas m0 → i2 ≠ k →
            (obtener st.m i2 c).val = 0 := by
          intro i2 hi2 hne
          rw [hval i2 c hi2 (by omega)]
          have := (hPE k hklt).2 i2 hi2 hne
          rwa [hgetk] at this
        have hsel : seleccionar_pivote st.m c st.r eps = some k := by
          rcases hres : seleccionar_pivote st.m c st.r eps with _ | i
          · exfalso
            have := seleccionar_none_spec hcncols hres k (by omega)
              (by rw [hfil]; exact hkfil)
            rw [hval_k] at this
            norm_num at this
          · obtain ⟨hi1, hi2, hi3, -, -⟩ := seleccionar_some_spec hres
            by_cases hik : i = k
            · rw [hik]
            · exfalso
              exact hi3 (hval_otros i (by rw [← hfil]; exact hi2) hik)
        rw [hsel]
        dsimp only
        rw [paso_intercambio_eq_self registrar c st (by omega)]
        have hnorm : normalizar_pivote st.m st.r c eps =
            some (escalar st.m st.r (pyDiv (pyLitFloat 1) (obtener st.m st.r c))) := by
          rw [normalizar_pivote]
          rw [if_neg (by rw [hrk, hval_k]; rw [abs_one]; linarith)]
        rw [hnorm]
        dsimp only
        set m2 := escalar st.m st.r (pyDiv (pyLitFloat 1) (obtener st.m st.r c))
          with hm2
        have hfm2 : filas m2 = filas st.m := filas_escalar _ _ _
        have hWm2 : MatrizWF m2 ncols := wf_escalar hW (by omega) _
        have hfne : (pyDiv (pyLitFloat 1) (obtener st.m st.r c)).val ≠ 0 := by
          have hdv : (pyDiv (pyLitFloat 1) (obtener st.m st.r c)).val =
              1 / (obtener st.m st.r c).val := by
            simp [pyDiv, pyLitFloat]
          rw [hdv, hrk, hval_k]
          norm_num
        have hval2 : ∀ i j2, i < filas m0 → j2 < ncols →
            (obtener m2 i j2).val = (obtener m0 i j2).val := by
          intro i j2 hi hj2
          by_cases hir : i = st.r
          · subst hir
            rw [hm2, obtener_eq_fila, obtener_fila_escalar_self (by omega) hfne,
              getD_map_pynum _ _ j2 (by
                rw [longitud_obtener_fila hW (by omega)]
                exact hj2) _, ← obtener_eq_fila]
            have : (pyMul (pyDiv (pyLitFloat 1) (obtener st.m st.r c))
                (obtener st.m st.r j2)).val =
                (pyDiv (pyLitFloat 1) (obtener st.m st.r c)).val *
                  (obtener st.m st.r j2).val := rfl
            rw [this]
            have hfval : (pyDiv (pyLitFloat 1) (obtener st.m st.r c)).val = 1 := by
              have hdv : (pyDiv (pyLitFloat 1) (obtener st.m st.r c)).val =
                  1 / (obtener st.m st.r c).val := by
                simp [pyDiv, pyLitFloat]
              rw [hdv, hrk, hval_k]
              norm_num
            rw [hfval, one_mul]
            exact hval st.r j2 hi hj2
          · rw [hm2, obtener_eq_fila, obtener_fila_escalar_otro st.m hir _,
              ← obtener_eq_fila]
            exact hval i j2 hi hj2
        have hsin_debajo : ∀ i ∈ List.range' (st.r + 1) (filas m2 - (st.r + 1)),
            ¬ eps < |(obtener m2 i c).val| := by
          intro i hi
          rw [List.mem_range'_1] at hi
          have hifil : i < filas m0 := by omega
          rw [hval2 i c hifil (by omega)]
          have := (hPE k hklt).2 i hifil (by omega)
          rw [hgetk] at this
          rw [this, abs_zero]
          exact not_lt.mpr heps0
        have hsin_encima : ∀ i ∈ List.range st.r,
            ¬ eps < |(obtener m2 i c).val| := by
          intro i hi
          rw [List.mem_range] at hi
          have hifil : i < filas m0 := by omega
          rw [hval2 i c hifil (by omega)]
          have := (hPE k hklt).2 i hifil (by omega)
          rw [hgetk] at this
          rw [this, abs_zero]
          exact not_lt.mpr heps0
        rw [eliminar_filas_sin_disparo eps Operacion.ELIMINAR_DEBAJO registrar
          st.r c _ m2 _ _ hsin_debajo]
        dsimp only
        rw [eliminar_filas_sin_disparo eps Operacion.ELIMINAR_ENCIMA registrar
          st.r c _ m2 _ _ hsin_encima]
        dsimp only
        have hcolnext : ∀ j, (hj : j < L.length) → k + 1 ≤ j →
            c + 1 ≤ L.get ⟨j, hj⟩ := by
          intro j hj hkj
          have := List.pairwise_iff_get.mp hsort ⟨k, hklt⟩ ⟨j, hj⟩ (by
            show k < j
            omega)
          rw [hgetk] at this
          omega
        have hpivnext : st.pivots ++ [c] = L.take (k + 1) := by
          rw [hpiv, ← hgetk, List.get_eq_getElem, ← List.concat_eq_append]
          exact List.take_concat_get L k hk2
        have hhist2 : ∀ p ∈ (nuevo_paso registrar st.hist st.cnt
            Operacion.NORMALIZAR_PIVOTE (some st.r) (some c) [] none
            (if registrar then some (como_lista st.m) else none)
            (some (como_lista m2))).1,
            p.operacion ≠ Operacion.INTERCAMBIO_FILAS ∧
            p.operacion ≠ Operacion.ELIMINAR_DEBAJO ∧
            p.operacion ≠ Operacion.ELIMINAR_ENCIMA := by
          intro p hp
          unfold nuevo_paso at hp
          by_cases hreg : registrar = true
          · rw [if_pos hreg] at hp
            dsimp only at hp
            rcases List.mem_append.mp hp with hp1 | hp2
            · exact hhist p hp1
            · rw [List.mem_singleton] at hp2
              subst hp2
              refine ⟨by simp, by simp, by simp⟩
          · rw [if_neg hreg] at hp
            exact hhist p hp
        have hrec := ih (c + 1) (k + 1)
          ⟨m2, st.r + 1, st.pivots ++ [c],
            (nuevo_paso registrar st.hist st.cnt Operacion.NORMALIZAR_PIVOTE
              (some st.r) (some c) [] none
              (if registrar then some (como_lista st.m) else none)
              (some (como_lista m2))).1,
            (nuevo_paso registrar st.hist st.cnt Operacion.NORMALIZAR_PIVOTE
              (some st.r) (some c) [] none
              (if registrar then some (como_lista st.m) else none)
              (some (como_lista m2))).2⟩
          (by omega) (by dsimp only; omega) (by omega)
          (by dsimp only; exact hpivnext) hcolnext
          (by dsimp only; rw [hfm2]; exact hfil) hWm2 hval2 hhist2
        obtain ⟨st', hst', hp1, hp2, hp3, hp4⟩ := hrec
        exact ⟨st', hst', hp1, hp2, hp3, hp4⟩
      · -- not a pivot column: nothing to select, continue
        have hceros : ∀ i2, st.r ≤ i2 → i2 < filas st.m →
            (obtener st.m i2 c).val = 0 := by
          intro i2 hi2 hi2f
          have hi2m0 : i2 < filas m0 := by omega
          rw [hval i2 c hi2m0 (by omega)]
          by_cases hi2L : i2 < L.length
          · have hgi2 : c < L.get ⟨i2, hi2L⟩ := by
              have hge : c ≤ L.get ⟨i2, hi2L⟩ := hcol i2 hi2L (by omega)
              rcases Nat.lt_or_ge c (L.get ⟨i2, hi2L⟩) with h1 | h2
              · exact h1
              · exfalso
                have hceq : L.get ⟨i2, hi2L⟩ = c := by omega
                by_cases hi2k : i2 = k
                · subst hi2k
                  exact hpivcol ⟨hi2L, hi2L, hceq⟩
                · have hklt2 : k < L.length := by omega
                  have : L.get ⟨k, hklt2⟩ < L.get ⟨i2, hi2L⟩ := by
                    refine List.pairwise_iff_get.mp hsort ⟨k, hklt2⟩ ⟨i2, hi2L⟩ ?_
                    show k < i2
                    omega
                  have hgek : c ≤ L.get ⟨k, hklt2⟩ := hcol k hklt2 (le_refl k)
                  omega
            exact hizq i2 hi2L c hgi2
          · exact habajo i2 (by omega) hi2m0 c (by omega)
        have hsel : seleccionar_pivote st.m c st.r eps = none :=
          seleccionar_all_zero_none hceros
        rw [hsel]
        exact ih (c + 1) k st (by omega) hrk hkL hpiv
          (by
            intro j hj hkj
            have hge : c ≤ L.get ⟨j, hj⟩ := hcol j hj hkj
            rcases Nat.lt_or_ge c (L.get ⟨j, hj⟩) with h1 | h2
            · omega
            · exfalso
              have hceq : L.get ⟨j, hj⟩ = c := by omega
              by_cases hjk : j = k
              · subst hjk
                exact hpivcol ⟨hj, hj, hceq⟩
              · have hklt2 : k < L.length := by omega
                have : L.get ⟨k, hklt2⟩ < L.get ⟨j, hj⟩ := by
                  refine List.pairwise_iff_get.mp hsort ⟨k, hklt2⟩ ⟨j, hj⟩ ?_
                  show k < j
                  omega
                have hgek : c ≤ L.get ⟨k, hklt2⟩ := hcol k hklt2 (le_refl k)
                omega)
          hfil hW hval hhist

/-- **C6.** For every matrix already in reduced row-echelon form (with pivot
columns `L`), running the reducer `a_forma_escalonada_reducida` on it again
succeeds, returns a matrix whose every entry is equal in value (Python `==`)
to the corresponding entry of the input, reports exactly the pivot columns
`L`, and records a history containing no row-swap
(`INTERCAMBIO_FILAS`) and no elimination (`ELIMINAR_DEBAJO` /
`ELIMINAR_ENCIMA`) steps. -/
theorem C6_rref_idempotente {ncols : ℕ} (eps : ℚ) (heps0 : 0 ≤ eps)
    (heps1 : eps < 1) (registrar : Bool) (nv : ℕ) (L : List ℕ) (m0 : Matriz)
    (hW : MatrizWF m0 ncols) (hnv : nv ≤ ncols) (hR : EsRREF m0 nv L) :
    ∃ res hist, a_forma_escalonada_reducida m0 nv seleccionar_pivote eps
        registrar = some (res, hist) ∧
      filas res.matriz_rref = filas m0 ∧
      (∀ i j, i < filas m0 → j < ncols →
        (obtener res.matriz_rref i j).val = (obtener m0 i j).val) ∧
      res.columnas_pivote = L ∧
      (∀ p ∈ hist, p.operacion ≠ Operacion.INTERCAMBIO_FILAS ∧
        p.operacion ≠ Operacion.ELIMINAR_DEBAJO ∧
        p.operacion ≠ Operacion.ELIMINAR_ENCIMA) := by
  obtain ⟨st', hst', hpiv, hfil, hval, hhist⟩ :=
    a_forma_aux_rref_noop eps heps0 heps1 registrar nv L m0 hnv hR nv 0 0
      ⟨clonar m0, 0, [], [], 0⟩ (by omega) rfl (Nat.zero_le _) rfl
      (fun j hj _ => Nat.zero_le _) rfl hW (fun i j2 _ _ => rfl)
      (fun p hp => absurd hp (List.not_mem_nil p))
  refine ⟨⟨st'.m, st'.pivots, st'.pivots.length⟩, st'.hist, ?_, hfil, hval,
    hpiv, hhist⟩
  unfold a_forma_escalonada_reducida
  dsimp only
  rw [List.range_eq_range', hst']

/-- Witness for C6 at a concrete RREF matrix `[[1,0,4],[0,1,5]]` with pivot
columns `[0, 1]`, `eps = eps_default`, history recording on. -/
theorem C6_rref_idempotente_witness :
    ∃ res hist, a_forma_escalonada_reducida
        [[⟨false, 1⟩, ⟨false, 0⟩, ⟨false, 4⟩],
         [⟨false, 0⟩, ⟨false, 1⟩, ⟨false, 5⟩]] 2 seleccionar_pivote
        eps_default true = some (res, hist) ∧
      filas res.matriz_rref =
        filas [[⟨false, 1⟩, ⟨false, 0⟩, ⟨false, 4⟩],
               [⟨false, 0⟩, ⟨false, 1⟩, ⟨false, 5⟩]] ∧
      (∀ i j, i < filas [[⟨false, 1⟩, ⟨false, 0⟩, ⟨false, 4⟩],
               [(⟨false, 0⟩ : PyNum), ⟨false, 1⟩, ⟨false, 5⟩]] → j < 3 →
        (obtener res.matriz_rref i j).val =
        (obtener [[⟨false, 1⟩, ⟨false, 0⟩, ⟨false, 4⟩],
                  [⟨false, 0⟩, ⟨false, 1⟩, ⟨false, 5⟩]] i j).val) ∧
      res.columnas_pivote = [0, 1] ∧
      (∀ p ∈ hist, p.operacion ≠ Operacion.INTERCAMBIO_FILAS ∧
        p.operacion ≠ Operacion.ELIMINAR_DEBAJO ∧
        p.operacion ≠ Operacion.ELIMINAR_ENCIMA) :=
  C6_rref_idempotente eps_default (by norm_num [eps_default])
    (by norm_num [eps_default]) true 2 [0, 1]
    [[⟨false, 1⟩, ⟨false, 0⟩, ⟨false, 4⟩],
     [⟨false, 0⟩, ⟨false, 1⟩, ⟨false, 5⟩]]
    (by refine ⟨by simp, ?_⟩
        intro fila hf
        rcases List.mem_cons.mp hf with h | h
        · subst h; rfl
        · have h2 := List.mem_singleton.mp h
          subst h2; rfl)
    (by norm_num)
    (by unfold EsRREF
        refine ⟨by decide, by decide, by decide, ?_, ?_, ?_⟩ <;>
          with_unfolding_all decide)

/-! ### Float-tag propagation through the pipeline (C10) -/

/-- Every entry of a row carries the Python `float` tag. -/
def FilaFloat (fila : List PyNum) : Prop :=
  ∀ j, j < fila.length → (fila.getD j pyZero).isFloat = true

/-- Row-tag invariant of the reduction: every row either is entirely
float-tagged (it has been normalized, or combined with the float pivot row),
or has magnitude at most `eps` in every pivot column recorded so far. -/
def FilasOk (eps : ℚ) (m : Matriz) (pivots : List ℕ) : Prop :=
  ∀ i, i < filas m → FilaFloat (obtener_fila m i) ∨
    ∀ c ∈ pivots, |(obtener m i c).val| ≤ eps

theorem filas_ok_fila {eps : ℚ} {piv : List ℕ} {m mp : Matriz} {i ip : ℕ}
    (hrow : obtener_fila mp ip = obtener_fila m i)
    (h : FilaFloat (obtener_fila m i) ∨ ∀ c ∈ piv, |(obtener m i c).val| ≤ eps) :
    FilaFloat (obtener_fila mp ip) ∨ ∀ c ∈ piv, |(obtener mp ip c).val| ≤ eps := by
  rcases h with h | h
  · left
    rwa [hrow]
  · right
    intro c hc
    rw [obtener_eq_fila, hrow, ← obtener_eq_fila]
    exact h c hc

theorem filas_ok_intercambiar {eps : ℚ} {m : Matriz} {piv : List ℕ}
    (hInv : FilasOk eps m piv) {i j : ℕ} (hi : i < filas m) (hj : j < filas m) :
    FilasOk eps (intercambiar m i j) piv := by
  intro k hk
  rw [filas_intercambiar] at hk
  by_cases hki : k = i
  · subst hki
    exact filas_ok_fila (obtener_fila_intercambiar_fst hi hj) (hInv j hj)
  · by_cases hkj : k = j
    · subst hkj
      exact filas_ok_fila (obtener_fila_intercambiar_snd hi hj) (hInv i hi)
    · exact filas_ok_fila (obtener_fila_intercambiar_otro m hki hkj) (hInv k hk)

theorem fila_pivote_lt {R : Matriz} {q fila : ℕ} {eps : ℚ}
    (h : fila_pivote R q eps = some fila) : fila < filas R := by
  unfold fila_pivote at h
  rcases h1 : (List.range (filas R)).find?
      (fun i => decide (|(obtener R i q).val - 1| ≤ eps)) with _ | i
  · rw [h1] at h
    have := List.mem_of_find?_eq_some h
    rwa [List.mem_range] at this
  · rw [h1] at h
    injection h with h
    subst h
    have := List.mem_of_find?_eq_some h1
    rwa [List.mem_range] at this

/-- When the row-tag invariant holds and `pcol` is a recorded pivot column,
any row located by `_fila_pivote` for `pcol` is entirely float-tagged: a row
satisfying the small-residual disjunct can match neither the `≈ 1` test nor
the `> eps` test (for `eps < 1/2`). -/
theorem fila_pivote_float {R : Matriz} {pivots : List ℕ} {eps : ℚ}
    (heps2 : eps < 1 / 2) (hInv : FilasOk eps R pivots) {pcol fila : ℕ}
    (hmem : pcol ∈ pivots) (h : fila_pivote R pcol eps = some fila) :
    FilaFloat (obtener_fila R fila) := by
  have hlt : fila < filas R := fila_pivote_lt h
  rcases hInv fila hlt with hfl | hsm
  · exact hfl
  · exfalso
    have hle := hsm pcol hmem
    unfold fila_pivote at h
    rcases h1 : (List.range (filas R)).find?
        (fun i => decide (|(obtener R i pcol).val - 1| ≤ eps)) with _ | i
    · rw [h1] at h
      have h2 := List.find?_some h
      rw [decide_eq_true_iff] at h2
      linarith
    · rw [h1] at h
      injection h with h
      subst h
      have h2 := List.find?_some h1
      rw [decide_eq_true_iff] at h2
      have h3 := abs_sub ((obtener R i pcol).val) ((obtener R i pcol).val - 1)
      have h4 : (obtener R i pcol).val - ((obtener R i pcol).val - 1) = 1 := by
        ring
      rw [h4, abs_one] at h3
      linarith

theorem filafloat_set {x : List PyNum} (hx : FilaFloat x) {a : PyNum}
    (ha : a.isFloat = true) (i : ℕ) : FilaFloat (x.set i a) := by
  intro j hj
  rw [List.length_set] at hj
  by_cases hij : i = j
  · subst hij
    rw [getD_set_self x i hj a pyZero]
    exact ha
  · rw [getD_set_ne x i j hij a pyZero]
    exact hx j hj

theorem filafloat_replicate_zero (nv : ℕ) :
    FilaFloat (List.replicate nv (pyLitFloat 0)) := by
  intro j hj
  rw [List.length_replicate] at hj
  rw [getD_replicate nv j (pyLitFloat 0) pyZero hj]
  rfl

/-- The assignment loop of `resolver` keeps every entry float when each
located pivot row is a float row (the initial vector is `[0.0] * n`). -/
theorem asignar_valores_float {ncols : ℕ} {R : Matriz} {eps : ℚ}
    {col_last : ℕ} (hW : MatrizWF R ncols) (hcl : col_last < ncols) :
    ∀ (piv : List ℕ) (x xq : List PyNum),
    (∀ p ∈ piv, ∀ fila, fila_pivote R p eps = some fila →
      FilaFloat (obtener_fila R fila)) →
    FilaFloat x →
    asignar_valores R eps col_last piv x = some xq → FilaFloat xq := by
  intro piv
  induction piv with
  | nil =>
    intro x xq _ hx h
    rw [asignar_valores] at h
    injection h with h
    subst h
    exact hx
  | cons p0 rest ih =>
    intro x xq hfp hx h
    rw [asignar_valores] at h
    rcases h1 : fila_pivote R p0 eps with _ | fila
    · rw [h1] at h
      exact absurd h (by simp)
    · rw [h1] at h
      have hrow := hfp p0 (List.mem_cons_self p0 rest) fila h1
      have hflt : (obtener R fila col_last).isFloat = true := by
        rw [obtener_eq_fila]
        exact hrow col_last
          (by rw [longitud_obtener_fila hW (fila_pivote_lt h1)]; exact hcl)
      exact ih _ xq (fun p hp => hfp p (List.mem_cons_of_mem p0 hp))
        (filafloat_set hx hflt p0) h

/-- The direction-vector loop of `resolver` keeps every entry float when each
located pivot row is a float row. -/
theorem asignar_direccion_float {ncols : ℕ} {R : Matriz} {eps : ℚ} {f : ℕ}
    (hW : MatrizWF R ncols) (hf : f < ncols) :
    ∀ (piv : List ℕ) (v vq : List PyNum),
    (∀ p ∈ piv, ∀ fila, fila_pivote R p eps = some fila →
      FilaFloat (obtener_fila R fila)) →
    FilaFloat v →
    asignar_direccion R eps f piv v = some vq → FilaFloat vq := by
  intro piv
  induction piv with
  | nil =>
    intro v vq _ hv h
    rw [asignar_direccion] at h
    injection h with h
    subst h
    exact hv
  | cons p0 rest ih =>
    intro v vq hfp hv h
    rw [asignar_direccion] at h
    rcases h1 : fila_pivote R p0 eps with _ | fila
    · rw [h1] at h
      exact absurd h (by simp)
    · rw [h1] at h
      dsimp only at h
      have hrow := hfp p0 (List.mem_cons_self p0 rest) fila h1
      have hflt : (pyNeg (obtener R fila f)).isFloat = true := by
        have hpn : (pyNeg (obtener R fila f)).isFloat =
            (obtener R fila f).isFloat := rfl
        rw [hpn, obtener_eq_fila]
        exact hrow f
          (by rw [longitud_obtener_fila hW (fila_pivote_lt h1)]; exact hf)
      by_cases hc : |(obtener R fila f).val| > eps
      · rw [if_pos hc] at h
        exact ih _ vq (fun p hp => hfp p (List.mem_cons_of_mem p0 hp))
          (filafloat_set hv hflt p0) h
      · rw [if_neg hc] at h
        exact ih _ vq (fun p hp => hfp p (List.mem_cons_of_mem p0 hp)) hv h

/-- The row-tag invariant is preserved by the whole column loop: the swap
permutes rows, normalization turns the pivot row into a float row (it is
scaled by the float `1.0 / pivote`), each executed elimination combines a row
with the float pivot row (making it float), and each skipped elimination
leaves a row whose entry in the new pivot column has magnitude at most
`eps`. -/
theorem a_forma_aux_float {ncols : ℕ} (eps : ℚ) (heps : 0 ≤ eps)
    (registrar : Bool) : ∀ (cols : List ℕ) (st st' : RedEstado),
    MatrizWF st.m ncols → st.r ≤ filas st.m → (∀ c ∈ cols, c < ncols) →
    FilasOk eps st.m st.pivots →
    a_forma_aux seleccionar_pivote eps registrar cols st = some st' →
    FilasOk eps st'.m st'.pivots := by
  intro cols
  induction cols with
  | nil =>
    intro st st' hW hr _ hInv h
    rw [a_forma_aux] at h
    injection h with h
    subst h
    exact hInv
  | cons c rest ih =>
    intro st st' hW hr hcols hInv h
    rw [a_forma_aux] at h
    by_cases hbreak : filas st.m ≤ st.r
    · rw [if_pos hbreak] at h
      injection h with h
      subst h
      exact hInv
    · rw [if_neg hbreak] at h
      rcases hsel : seleccionar_pivote st.m c st.r eps with _ | fila_piv
      · rw [hsel] at h
        exact ih st st' hW hr (fun d hd => hcols d (List.mem_cons_of_mem c hd))
          hInv h
      · rw [hsel] at h
        dsimp only at h
        obtain ⟨hfp1, hfp2, hfp3, -, -⟩ := seleccionar_some_spec hsel
        have hrlt : st.r < filas st.m := by omega
        obtain ⟨hWsw, hfsw⟩ := @intercambio_spec ncols registrar c st
          fila_piv hW hrlt hfp2
        have hInvSw : FilasOk eps (paso_intercambio registrar c st fila_piv).1
            st.pivots := by
          rw [paso_intercambio_matriz]
          by_cases hcase : fila_piv = st.r
          · rw [if_pos hcase]
            exact hInv
          · rw [if_neg hcase]
            exact filas_ok_intercambiar hInv hfp2 hrlt
        rcases hnorm : normalizar_pivote (paso_intercambio registrar c st
            fila_piv).1 st.r c eps with _ | m2
        · rw [hnorm] at h
          exact absurd h (by simp)
        · rw [hnorm] at h
          dsimp only at h
          obtain ⟨hWm2, hfm2, hm2otro, hm2r, -, -⟩ := normalizado_spec heps hWsw
            (by rw [hfsw]; exact hrlt) (hcols c (List.mem_cons_self c rest)) hnorm
          have hrm2 : st.r < filas m2 := by rw [hfm2, hfsw]; exact hrlt
          have hrowr : FilaFloat (obtener_fila m2 st.r) := by
            intro j hj
            rw [longitud_obtener_fila hWm2 hrm2] at hj
            rw [← obtener_eq_fila, hm2r j hj]
            simp [pyMul, pyDiv, pyLitFloat]
          set p2 := nuevo_paso registrar (paso_intercambio registrar c st
            fila_piv).2.1
            (paso_intercambio registrar c st fila_piv).2.2
            Operacion.NORMALIZAR_PIVOTE
            (some st.r) (some c) [] none
            (if registrar then some (como_lista (paso_intercambio registrar c st
              fila_piv).1) else none)
            (some (como_lista m2)) with hp2
          set deb := eliminar_filas eps Operacion.ELIMINAR_DEBAJO registrar st.r c
            (List.range' (st.r + 1) (filas m2 - (st.r + 1))) m2 p2.1 p2.2 with hdeb
          set enc := eliminar_filas eps Operacion.ELIMINAR_ENCIMA registrar st.r c
            (List.range st.r) deb.1 deb.2.1 deb.2.2 with henc
          have helim := @eliminaciones_spec ncols eps registrar st.r c m2
            hWm2 hrm2 p2.1 p2.2
          rw [← hdeb, ← henc] at helim
          obtain ⟨heF, heW, heRowR, heRows⟩ := helim
          have hInvNew : FilasOk eps enc.1 (st.pivots ++ [c]) := by
            intro i hi
            rw [heF] at hi
            by_cases hir : i = st.r
            · subst hir
              left
              rw [heRowR]
              exact hrowr
            · by_cases hcond : eps < |(obtener m2 i c).val|
              · left
                rw [heRows i hir hi, if_pos hcond]
                intro j hj
                rw [List.length_zipWith, longitud_obtener_fila hWm2 hi,
                  longitud_obtener_fila hWm2 hrm2, Nat.min_self] at hj
                rw [getD_zipWith _ _ _ j
                  (by rw [longitud_obtener_fila hWm2 hi]; exact hj)
                  (by rw [longitud_obtener_fila hWm2 hrm2]; exact hj) pyZero]
                have hb : ((obtener_fila m2 st.r).getD j pyZero).isFloat = true :=
                  hrowr j (by rw [longitud_obtener_fila hWm2 hrm2]; exact hj)
                have hshape : (pyAdd ((obtener_fila m2 i).getD j pyZero)
                    (pyMul (pyNeg (obtener m2 i c))
                      ((obtener_fila m2 st.r).getD j pyZero))).isFloat =
                    (((obtener_fila m2 i).getD j pyZero).isFloat ||
                      ((obtener m2 i c).isFloat ||
                        ((obtener_fila m2 st.r).getD j pyZero).isFloat)) := rfl
                rw [hshape, hb, Bool.or_true, Bool.or_true]
              · have hrow2 : obtener_fila enc.1 i = obtener_fila m2 i := by
                  rw [heRows i hir hi, if_neg hcond]
                have hm2disj : FilaFloat (obtener_fila m2 i) ∨
                    ∀ cq ∈ st.pivots ++ [c], |(obtener m2 i cq).val| ≤ eps := by
                  rcases filas_ok_fila (hm2otro i hir)
                      (hInvSw i (by rw [← hfm2]; exact hi)) with hb | hb
                  · exact Or.inl hb
                  · right
                    intro cq hcq
                    rcases List.mem_append.mp hcq with hcp | hcc
                    · exact hb cq hcp
                    · rw [List.mem_singleton] at hcc
                      subst hcc
                      exact le_of_not_lt hcond
                exact filas_ok_fila hrow2 hm2disj
          have hrec := ih ⟨enc.1, st.r + 1, st.pivots ++ [c], enc.2.1, enc.2.2⟩
            st' heW (by dsimp only; rw [heF, hfm2, hfsw]; omega)
            (fun d hd => hcols d (List.mem_cons_of_mem c hd))
            (by dsimp only; exact hInvNew) h
          exact hrec

/-- **C10.** The solve pipeline computes in floating point even for exact
inputs: (1) the solvers facade builds the coefficient matrix with exact
`Fraction` cells (tag `isFloat = false`); (2) `SistemaLineal.__init__`
coerces every entry of the right-hand side `b` to `float`;
(3) `normalizar_pivote` scales the pivot row by the float `1.0 / pivote`, so
the whole normalized row becomes float-tagged; (4) consequently, for any
`Solucion` returned by `solve_Ax_b`, the unique-solution vector `x`, the
particular solution and every direction vector consist entirely of floats
rather than exact rationals. -/
theorem C10_pipeline_flotante :
    (∀ (rows : List (List PyNum)), ∀ fila ∈ matriz_from_rows rows,
      ∀ p ∈ fila, p.isFloat = false) ∧
    (∀ (A : Matriz) (b : List PyNum), ∀ p ∈ (sistema_lineal_mk A b).b,
      p.isFloat = true) ∧
    (∀ (ncols : ℕ) (m : Matriz) (fila col : ℕ) (eps : ℚ) (m2 : Matriz),
      0 ≤ eps → MatrizWF m ncols → fila < filas m → col < ncols →
      normalizar_pivote m fila col eps = some m2 →
      FilaFloat (obtener_fila m2 fila)) ∧
    (∀ (A_rows : List (List PyNum)) (b : List PyNum) (reg : Bool)
      (sol : Solucion) (nv : ℕ),
      MatrizWF (matriz_from_rows A_rows) nv →
      b.length = filas (matriz_from_rows A_rows) →
      solve_Ax_b A_rows b reg = some sol →
      (∀ x, sol.x = some x → FilaFloat x) ∧
      (∀ param, sol.parametrica = some param →
        FilaFloat param.particular ∧ ∀ v ∈ param.direcciones, FilaFloat v)) := by
  refine ⟨?_, ?_, ?_, ?_⟩
  · intro rows fila hfila p hp
    unfold matriz_from_rows to_fraction_matrix at hfila
    rw [List.mem_map] at hfila
    obtain ⟨g, -, rfl⟩ := hfila
    rw [List.mem_map] at hp
    obtain ⟨q, -, rfl⟩ := hp
    rfl
  · intro A b p hp
    unfold sistema_lineal_mk at hp
    rw [List.mem_map] at hp
    obtain ⟨q, -, rfl⟩ := hp
    rfl
  · intro ncols m fila col eps m2 heps hW hfl hcol hnorm
    obtain ⟨hWm2, hfm2, -, hm2r, -, -⟩ := normalizado_spec heps hW hfl hcol hnorm
    intro j hj
    rw [longitud_obtener_fila hWm2 (by rw [hfm2]; exact hfl)] at hj
    rw [← obtener_eq_fila, hm2r j hj]
    simp [pyMul, pyDiv, pyLitFloat]
  · intro A_rows b reg sol nv hW hb hsol
    have hsol2 : resolver (sistema_lineal_mk (matriz_from_rows A_rows) b)
        eps_default reg = some sol := hsol
    obtain ⟨st, hst, hpiv, hfree, hcases⟩ := resolver_cases hsol2
    have hnv : num_variables (sistema_lineal_mk (matriz_from_rows A_rows) b) =
        nv := by
      rw [num_variables_mk, columnas_of_wf hW]
    have hWclon : MatrizWF (clonar (como_matriz_aumentada (sistema_lineal_mk
        (matriz_from_rows A_rows) b))) (nv + 1) := wf_aumentada hW hb
    have hcolslt : ∀ d ∈ List.range (num_variables (sistema_lineal_mk
        (matriz_from_rows A_rows) b)), d < nv + 1 := by
      intro d hd
      rw [List.mem_range, hnv] at hd
      omega
    have hInv0 : FilasOk eps_default (clonar (como_matriz_aumentada
        (sistema_lineal_mk (matriz_from_rows A_rows) b))) [] :=
      fun i hi => Or.inr (fun cq hcq => absurd hcq (List.not_mem_nil cq))
    have hInvFin := @a_forma_aux_float (nv + 1) eps_default
      (by norm_num [eps_default]) reg
      (List.range (num_variables (sistema_lineal_mk (matriz_from_rows A_rows) b)))
      ⟨clonar (como_matriz_aumentada (sistema_lineal_mk (matriz_from_rows A_rows)
        b)), 0, [], [], 0⟩ st hWclon (Nat.zero_le _) hcolslt hInv0 hst
    obtain ⟨hWfin, -, -, -, -, -⟩ := @a_forma_aux_forma (nv + 1) eps_default
      (by norm_num [eps_default]) reg
      (List.range (num_variables (sistema_lineal_mk (matriz_from_rows A_rows) b)))
      ⟨clonar (como_matriz_aumentada (sistema_lineal_mk (matriz_from_rows A_rows)
        b)), 0, [], [], 0⟩ st hWclon (Nat.zero_le _) hcolslt hst
    have hfp : ∀ p ∈ st.pivots, ∀ fila,
        fila_pivote st.m p eps_default = some fila →
        FilaFloat (obtener_fila st.m fila) :=
      fun p hp fila hf =>
        fila_pivote_float (by norm_num [eps_default]) hInvFin hp hf
    have hcl : columnas st.m - 1 < nv + 1 := by
      rw [columnas_of_wf hWfin]
      omega
    rcases hcases with ⟨-, -, hxnone, hpnone⟩ |
      ⟨-, -, -, hpnone, x, hav, hxeq⟩ |
      ⟨-, -, -, hxnone, part, dirs, hav, hcd, hparam⟩
    · refine ⟨?_, ?_⟩
      · intro x hx
        rw [hxnone] at hx
        exact absurd hx (by simp)
      · intro param hp2
        rw [hpnone] at hp2
        exact absurd hp2 (by simp)
    · have hxfl : FilaFloat x :=
        asignar_valores_float hWfin hcl st.pivots _ x hfp
          (filafloat_replicate_zero _) hav
      refine ⟨?_, ?_⟩
      · intro x2 hx2
        rw [hxeq] at hx2
        injection hx2 with h3
        subst h3
        exact hxfl
      · intro param hp2
        rw [hpnone] at hp2
        exact absurd hp2 (by simp)
    · refine ⟨?_, ?_⟩
      · intro x hx
        rw [hxnone] at hx
        exact absurd hx (by simp)
      · intro param hp2
        rw [hparam] at hp2
        injection hp2 with h3
        subst h3
        refine ⟨asignar_valores_float hWfin hcl st.pivots _ part hfp
          (filafloat_replicate_zero _) hav, ?_⟩
        intro v hv
        obtain ⟨f, hfmem, hadz⟩ := construir_direcciones_mem st.m eps_default
          st.pivots (num_variables (sistema_lineal_mk (matriz_from_rows A_rows)
            b)) _ dirs hcd v hv
        have hflt : f < nv + 1 := by
          have := List.mem_filter.mp hfmem
          rw [List.mem_range, hnv] at this
          omega
        exact asignar_direccion_float hWfin hflt st.pivots _ v hfp
          (filafloat_set (filafloat_replicate_zero _) rfl f) hadz

/-- Witness for C10: the exact integer system `A = [[1,2],[3,4]]`,
`b = [5,11]` goes through `solve_Ax_b` and produces the float-tagged unique
solution `x = [1.0, 2.0]` even though every input cell is exact. -/
theorem C10_pipeline_flotante_witness :
    solve_Ax_b [[⟨false, 1⟩, ⟨false, 2⟩], [⟨false, 3⟩, ⟨false, 4⟩]]
      [⟨false, 5⟩, ⟨false, 11⟩] false =
      some ⟨Estado.UNICA, some [⟨true, 1⟩, ⟨true, 2⟩], some [0, 1], some [],
        none, none⟩ ∧
    FilaFloat [⟨true, 1⟩, ⟨true, 2⟩] := by
  have hrun : solve_Ax_b [[⟨false, 1⟩, ⟨false, 2⟩], [⟨false, 3⟩, ⟨false, 4⟩]]
      [⟨false, 5⟩, ⟨false, 11⟩] false =
      some ⟨Estado.UNICA, some [⟨true, 1⟩, ⟨true, 2⟩], some [0, 1], some [],
        none, none⟩ := by
    with_unfolding_all rfl
  refine ⟨hrun, ?_⟩
  have hW : MatrizWF (matriz_from_rows
      [[⟨false, 1⟩, ⟨false, 2⟩], [⟨false, 3⟩, ⟨false, 4⟩]]) 2 := by
    refine ⟨by simp [matriz_from_rows, to_fraction_matrix], ?_⟩
    intro fila hf
    rcases List.mem_cons.mp hf with h | h
    · subst h; rfl
    · have h2 := List.mem_singleton.mp h
      subst h2; rfl
  exact (C10_pipeline_flotante.2.2.2
    [[⟨false, 1⟩, ⟨false, 2⟩], [⟨false, 3⟩, ⟨false, 4⟩]]
    [⟨false, 5⟩, ⟨false, 11⟩] false
    ⟨Estado.UNICA, some [⟨true, 1⟩, ⟨true, 2⟩], some [0, 1], some [],
      none, none⟩ 2 hW rfl hrun).1 [⟨true, 1⟩, ⟨true, 2⟩] rfl

/-- Helper for concrete well-formedness proofs on two-row matrices. -/
theorem wf_de_filas {c : ℕ} (f1 f2 : List PyNum) (h1 : f1.length = c)
    (h2 : f2.length = c) : MatrizWF [f1, f2] c := by
  refine ⟨by simp, ?_⟩
  intro fila hf
  rcases List.mem_cons.mp hf with h | h
  · subst h
    exact h1
  · have h3 := List.mem_singleton.mp h
    subst h3
    exact h2

/-- Witness for C1 (amended): the exact system `[[1,2],[3,4]] x = [5,11]`
solved at `eps = 0` gives `x = [1.0, 2.0]`, which satisfies both equations
exactly. -/
theorem C1_unica_exacta_witness :
    resolver (sistema_lineal_mk [[⟨false, 1⟩, ⟨false, 2⟩], [⟨false, 3⟩, ⟨false, 4⟩]]
      [⟨false, 5⟩, ⟨false, 11⟩]) 0 false =
      some ⟨Estado.UNICA, some [⟨true, 1⟩, ⟨true, 2⟩], some [0, 1], some [],
        none, none⟩ ∧
    dotv (obtener_fila [[⟨false, 1⟩, ⟨false, 2⟩], [⟨false, 3⟩, ⟨false, 4⟩]] 0)
      ([(⟨true, (1 : ℚ)⟩ : PyNum), ⟨true, 2⟩].map PyNum.val) =
      (([(⟨false, 5⟩ : PyNum), ⟨false, 11⟩]).getD 0 pyZero).val ∧
    dotv (obtener_fila [[⟨false, 1⟩, ⟨false, 2⟩], [⟨false, 3⟩, ⟨false, 4⟩]] 1)
      ([(⟨true, (1 : ℚ)⟩ : PyNum), ⟨true, 2⟩].map PyNum.val) =
      (([(⟨false, 5⟩ : PyNum), ⟨false, 11⟩]).getD 1 pyZero).val := by
  have hrun : resolver (sistema_lineal_mk
      [[⟨false, 1⟩, ⟨false, 2⟩], [⟨false, 3⟩, ⟨false, 4⟩]]
      [⟨false, 5⟩, ⟨false, 11⟩]) 0 false =
      some ⟨Estado.UNICA, some [⟨true, 1⟩, ⟨true, 2⟩], some [0, 1], some [],
        none, none⟩ := by
    with_unfolding_all rfl
  have hmain := C1_unica_exacta
    [[⟨false, 1⟩, ⟨false, 2⟩], [⟨false, 3⟩, ⟨false, 4⟩]]
    [⟨false, 5⟩, ⟨false, 11⟩] 2 false
    ⟨Estado.UNICA, some [⟨true, 1⟩, ⟨true, 2⟩], some [0, 1], some [],
      none, none⟩ [⟨true, 1⟩, ⟨true, 2⟩]
    (wf_de_filas _ _ rfl rfl) rfl hrun rfl rfl
  exact ⟨hrun, hmain 0 (by with_unfolding_all decide),
    hmain 1 (by with_unfolding_all decide)⟩

/-- Witness for C2: the system `[[1,1],[2,2]] x = [3,8]` reduces to a matrix
whose second row is `[0, 0, -1]`; row 1 triggers the inconsistency
characterization, and `resolver` indeed reports INCONSISTENTE. -/
theorem C2_inconsistencia_caracterizada_witness :
    resolver (sistema_lineal_mk [[⟨false, 1⟩, ⟨false, 1⟩], [⟨false, 2⟩, ⟨false, 2⟩]]
      [⟨false, 3⟩, ⟨false, 8⟩]) eps_default false =
      some ⟨Estado.INCONSISTENTE, none, some [0], some [1], none, none⟩ ∧
    a_forma_escalonada_reducida (como_matriz_aumentada (sistema_lineal_mk
        [[⟨false, 1⟩, ⟨false, 1⟩], [⟨false, 2⟩, ⟨false, 2⟩]]
        [⟨false, 3⟩, ⟨false, 8⟩]))
      (num_variables (sistema_lineal_mk
        [[⟨false, 1⟩, ⟨false, 1⟩], [⟨false, 2⟩, ⟨false, 2⟩]]
        [⟨false, 3⟩, ⟨false, 8⟩])) seleccionar_pivote eps_default false =
      some (⟨[[⟨true, 1⟩, ⟨true, 1⟩, ⟨true, 4⟩],
        [⟨true, 0⟩, ⟨true, 0⟩, ⟨true, -1⟩]], [0], 1⟩, []) ∧
    (⟨Estado.INCONSISTENTE, none, some [0], some [1], none,
      none⟩ : Solucion).estado = Estado.INCONSISTENTE := by
  have hrun : resolver (sistema_lineal_mk
      [[⟨false, 1⟩, ⟨false, 1⟩], [⟨false, 2⟩, ⟨false, 2⟩]]
      [⟨false, 3⟩, ⟨false, 8⟩]) eps_default false =
      some ⟨Estado.INCONSISTENTE, none, some [0], some [1], none, none⟩ := by
    with_unfolding_all rfl
  have hred : a_forma_escalonada_reducida (como_matriz_aumentada
      (sistema_lineal_mk [[⟨false, 1⟩, ⟨false, 1⟩], [⟨false, 2⟩, ⟨false, 2⟩]]
        [⟨false, 3⟩, ⟨false, 8⟩]))
      (num_variables (sistema_lineal_mk
        [[⟨false, 1⟩, ⟨false, 1⟩], [⟨false, 2⟩, ⟨false, 2⟩]]
        [⟨false, 3⟩, ⟨false, 8⟩])) seleccionar_pivote eps_default false =
      some (⟨[[⟨true, 1⟩, ⟨true, 1⟩, ⟨true, 4⟩],
        [⟨true, 0⟩, ⟨true, 0⟩, ⟨true, -1⟩]], [0], 1⟩, []) := by
    with_unfolding_all rfl
  refine ⟨hrun, hred, ?_⟩
  exact (C2_inconsistencia_caracterizada _ eps_default false _ _ [] hred
    hrun).mpr ⟨1, by with_unfolding_all decide,
      (by intro j hj
          have hj2 : j < 2 := hj
          interval_cases j <;> with_unfolding_all decide),
      by with_unfolding_all decide⟩

/-- Witness for C3 (amended): in the column `[3, -5]` the argmax row 1 is
selected (even though `|-5| > |3|` requires passing row 0), its entry is
nonzero and dominates row 0, and the selection ignores `eps`. -/
theorem C3_seleccion_argmax_witness :
    seleccionar_pivote [[⟨false, 3⟩], [⟨false, -5⟩]] 0 0 eps_default = some 1 ∧
    (obtener [[⟨false, 3⟩], [⟨false, -5⟩]] 1 0).val ≠ 0 ∧
    |(obtener [[⟨false, 3⟩], [⟨false, -5⟩]] 0 0).val| ≤
      |(obtener [[⟨false, 3⟩], [⟨false, -5⟩]] 1 0).val| ∧
    seleccionar_pivote [[⟨false, 3⟩], [⟨false, -5⟩]] 0 0 eps_default =
      seleccionar_pivote [[⟨false, 3⟩], [⟨false, -5⟩]] 0 0 0 := by
  have hsel : seleccionar_pivote [[⟨false, 3⟩], [⟨false, -5⟩]] 0 0 eps_default =
      some 1 := by
    with_unfolding_all rfl
  obtain ⟨hsome, -, hsame⟩ := C3_seleccion_argmax
    [[⟨false, 3⟩], [⟨false, -5⟩]] 0 0 eps_default (by with_unfolding_all decide)
  obtain ⟨-, -, h3, h4, -⟩ := hsome 1 hsel
  exact ⟨hsel, h3, h4 0 (Nat.zero_le _) (by with_unfolding_all decide), hsame⟩

/-- Witness for C4 (amended): the system `[[1,2,0],[0,0,1]] x = [3,1]` at
`eps = 0` is INFINITAS with the single direction `[-2.0, 1.0, 0.0]`, which
annihilates both rows of `A` exactly. -/
theorem C4_direcciones_en_nucleo_witness :
    resolver (sistema_lineal_mk
      [[⟨false, 1⟩, ⟨false, 2⟩, ⟨false, 0⟩], [⟨false, 0⟩, ⟨false, 0⟩, ⟨false, 1⟩]]
      [⟨false, 3⟩, ⟨false, 1⟩]) 0 false =
      some ⟨Estado.INFINITAS, none, some [0, 2], some [1],
        some ⟨[⟨true, 3⟩, ⟨true, 0⟩, ⟨true, 1⟩],
          [[⟨true, -2⟩, ⟨true, 1⟩, ⟨true, 0⟩]], [1]⟩, none⟩ ∧
    dotv (obtener_fila [[⟨false, 1⟩, ⟨false, 2⟩, ⟨false, 0⟩],
        [⟨false, 0⟩, ⟨false, 0⟩, ⟨false, 1⟩]] 0)
      ([(⟨true, (-2 : ℚ)⟩ : PyNum), ⟨true, 1⟩, ⟨true, 0⟩].map PyNum.val) = 0 ∧
    dotv (obtener_fila [[⟨false, 1⟩, ⟨false, 2⟩, ⟨false, 0⟩],
        [⟨false, 0⟩, ⟨false, 0⟩, ⟨false, 1⟩]] 1)
      ([(⟨true, (-2 : ℚ)⟩ : PyNum), ⟨true, 1⟩, ⟨true, 0⟩].map PyNum.val) = 0 := by
  have hrun : resolver (sistema_lineal_mk
      [[⟨false, 1⟩, ⟨false, 2⟩, ⟨false, 0⟩], [⟨false, 0⟩, ⟨false, 0⟩, ⟨false, 1⟩]]
      [⟨false, 3⟩, ⟨false, 1⟩]) 0 false =
      some ⟨Estado.INFINITAS, none, some [0, 2], some [1],
        some ⟨[⟨true, 3⟩, ⟨true, 0⟩, ⟨true, 1⟩],
          [[⟨true, -2⟩, ⟨true, 1⟩, ⟨true, 0⟩]], [1]⟩, none⟩ := by
    with_unfolding_all rfl
  have hmain := C4_direcciones_en_nucleo.1
    [[⟨false, 1⟩, ⟨false, 2⟩, ⟨false, 0⟩], [⟨false, 0⟩, ⟨false, 0⟩, ⟨false, 1⟩]]
    [⟨false, 3⟩, ⟨false, 1⟩] 3 false
    ⟨Estado.INFINITAS, none, some [0, 2], some [1],
      some ⟨[⟨true, 3⟩, ⟨true, 0⟩, ⟨true, 1⟩],
        [[⟨true, -2⟩, ⟨true, 1⟩, ⟨true, 0⟩]], [1]⟩, none⟩
    ⟨[⟨true, 3⟩, ⟨true, 0⟩, ⟨true, 1⟩],
      [[⟨true, -2⟩, ⟨true, 1⟩, ⟨true, 0⟩]], [1]⟩
    [⟨true, -2⟩, ⟨true, 1⟩, ⟨true, 0⟩]
    (wf_de_filas _ _ rfl rfl) rfl hrun rfl
    (List.mem_singleton.mpr rfl)
  exact ⟨hrun, hmain 0 (by with_unfolding_all decide),
    hmain 1 (by with_unfolding_all decide)⟩

/-- Witness for C5: normalizing the pivot `2` scales row 0 to `[1.0, 2.0]`
and leaves row 1 untouched, while the all-zero single-cell matrix triggers
the numerically-zero-pivot error. -/
theorem C5_normalizar_pivote_witness :
    normalizar_pivote [[⟨false, 2⟩, ⟨false, 4⟩], [⟨false, 0⟩, ⟨false, 1⟩]] 0 0
      eps_default = some [[⟨true, 1⟩, ⟨true, 2⟩], [⟨false, 0⟩, ⟨false, 1⟩]] ∧
    (obtener [[⟨true, 1⟩, ⟨true, 2⟩], [⟨false, 0⟩, ⟨false, 1⟩]] 0 0).val = 1 ∧
    obtener_fila [[⟨true, 1⟩, ⟨true, 2⟩], [⟨false, 0⟩, ⟨false, 1⟩]] 1 =
      obtener_fila [[⟨false, 2⟩, ⟨false, 4⟩], [⟨false, 0⟩, ⟨false, 1⟩]] 1 ∧
    normalizar_pivote [[⟨false, 0⟩]] 0 0 eps_default = none := by
  have hnorm : normalizar_pivote
      [[⟨false, 2⟩, ⟨false, 4⟩], [⟨false, 0⟩, ⟨false, 1⟩]] 0 0 eps_default =
      some [[⟨true, 1⟩, ⟨true, 2⟩], [⟨false, 0⟩, ⟨false, 1⟩]] := by
    with_unfolding_all rfl
  obtain ⟨-, hsome⟩ := C5_normalizar_pivote
    [[⟨false, 2⟩, ⟨false, 4⟩], [⟨false, 0⟩, ⟨false, 1⟩]] 2 0 0 eps_default
    (by norm_num [eps_default]) (wf_de_filas _ _ rfl rfl)
    (by with_unfolding_all decide) (by norm_num)
  obtain ⟨-, h2, h3⟩ := hsome _ hnorm
  refine ⟨hnorm, h2, h3 1 (by norm_num), ?_⟩
  obtain ⟨hiffz, -⟩ := C5_normalizar_pivote [[⟨false, 0⟩]] 1 0 0 eps_default
    (by norm_num [eps_default])
    (⟨by simp, by intro fila hf
                  have h4 := List.mem_singleton.mp hf
                  subst h4
                  rfl⟩)
    (by with_unfolding_all decide) (by norm_num)
  exact hiffz.mpr (by with_unfolding_all decide)

/-- Witness for C7: solving `I X = [[1,2],[3,4]]` column by column yields two
UNICA columns, and the aggregate equals the worst per-column outcome. -/
theorem C7_agregado_es_peor_witness :
    solve_AX_B [[⟨false, 1⟩, ⟨false, 0⟩], [⟨false, 0⟩, ⟨false, 1⟩]]
      [[⟨false, 1⟩, ⟨false, 2⟩], [⟨false, 3⟩, ⟨false, 4⟩]] false =
      some [(0, ⟨Estado.UNICA, some [⟨true, 1⟩, ⟨true, 3⟩], some [0, 1],
          some [], none, none⟩),
        (1, ⟨Estado.UNICA, some [⟨true, 2⟩, ⟨true, 4⟩], some [0, 1],
          some [], none, none⟩)] ∧
    aggregate_status ([(0, (⟨Estado.UNICA, some [⟨true, 1⟩, ⟨true, 3⟩],
        some [0, 1], some [], none, none⟩ : Solucion)),
      (1, ⟨Estado.UNICA, some [⟨true, 2⟩, ⟨true, 4⟩], some [0, 1],
        some [], none, none⟩)].map (fun p => p.2.estado)) =
      peor_estado ([(0, (⟨Estado.UNICA, some [⟨true, 1⟩, ⟨true, 3⟩],
        some [0, 1], some [], none, none⟩ : Solucion)),
      (1, ⟨Estado.UNICA, some [⟨true, 2⟩, ⟨true, 4⟩], some [0, 1],
        some [], none, none⟩)].map (fun p => p.2.estado)) := by
  have hrun : solve_AX_B [[⟨false, 1⟩, ⟨false, 0⟩], [⟨false, 0⟩, ⟨false, 1⟩]]
      [[⟨false, 1⟩, ⟨false, 2⟩], [⟨false, 3⟩, ⟨false, 4⟩]] false =
      some [(0, ⟨Estado.UNICA, some [⟨true, 1⟩, ⟨true, 3⟩], some [0, 1],
          some [], none, none⟩),
        (1, ⟨Estado.UNICA, some [⟨true, 2⟩, ⟨true, 4⟩], some [0, 1],
          some [], none, none⟩)] := by
    with_unfolding_all rfl
  exact ⟨hrun, C7_agregado_es_peor _ _ false _ hrun⟩

/-- Witness for C8: reducing the one-cell object `[[1]]` through the object
store leaves the caller's object unchanged (the clone holds `[[1.0]]`). -/
theorem C8_reduccion_no_muta_witness :
    heap_reducir [[[⟨false, 1⟩]]] 0 1 eps_default false =
      some ([[[⟨false, 1⟩]], [[⟨true, 1⟩]]], ⟨[[⟨true, 1⟩]], [0], 1⟩, []) ∧
    ([[[(⟨false, 1⟩ : PyNum)]], [[⟨true, 1⟩]]] : Almacen).getD 0 [] =
      ([[[(⟨false, 1⟩ : PyNum)]]] : Almacen).getD 0 [] := by
  have hrun : heap_reducir [[[⟨false, 1⟩]]] 0 1 eps_default false =
      some ([[[⟨false, 1⟩]], [[⟨true, 1⟩]]], ⟨[[⟨true, 1⟩]], [0], 1⟩, []) := by
    with_unfolding_all rfl
  exact ⟨hrun, (C8_reduccion_no_muta [[[⟨false, 1⟩]]] 0 1 eps_default false
    (by norm_num)).1 _ _ _ hrun⟩

/-- Witness for C9: a 2-row matrix with a single variable column produces one
pivot, within the bound `min(2, 1) = 1`. -/
theorem C9_pivotes_acotados_witness :
    a_forma_escalonada_reducida
      [[⟨false, 1⟩, ⟨false, 2⟩], [⟨false, 2⟩, ⟨false, 4⟩]] 1
      seleccionar_pivote eps_default false =
      some (⟨[[⟨true, 1⟩, ⟨true, 2⟩], [⟨true, 0⟩, ⟨true, 0⟩]], [0], 1⟩, []) ∧
    ([0] : List ℕ).length ≤
      min (filas [[(⟨false, 1⟩ : PyNum), ⟨false, 2⟩], [⟨false, 2⟩, ⟨false, 4⟩]]) 1 := by
  have hrun : a_forma_escalonada_reducida
      [[⟨false, 1⟩, ⟨false, 2⟩], [⟨false, 2⟩, ⟨false, 4⟩]] 1
      seleccionar_pivote eps_default false =
      some (⟨[[⟨true, 1⟩, ⟨true, 2⟩], [⟨true, 0⟩, ⟨true, 0⟩]], [0], 1⟩, []) := by
    with_unfolding_all rfl
  refine ⟨hrun, ?_⟩
  exact C9_pivotes_acotados
    [[⟨false, 1⟩, ⟨false, 2⟩], [⟨false, 2⟩, ⟨false, 4⟩]] 1 2 eps_default false
    ⟨[[⟨true, 1⟩, ⟨true, 2⟩], [⟨true, 0⟩, ⟨true, 0⟩]], [0], 1⟩ []
    (wf_de_filas _ _ rfl rfl) (by norm_num) (by norm_num [eps_default]) hrun
